import Mathlib

/-! # AtlasMapViewer: world-state aggregation and ranking engine

A shallow embedding of the Go sources under `Src/generator` and the properties
proved about them.

Conventions of the embedding

* a Go slice is a `List`; a Go `map` is an association list whose keys are
  pairwise distinct, and the order in which a `range` loop visits a map is an
  explicit list (any permutation of the entries);
* Go `int`, `uint64`, ... are `Int` / `Nat`; wrap-around is written out with
  `% 2 ^ w` at the places where the code can reach it;
* a Go function returning `(value, error)` returns a pair whose second
  component is an `Option` (`none` is the `nil` error), because callers in this
  code base use the value even when the error is set;
* loops are structural recursions, either on the data they run over or on an
  explicit iteration budget that is large enough for the loop to finish;
* a value read from the store is a Go string, the list of its bytes; a panic
  of a slice expression is the result `none`, and `log.Fatal` is a flag that
  ends the loop;
* `json.Unmarshal`, `json.Marshal`, `strconv.ParseFloat` and `strings.ToLower`
  are parameters of the functions that call them.
-/

namespace AtlasMapViewer

/-! ## Data model (`island.go`, `tribes.go`) -/

/-- The four 8-bit channels of Go's `color.NRGBA`. -/
structure NRGBA where
  R : Nat
  G : Nat
  B : Nat
  A : Nat

/-- The struct `IslandClaim` of `island.go`: the JSON stored in Redis for an
island, and the fields computed for it. -/
structure IslandClaim where
  IslandID : Int
  SettlementFlagName : String
  OwnerTribeID : Nat
  OwnerName : String
  CombatPhaseStartTime : Int
  LastUTCTimeAdjustedCombatPhase : Int
  TaxRate : Float
  BIsContested : Bool
  NumSettlers : Int
  X : Float
  Y : Float
  Radius : Float
  Color : NRGBA
  ColorName : String
  IslandPoints : Int
  WarringTribeID : Nat
  WarStartUTC : Nat
  WarEndUTC : Nat

/-- The struct `TribeCount` of `tribes.go`. The defaults are Go's zero values. -/
structure TribeCount where
  tribeID : Nat
  name : String := ""
  count : Int
  flagURL : Option String := none
  islands : List IslandClaim := []

/-- The slice type `TribeCountHeap` of `tribes.go`. -/
abbrev TribeCountHeap := List TribeCount

/-- Exchange of the elements at two indices of a slice, `s[i], s[j] = s[j], s[i]`.
Both indices are in range wherever the code performs the exchange. -/
def swapAt {α : Type} (l : List α) (i j : Nat) : List α :=
  match l[i]?, l[j]? with
  | some a, some b => (l.set i b).set j a
  | _, _ => l

/-- The comparison made by `TribeCountHeap.Less` on the two elements it reads:
smaller count first, and for equal counts smaller tribeID first. -/
def TribeCount.less (a b : TribeCount) : Bool :=
  if a.count < b.count then true
  else if a.count = b.count then decide (a.tribeID < b.tribeID)
  else false

/-- The method `Len` of `TribeCountHeap`. -/
def TribeCountHeap.Len (h : TribeCountHeap) : Nat := h.length

/-- The method `Less(i, j)` of `TribeCountHeap`. -/
def TribeCountHeap.Less (h : TribeCountHeap) (i j : Nat) : Bool :=
  match h[i]?, h[j]? with
  | some a, some b => a.less b
  | _, _ => false

/-- The method `Swap(i, j)` of `TribeCountHeap`. -/
def TribeCountHeap.Swap (h : TribeCountHeap) (i j : Nat) : TribeCountHeap :=
  swapAt h i j

/-! ## Go's `container/heap`, as called on a `TribeCountHeap` -/

/-- The loop of `heap.down(h, i0, n)`: sift the element at `i` down inside
`h[0:n]`. The first argument bounds the number of iterations; every iteration
at least doubles `i`, so `n` iterations are never used up. -/
def heap.downLoop : Nat → TribeCountHeap → Nat → Nat → TribeCountHeap
  | 0, h, _, _ => h
  | fuel + 1, h, i, n =>
    let j1 := 2 * i + 1
    if j1 ≥ n then h
    else
      let j := if j1 + 1 < n && h.Less (j1 + 1) j1 then j1 + 1 else j1
      if !h.Less j i then h
      else heap.downLoop fuel (h.Swap i j) j n

/-- The function `heap.down(h, i0, n)`; its boolean result is used by none of
the callers here. -/
def heap.down (h : TribeCountHeap) (i0 n : Nat) : TribeCountHeap :=
  heap.downLoop n h i0 n

/-- The loop of `heap.up(h, j)`: sift the element at `j` up. The parent index
`(j - 1) / 2` is `0` for `j = 0` in Go (division truncates towards zero), as it
is here with truncated subtraction. -/
def heap.upLoop : Nat → TribeCountHeap → Nat → TribeCountHeap
  | 0, h, _ => h
  | fuel + 1, h, j =>
    let i := (j - 1) / 2
    if i = j || !h.Less j i then h
    else heap.upLoop fuel (h.Swap i j) i

/-- The function `heap.up(h, j)`; every iteration strictly decreases `j`. -/
def heap.up (h : TribeCountHeap) (j : Nat) : TribeCountHeap :=
  heap.upLoop (j + 1) h j

/-- The loop of `heap.Init`, `for i := n/2 - 1; i >= 0; i-- { down(h, i, n) }`;
the first argument is `i + 1`. -/
def heap.initLoop : Nat → TribeCountHeap → Nat → TribeCountHeap
  | 0, h, _ => h
  | i + 1, h, n => heap.initLoop i (heap.down h i n) n

/-- The function `heap.Init(h)`. -/
def heap.Init (h : TribeCountHeap) : TribeCountHeap :=
  heap.initLoop (h.Len / 2) h h.Len

/-- The function `heap.Push(h, x)`: append, then sift the new last element up. -/
def heap.Push (h : TribeCountHeap) (x : TribeCount) : TribeCountHeap :=
  let h1 := h ++ [x]
  heap.up h1 (h1.Len - 1)

/-- The function `heap.Pop(h)`, as the slice it leaves behind: exchange the
first and the last element, sift down inside `h[0:n]`, cut the last element off.
`TopNTribes` discards the element returned. On an empty slice the Go function
panics; `TopNTribes` calls it only on a non-empty one. -/
def heap.Pop (h : TribeCountHeap) : TribeCountHeap :=
  let n := h.Len - 1
  (heap.down (h.Swap 0 n) 0 n).dropLast

/-! ## `TopNTribes` (`tribes.go`) -/

/-- One iteration of the `range *counts` loop of `TopNTribes`; the state is the
slice `pq` and the counter `i`. -/
def TopNTribes.step (n : Int) (s : TribeCountHeap × Nat) (v : TribeCount) :
    TribeCountHeap × Nat :=
  let pq := s.1
  let i := s.2
  if (i : Int) < n then
    (pq ++ [v], i + 1)
  else
    let pq1 := if (i : Int) = n then heap.Init pq else pq
    let pq2 := heap.Push pq1 v
    let pq3 := if (pq2.Len : Int) > n then heap.Pop pq2 else pq2
    (pq3, i + 1)

/-- The draining loop `for ; pq.Len() > 0; heap.Pop(&pq) { results = append(results,
pq[0].tribeID) }`. The first argument bounds the number of iterations; each one
shortens `pq` by one element. -/
def TopNTribes.drain : Nat → TribeCountHeap → List Nat → List Nat
  | 0, _, results => results
  | fuel + 1, pq, results =>
    match pq with
    | [] => results
    | x :: _ => TopNTribes.drain fuel (heap.Pop pq) (results ++ [x.tribeID])

/-- The reversing loop `for i := len(results)/2 - 1; i >= 0; i-- { opp := len(results)
- 1 - i; results[i], results[opp] = results[opp], results[i] }`; the first
argument is `i + 1`. -/
def TopNTribes.reverseLoop : Nat → List Nat → List Nat
  | 0, results => results
  | i + 1, results =>
    TopNTribes.reverseLoop i (swapAt results i (results.length - 1 - i))

/-- The function `TopNTribes(n, counts)`. The map `*counts` is given by its
values in the order in which the `range` loop visits them. -/
def TopNTribes (n : Int) (counts : List TribeCount) : List Nat :=
  let s := counts.foldl (TopNTribes.step n) ([], 0)
  let pq := if (s.2 : Int) ≤ n then heap.Init s.1 else s.1
  let results := TopNTribes.drain pq.Len pq []
  TopNTribes.reverseLoop (results.length / 2) results

/-- The ranking the specification describes: an owner ranks ahead of another
when its count is higher, or the counts are equal and its tribeID is not
lower. -/
def ranksAhead (a b : TribeCount) : Prop :=
  b.count < a.count ∨ (b.count = a.count ∧ b.tribeID ≤ a.tribeID)

instance : DecidableRel ranksAhead := fun a b => by
  unfold ranksAhead
  exact inferInstance

/-- The result the specification describes for the top-N selection: the ids of
the first `n` owners when the owners are sorted by descending count, equal
counts by descending tribeID. -/
def topNBySorting (n : Nat) (counts : List TribeCount) : List Nat :=
  ((counts.insertionSort ranksAhead).take n).map (fun t => t.tribeID)

/-- The six owners of the example in the specification: totals
`{1:10, 2:10, 3:30, 4:5, 5:10, 6:1}`. -/
def exampleOwners : List TribeCount :=
  [{ tribeID := 1, count := 10 }, { tribeID := 2, count := 10 }, { tribeID := 3, count := 30 },
   { tribeID := 4, count := 5 }, { tribeID := 5, count := 10 }, { tribeID := 6, count := 1 }]

/-! ## Entity records (`entity.go`) -/

/-- The struct `EntityInfo` of `entity.go`; `ServerID` is the array `[2]uint16`
as the pair `(ServerID[0], ServerID[1])`. -/
structure EntityInfo where
  EntityID : String
  ParentEntityID : String
  EntityType : String
  EntitySubType : String
  EntityName : String
  TribeID : String
  ServerXRelativeLocation : Float
  ServerYRelativeLocation : Float
  ServerID : Nat × Nat
  LastUpdatedDBAt : Nat
  NextAllowedUseTime : Nat

/-- The two errors of Go's `strconv` number parsing, `ErrSyntax` and `ErrRange`. -/
inductive NumError where
  | ErrSyntax
  | ErrRange
  deriving DecidableEq, Repr

/-- The constant `cutoff` of `strconv.ParseUint` for base 10: `maxUint64/10 + 1`. -/
def ParseUint.cutoff : Nat := (2 ^ 64 - 1) / 10 + 1

/-- The loop of Go's `strconv.ParseUint(s, 10, bitSize)` over the text, with the
accumulator `n` (a `uint64`) and `maxVal = 1<<bitSize - 1`. A byte that is not
a decimal digit ends the loop with `(0, ErrSyntax)`: a letter has digit value at
least 10, the base, and any other byte is no digit at all; this is so for every
byte of a character outside ASCII, which is why the loop may run over
characters. An overflow ends it with `(maxVal, ErrRange)`. -/
def ParseUint.loop (maxVal : Nat) : List Char → Nat → Nat × Option NumError
  | [], n => (n, none)
  | c :: cs, n =>
    if '0' ≤ c ∧ c ≤ '9' then
      let d := c.toNat - '0'.toNat
      if n ≥ ParseUint.cutoff then (maxVal, some NumError.ErrRange)
      else
        let n10 := (n * 10) % 2 ^ 64
        let n1 := (n10 + d) % 2 ^ 64
        if n1 < n10 ∨ n1 > maxVal then (maxVal, some NumError.ErrRange)
        else ParseUint.loop maxVal cs n1
    else (0, some NumError.ErrSyntax)

/-- Go's `strconv.ParseUint(s, 10, bitSize)`: the value and the error it returns.
The base is 10 in every call of this code base. -/
def ParseUint (s : String) (bitSize : Nat) : Nat × Option NumError :=
  if s = "" then (0, some NumError.ErrSyntax)
  else ParseUint.loop (2 ^ bitSize - 1) s.toList 0

/-- Go's `binary.LittleEndian.PutUint32(buf, v)`: the four bytes written. -/
def LittleEndian.PutUint32 (v : Nat) : List Nat :=
  [v % 256, (v >>> 8) % 256, (v >>> 16) % 256, (v >>> 24) % 256]

/-- Go's `binary.LittleEndian.Uint16(b)`: `uint16(b[0]) | uint16(b[1])<<8`. -/
def LittleEndian.Uint16 (b : List Nat) : Nat :=
  (b.getD 0 0 ||| (b.getD 1 0 <<< 8)) % 2 ^ 16

/-- The function `serverID(packed)` of `entity.go`: the pair `split` and the
error. On a parse error the function returns early, `split` still zero. -/
def serverID (packed : String) : (Nat × Nat) × Option NumError :=
  let r := ParseUint packed 32
  match r.2 with
  | some err => ((0, 0), some err)
  | none =>
    let buf := LittleEndian.PutUint32 (r.1 % 2 ^ 32)
    ((LittleEndian.Uint16 (buf.take 2), LittleEndian.Uint16 (buf.drop 2)), none)

/-- The function `serverIDfromXY(x, y)` of `tribes.go`, `(x << 16) | y`, on the
non-negative arguments it is called with. -/
def serverIDfromXY (x y : Nat) : Nat := (x <<< 16) ||| y

/-- The decimal digits of `v`, most significant first; the first argument bounds
the number of digits. -/
def decimalDigits : Nat → Nat → List Char
  | 0, _ => []
  | fuel + 1, v =>
    if v < 10 then [Nat.digitChar v]
    else decimalDigits fuel (v / 10) ++ [Nat.digitChar (v % 10)]

/-- The decimal string of a natural number, as `strconv.Itoa` and
`strconv.FormatUint(v, 10)` write it. -/
def decimalString (v : Nat) : String := String.mk (decimalDigits (v + 1) v)

/-- A record of the store, Go's `map[string]string`. -/
abbrev Record := List (String × String)

/-- The map read `record[key]`, the empty string for a missing key. -/
def Record.get (record : Record) (key : String) : String := (record.lookup key).getD ""

/-- Go's `strings.Contains(s, substr)` on the characters of the two strings. -/
def containsChars : List Char → List Char → Bool
  | [], sub => sub.isEmpty
  | c :: cs, sub => sub.isPrefixOf (c :: cs) || containsChars cs sub

/-- Go's `strings.Contains(s, substr)`. -/
def stringsContains (s substr : String) : Bool := containsChars s.toList substr.toList

/-- The function `newEntityInfo(record)` of `entity.go`. The values of Go's
`strconv.ParseFloat(_, 64)` and `strings.ToLower` are parameters. -/
def newEntityInfo (parseFloat : String → Float) (toLower : String → String)
    (record : Record) : EntityInfo :=
  let tmpTribeID :=
    match record.lookup "TribeID" with
    | some t => t
    | none => record.get "TribeId"
  let tmpServerID :=
    match record.lookup "ServerID" with
    | some t => t
    | none => record.get "ServerId"
  let tmpEntityClass :=
    toLower (match record.lookup "EntityClass" with
      | some c => c
      | none => "none")
  { EntityID := record.get "EntityID"
    ParentEntityID := record.get "ParentEntityID"
    EntityName := record.get "EntityName"
    EntityType := record.get "EntityType"
    ServerXRelativeLocation := parseFloat (record.get "ServerXRelativeLocation")
    ServerYRelativeLocation := parseFloat (record.get "ServerYRelativeLocation")
    LastUpdatedDBAt := (ParseUint (record.get "LastUpdatedDBAt") 64).1
    NextAllowedUseTime := (ParseUint (record.get "NextAllowedUseTime") 64).1
    TribeID := tmpTribeID
    ServerID := (serverID tmpServerID).1
    EntitySubType :=
      if stringsContains tmpEntityClass "none" then "None"
      else if stringsContains tmpEntityClass "brigantine" then "Brigantine"
      else if stringsContains tmpEntityClass "dinghy" then "Dingy"
      else if stringsContains tmpEntityClass "raft" then "Raft"
      else if stringsContains tmpEntityClass "sloop" then "Sloop"
      else if stringsContains tmpEntityClass "schooner" then "Schooner"
      else if stringsContains tmpEntityClass "galleon" then "Galleon"
      else "None" }

/-- The map `entities` of `ProcessEntities`, Go's `map[string]EntityInfo`: its
entries, with pairwise distinct keys. -/
abbrev EntityMap := List (String × EntityInfo)

/-- The keys of the map. -/
def EntityMap.keys (m : EntityMap) : List String := m.map Prod.fst

/-- The assignment `entities[k] = v`. -/
def EntityMap.insert (m : EntityMap) (k : String) (v : EntityInfo) : EntityMap :=
  if k ∈ m.keys then m.map (fun e => if e.1 = k then (k, v) else e) else m ++ [(k, v)]

/-- The statement `delete(entities, k)`. -/
def EntityMap.delete (m : EntityMap) (k : String) : EntityMap :=
  m.filter (fun e => e.1 ≠ k)

/-- The loop `for _, record := range scan(client, "entityinfo:*")` of
`ProcessEntities`, over the records in the order the loop visits them. -/
def ProcessEntities.fetch (parseFloat : String → Float) (toLower : String → String)
    (records : List Record) : EntityMap :=
  records.foldl (fun entities record =>
    let info := newEntityInfo parseFloat toLower record
    entities.insert info.EntityID info) []

/-- The state of the validation loop of `ProcessEntities`: the map `entities`,
the set `kidsWithBadParents`, and the lines written to the log, each as the
pair of the entity id and the parent id it prints. -/
structure ValidatorState where
  entities : EntityMap
  kidsWithBadParents : List String
  log : List (String × String)

/-- One iteration of `for k, v := range entities` in `ProcessEntities`. -/
def ProcessEntities.validateStep (s : ValidatorState) (kv : String × EntityInfo) :
    ValidatorState :=
  if kv.2.ParentEntityID ≠ "0" then
    if kv.2.ParentEntityID ∉ s.entities.keys then
      let s1 : ValidatorState :=
        if kv.1 ∉ s.kidsWithBadParents then
          { s with
            kidsWithBadParents := kv.1 :: s.kidsWithBadParents
            log := s.log ++ [(kv.1, kv.2.ParentEntityID)] }
        else s
      { s1 with entities := s1.entities.delete kv.1 }
    else s
  else s

/-- The validation loop of one cycle of `ProcessEntities`. The loop ranges over
the map while deleting from it; it only ever deletes the entry it is visiting,
so it visits every entry of the fetched map once, in an order `order` that Go
leaves open. -/
def ProcessEntities.validate (kidsWithBadParents : List String) (entities : EntityMap)
    (order : List (String × EntityInfo)) : ValidatorState :=
  order.foldl ProcessEntities.validateStep
    { entities := entities, kidsWithBadParents := kidsWithBadParents, log := [] }

/-- What one cycle of `ProcessEntities` does with its entities: the fetched map,
and the state in which the validation loop ends. -/
structure CycleResult where
  fetched : EntityMap
  final : ValidatorState

/-- The cycles of `ProcessEntities`, one after the other; each cycle is given by
the map it fetched and the order in which its validation loop visits the map.
The set `kidsWithBadParents` is created once, before the first cycle, and handed
from each cycle to the next. -/
def ProcessEntities.cycles : List String → List (EntityMap × List (String × EntityInfo)) →
    List CycleResult
  | _, [] => []
  | kids, c :: rest =>
    let final := ProcessEntities.validate kids c.1 c.2
    { fetched := c.1, final := final } :: ProcessEntities.cycles final.kidsWithBadParents rest

/-- An entity record with the given id and parent id, every other field zero. -/
def entityWithParent (id parent : String) : EntityInfo :=
  { EntityID := id, ParentEntityID := parent, EntityType := "", EntitySubType := "None",
    EntityName := "", TribeID := "", ServerXRelativeLocation := 0,
    ServerYRelativeLocation := 0, ServerID := (0, 0), LastUpdatedDBAt := 0,
    NextAllowedUseTime := 0 }

/-- A fetched map with a chain of two entities: `B` names the parent `X`, which
is not in the map, and `C` names the parent `B`. -/
def orphanChain : EntityMap :=
  [("B", entityWithParent "B" "X"), ("C", entityWithParent "C" "B")]

/-- A fetched map with a root entity `P` and an entity `Q` whose parent is `P`. -/
def parentAndChild : EntityMap :=
  [("P", entityWithParent "P" "0"), ("Q", entityWithParent "Q" "P")]

/-- A fetched map with a root entity `1` and an entity `2` whose parent `999` is
not in the map. -/
def orphanBatch : EntityMap :=
  [("1", entityWithParent "1" "0"), ("2", entityWithParent "2" "999")]

/-- The number of lines of a log that report the entity id `k`. -/
def logCount (k : String) (log : List (String × String)) : Nat :=
  log.countP (fun line => decide (line.1 = k))

/-- The id `k` is removed as an orphan in a cycle: it is a key of the fetched map
and no key of the validated map. -/
def CycleResult.removed (r : CycleResult) (k : String) : Prop :=
  k ∈ r.fetched.keys ∧ k ∉ r.final.entities.keys

instance (r : CycleResult) (k : String) : Decidable (r.removed k) := by
  unfold CycleResult.removed
  exact inferInstance

/-- The number of lines reporting the id `k` in all the cycles together. -/
def totalLogCount (k : String) (rs : List CycleResult) : Nat :=
  (rs.map (fun r => logCount k r.final.log)).sum

/-- Three cycles that each fetch the map `{1: parent 0, 2: parent 999}`. -/
def orphanCycles : List (EntityMap × List (String × EntityInfo)) :=
  [(orphanBatch, orphanBatch), (orphanBatch, orphanBatch.reverse), (orphanBatch, orphanBatch)]

/-- The character is one of the ten decimal digits. -/
def isDecimalDigit (c : Char) : Bool := decide ('0' ≤ c ∧ c ≤ '9')

/-- The number that a run of decimal digits writes, continuing from `n`. -/
def digitsValue (n : Nat) (cs : List Char) : Nat :=
  cs.foldl (fun acc c => acc * 10 + (c.toNat - '0'.toNat)) n

/-- The decimal digits a text starts with. -/
def leadingDigits (s : String) : List Char := s.toList.takeWhile isDecimalDigit

/-- The text is a base-10 unsigned integer of the given bit size: it is not
empty, it consists of decimal digits, and the number it writes is at most
`2 ^ bitSize - 1`. -/
def parsesAsUint (s : String) (bitSize : Nat) : Prop :=
  s ≠ "" ∧ (∀ c ∈ s.toList, isDecimalDigit c = true) ∧ digitsValue 0 s.toList ≤ 2 ^ bitSize - 1

/-- The text from which `newEntityInfo` takes the server id: the value of the key
`ServerID` when the key is present, else that of `ServerId`, else the empty
string. -/
def serverIDText (record : Record) : String :=
  match record.lookup "ServerID" with
  | some t => t
  | none => record.get "ServerId"

/-! ## Predicates used in the proofs -/

/-- The transposition of two indices. -/
def tr (i j k : Nat) : Nat := if k = i then j else if k = j then i else k

/-- The heap order on `h[0:n]`, for the parents at index `lo` and above: no
element is less than its parent. -/
def HeapFrom (h : TribeCountHeap) (n lo : Nat) : Prop :=
  ∀ c, 0 < c → c < n → lo ≤ (c - 1) / 2 → h.Less c ((c - 1) / 2) = false

/-- The heap order on the whole slice. -/
def IsHeap (h : TribeCountHeap) : Prop := HeapFrom h h.length 0

/-- What the selection loop has kept and what it has dropped: `pq` is a heap of
`k` elements, and together with the dropped elements `D`, none of which ranks
above a kept one, it makes up the elements seen. -/
def Selected (k : Nat) (p : List TribeCount) (pq : TribeCountHeap) : Prop :=
  IsHeap pq ∧ pq.length = k ∧
    ∃ D : List TribeCount, (pq ++ D).Perm p ∧ ∀ d ∈ D, ∀ r ∈ pq, r.less d = false

/-- The invariant of the `range *counts` loop of `TopNTribes` after the entries
`p` have been visited. -/
def LoopInv (m : Nat) (p : List TribeCount) (s : TribeCountHeap × Nat) : Prop :=
  s.2 = p.length ∧ (s.2 ≤ m → s.1 = p) ∧ (m < s.2 → Selected m p s.1)

/-- The heap that `TopNTribes` drains. -/
def selectedHeap (n : Int) (counts : List TribeCount) : TribeCountHeap :=
  if ((counts.foldl (TopNTribes.step n) ([], 0)).2 : Int) ≤ n
  then heap.Init (counts.foldl (TopNTribes.step n) ([], 0)).1
  else (counts.foldl (TopNTribes.step n) ([], 0)).1

/-- The sort key of an owner: the count, then the tribeID. -/
def rankKey (t : TribeCount) : Lex (Int × Nat) := toLex (t.count, t.tribeID)

instance : IsTotal TribeCount ranksAhead :=
  ⟨fun a b => by
    unfold ranksAhead
    omega⟩

instance : IsTrans TribeCount ranksAhead :=
  ⟨fun a b c h1 h2 => by
    unfold ranksAhead at *
    omega⟩

/-- The entry visited is removed when its parent is neither `"0"` nor a key of
the map as it is at that moment. -/
def removesAt (s : ValidatorState) (kv : String × EntityInfo) : Prop :=
  kv.2.ParentEntityID ≠ "0" ∧ kv.2.ParentEntityID ∉ s.entities.keys

instance (s : ValidatorState) (kv : String × EntityInfo) : Decidable (removesAt s kv) := by
  unfold removesAt
  exact inferInstance

/-! ## The subtype of an entity, as the specification describes it -/

/-- The ordered list of the specification: the text looked for in the lower-cased
entity class, and the subtype it stands for. -/
def subtypeTable : List (String × String) :=
  [("none", "None"), ("brigantine", "Brigantine"), ("dinghy", "Dingy"), ("raft", "Raft"),
   ("sloop", "Sloop"), ("schooner", "Schooner"), ("galleon", "Galleon")]

/-- The subtype the specification describes for a lower-cased class text: the
label of the first entry of the list whose key is a substring of the text, and
`"None"` when there is none. -/
def subtypeBySpec (lowered : String) : String :=
  match subtypeTable.find? (fun e => stringsContains lowered e.1) with
  | some e => e.2
  | none => "None"

/-- The class text that `newEntityInfo` classifies: the value of the key
`EntityClass`, and `"none"` when the key is missing. -/
def entityClassText (record : Record) : String :=
  match record.lookup "EntityClass" with
  | some c => c
  | none => "none"

/-- Go's `strings.ToLower` on ASCII text: the letters `A` to `Z` become `a` to `z`. -/
def lowerASCII (s : String) : String := String.mk (s.toList.map Char.toLower)


/-! ## Texts of the store as bytes (`island.go`)

The values read from the store are Go strings, that is byte sequences;
`strings.Index` and the slice expressions of `island.go` count bytes. -/

/-- A Go string as the sequence of its bytes. -/
abbrev Bytes := List Nat

/-- The UTF-8 encoding of a character. -/
def utf8Char (c : Char) : Bytes :=
  let n := c.toNat
  if n < 128 then [n]
  else if n < 2048 then [192 + n / 64, 128 + n % 64]
  else if n < 65536 then [224 + n / 4096, 128 + n / 64 % 64, 128 + n % 64]
  else [240 + n / 262144, 128 + n / 4096 % 64, 128 + n / 64 % 64, 128 + n % 64]

/-- The bytes of a text, its UTF-8 encoding. -/
def utf8 (s : String) : Bytes := s.toList.flatMap utf8Char

/-- Go's `strings.Index(s, substr)`: the index of the first occurrence of `substr`
in `s`, and `none` where Go returns `-1`. -/
def stringsIndex : Bytes → Bytes → Option Nat
  | [], substr => if substr.isEmpty then some 0 else none
  | c :: s, substr =>
    if substr.isPrefixOf (c :: s) then some 0 else (stringsIndex s substr).map (· + 1)

/-- The slice expression `s[lo:hi]` of Go on a string; `none` where Go panics
with `slice bounds out of range`. -/
def sliceBytes (s : Bytes) (lo hi : Int) : Option Bytes :=
  if 0 ≤ lo ∧ lo ≤ hi ∧ hi ≤ s.length then some ((s.take hi.toNat).drop lo.toNat) else none

/-- The rune that Go's `for range` over a string decodes at the head of a
non-empty string, and the number of bytes it takes (`utf8.DecodeRuneInString`):
a byte below `0x80` is itself; a well-formed sequence of 2, 3 or 4 bytes is one
rune; any other byte is `RuneError` (`0xFFFD`) of width 1. -/
def decodeRune : Bytes → Nat × Nat
  | [] => (65533, 0)
  | b0 :: rest =>
    if b0 < 128 then (b0, 1)
    else if 194 ≤ b0 ∧ b0 ≤ 223 then
      match rest with
      | b1 :: _ =>
        if 128 ≤ b1 ∧ b1 ≤ 191 then (b0 % 32 * 64 + b1 % 64, 2) else (65533, 1)
      | _ => (65533, 1)
    else if 224 ≤ b0 ∧ b0 ≤ 239 then
      match rest with
      | b1 :: b2 :: _ =>
        if (if b0 = 224 then 160 else 128) ≤ b1 ∧ b1 ≤ (if b0 = 237 then 159 else 191) then
          if 128 ≤ b2 ∧ b2 ≤ 191 then (b0 % 16 * 4096 + b1 % 64 * 64 + b2 % 64, 3)
          else (65533, 1)
        else (65533, 1)
      | _ => (65533, 1)
    else if 240 ≤ b0 ∧ b0 ≤ 244 then
      match rest with
      | b1 :: b2 :: b3 :: _ =>
        if (if b0 = 240 then 144 else 128) ≤ b1 ∧ b1 ≤ (if b0 = 244 then 143 else 191) then
          if 128 ≤ b2 ∧ b2 ≤ 191 then
            if 128 ≤ b3 ∧ b3 ≤ 191 then
              (b0 % 8 * 262144 + b1 % 64 * 4096 + b2 % 64 * 64 + b3 % 64, 4)
            else (65533, 1)
          else (65533, 1)
        else (65533, 1)
      | _ => (65533, 1)
    else (65533, 1)

/-- The loop of `fixBadString`, `for _, c := range s`, with the text built so
far; the first argument bounds the number of runes, each of which takes at
least one byte. -/
def fixBadString.loop : Nat → Bytes → String → String
  | 0, _, out => out
  | fuel + 1, s, out =>
    match s with
    | [] => out
    | _ :: _ =>
      let c := (decodeRune s).1
      let out1 := if 32 ≤ c ∧ c ≤ 126 then out.push (Char.ofNat c) else out ++ "[]"
      fixBadString.loop fuel (s.drop (decodeRune s).2) out1

/-- The function `fixBadString(s)` of `island.go`. -/
def fixBadString (s : Bytes) : String := fixBadString.loop s.length s ""

/-- The text `,"settlementFlagName"` that `removeAndFixSettlementName` looks for. -/
def settlementMarker : Bytes := utf8 ",\"settlementFlagName\""

/-- The text `,"ownerTribeId"`. -/
def ownerTribeMarker : Bytes := utf8 ",\"ownerTribeId\""

/-- The text `,"ownerName"` that `removeAndFixOwnerName` looks for. -/
def ownerNameMarker : Bytes := utf8 ",\"ownerName\""

/-- The text `,"combatPhaseStartTime"`. -/
def combatPhaseMarker : Bytes := utf8 ",\"combatPhaseStartTime\""

/-- The function `removeAndFixSettlementName(in)` of `island.go`: the document
and the name it returns, the name `none` for a nil pointer. The result is `none`
where the slice expression `in[idxStart+23 : idxEnd-1]` panics. -/
def removeAndFixSettlementName (input : Bytes) : Option (Bytes × Option String) :=
  match stringsIndex input settlementMarker with
  | none => some (input, none)
  | some idxStart =>
    match stringsIndex input ownerTribeMarker with
    | none => some (input, none)
    | some idxEnd =>
      match sliceBytes input ((idxStart : Int) + 23) ((idxEnd : Int) - 1) with
      | none => none
      | some name =>
        some (input.take idxStart ++ input.drop idxEnd, some (fixBadString name))

/-- The function `removeAndFixOwnerName(in)` of `island.go`, in the same way;
the slice expression is `in[idxStart+14 : idxEnd-1]`. -/
def removeAndFixOwnerName (input : Bytes) : Option (Bytes × Option String) :=
  match stringsIndex input ownerNameMarker with
  | none => some (input, none)
  | some idxStart =>
    match stringsIndex input combatPhaseMarker with
    | none => some (input, none)
    | some idxEnd =>
      match sliceBytes input ((idxStart : Int) + 14) ((idxEnd : Int) - 1) with
      | none => none
      | some name =>
        some (input.take idxStart ++ input.drop idxEnd, some (fixBadString name))

/-! ## The checksum (`hash/crc32`) -/

/-- One bit of the table of Go's `crc32.IEEETable`: shift right, and add the
reversed polynomial `0xedb88320` when the bit shifted out is set. -/
def crc32.shift (crc : Nat) : Nat :=
  if crc % 2 = 1 then (crc >>> 1) ^^^ 3988292384 else crc >>> 1

/-- The entry `i` of `crc32.IEEETable`. -/
def crc32.tableEntry (i : Nat) : Nat :=
  crc32.shift (crc32.shift (crc32.shift (crc32.shift
    (crc32.shift (crc32.shift (crc32.shift (crc32.shift i)))))))

/-- Go's `crc32.Update(crc, crc32.IEEETable, p)`, which is what a `Write` to the
hash of `crc32.NewIEEE()` does with its state. -/
def crc32.update (crc : Nat) (p : Bytes) : Nat :=
  (p.foldl (fun c v => crc32.tableEntry ((c % 256) ^^^ v) ^^^ (c >>> 8)) (crc ^^^ 4294967295))
    ^^^ 4294967295


/-! ## Island claims (`island.go`, `atlas/config.go`) -/

/-- The fields of the struct `IslandInstance` of `atlas/config.go` that the
generator reads. -/
structure IslandInstance where
  ID : Int
  IslandPoints : Int
  IslandWidth : Float
  IslandHeight : Float
  WorldX : Float
  WorldY : Float

/-- The struct `WarDeclaration` of `island.go`. -/
structure WarDeclaration where
  IslandID : Int
  WarringTribeID : Nat
  WarStartUTC : Nat
  WarEndUTC : Nat

/-- The struct `IslandInfoOutput` of `island.go`. -/
structure IslandInfoOutput where
  IslandID : Int
  X : Float
  Y : Float
  Size : Float
  TribeID : Nat
  Color : String
  IslandPoints : Int
  SettlementName : String
  TaxRate : Float
  CombatPhaseStartTime : Int
  WarringTribeID : Nat
  WarStartUTC : Nat
  WarEndUTC : Nat
  NumSettlers : Int

/-- The struct `CompanyInfoOutput` of `island.go`. -/
structure CompanyInfoOutput where
  TribeID : Nat
  TribeName : String
  FlagURL : Option String

/-- The struct `IslandOutput` of `island.go`. -/
structure IslandOutput where
  Version : Int
  Islands : List IslandInfoOutput
  Companies : List CompanyInfoOutput

/-- The parts of Go's library that the model of the island pipeline takes as
given: `json.Unmarshal` into an `*IslandClaim` (the struct it leaves behind and
whether it returns an error), `json.Unmarshal` into a fresh `WarDeclaration`
(`none` for an error), `json.Marshal` of the output document, and the
conversion `int(f)` of a `float64`. -/
structure Library where
  unmarshalClaim : Bytes → IslandClaim → IslandClaim × Bool
  unmarshalWar : Bytes → Option WarDeclaration
  marshalOutput : IslandOutput → String
  floatToInt : Float → Int

/-- The value `IslandClaim{NumSettlers: -1}` with which `fetchIslandClaims`
starts each record. -/
def newIslandClaim : IslandClaim :=
  { IslandID := 0, SettlementFlagName := "", OwnerTribeID := 0, OwnerName := "",
    CombatPhaseStartTime := 0, LastUTCTimeAdjustedCombatPhase := 0, TaxRate := 0,
    BIsContested := false, NumSettlers := -1, X := 0, Y := 0, Radius := 0,
    Color := { R := 0, G := 0, B := 0, A := 0 }, ColorName := "", IslandPoints := 0,
    WarringTribeID := 0, WarStartUTC := 0, WarEndUTC := 0 }

/-- The result of an addition of Go's 64-bit `int`, which wraps around. -/
def wrapInt64 (x : Int) : Int := (x + 2 ^ 63) % 2 ^ 64 - 2 ^ 63

/-- The decoding of one claim value in `fetchIslandClaims`, lines 181 to 204:
`json.Unmarshal`, and when it fails the repair of the two names and a second
`json.Unmarshal` into the same struct. The result is `none` where a slice
expression panics, `some none` where the record is dropped (`continue`). -/
def parseClaim (lib : Library) (v : Bytes) : Option (Option IslandClaim) :=
  let first := lib.unmarshalClaim v newIslandClaim
  if first.2 then
    match removeAndFixSettlementName v with
    | none => none
    | some (tmp, fixedSettlementName) =>
      match removeAndFixOwnerName tmp with
      | none => none
      | some (tmp2, fixedOwnerName) =>
        let second := lib.unmarshalClaim tmp2 first.1
        if second.2 then some none
        else
          some (some { second.1 with
            SettlementFlagName := fixedSettlementName.getD "<unknown>"
            OwnerName := fixedOwnerName.getD "<unknown>" })
  else some (some first.1)

/-- The colour `colorValues["grey"]`. -/
def grey : NRGBA := { R := 169, G := 169, B := 169, A := 255 }

/-- The filter and the derived fields of one claim in `fetchIslandClaims`, lines
205 to 219: a claim without owner, of an island that the grid does not know, or
of an island without points is dropped (`none`); the others get the position,
radius, points and the default colour of their island. -/
def completeClaim (islands : List (Int × IslandInstance)) (c : IslandClaim) :
    Option IslandClaim :=
  if c.OwnerTribeID = 0 then none
  else
    match islands.lookup c.IslandID with
    | none => none
    | some island =>
      if island.IslandPoints ≤ 0 then none
      else
        some { c with
          X := island.WorldX
          Y := island.WorldY
          Radius := (island.IslandWidth + island.IslandHeight) / 4
          Color := grey
          ColorName := "grey"
          IslandPoints := island.IslandPoints }

/-- A `*TribeCount` of the map `countPerTribe` while `fetchIslandClaims` runs.
The claims of its list are pointers that the map `islands` shares; each claim
object carries the number under which it was created. -/
structure TribeBuild where
  tribeID : Nat
  count : Int
  islands : List (Nat × IslandClaim)

/-- The state of `fetchIslandClaims`: the state of the hash, the number of claim
objects created, the map `islands` from island id to claim object, and the map
`countPerTribe` with its entries in the order of their creation. -/
structure FetchState where
  hash : Nat
  created : Nat
  islands : List (Int × Nat)
  countPerTribe : List TribeBuild

/-- The assignment `m[k] = v` on a map. -/
def mapSet {κ ν : Type} [DecidableEq κ] (m : List (κ × ν)) (k : κ) (v : ν) : List (κ × ν) :=
  if k ∈ m.map Prod.fst then m.map (fun e => if e.1 = k then (k, v) else e) else m ++ [(k, v)]

/-- The lines 224 to 236 of `fetchIslandClaims`: add the points and the claim to
the owner's entry, or create the entry. The points added are those of the
island, which the claim carries in `IslandPoints`. -/
def addClaim (tribes : List TribeBuild) (id : Nat) (c : IslandClaim) : List TribeBuild :=
  if c.OwnerTribeID ∈ tribes.map (fun t => t.tribeID) then
    tribes.map (fun t =>
      if t.tribeID = c.OwnerTribeID then
        { t with count := wrapInt64 (t.count + c.IslandPoints), islands := t.islands ++ [(id, c)] }
      else t)
  else tribes ++ [{ tribeID := c.OwnerTribeID, count := c.IslandPoints, islands := [(id, c)] }]

/-- One iteration of the loop over the claim values of `fetchIslandClaims`;
`none` where the iteration panics. -/
def fetchIslandClaims.claimStep (lib : Library) (islands : List (Int × IslandInstance))
    (s : FetchState) (v : Bytes) : Option FetchState :=
  let s1 := { s with hash := crc32.update s.hash v }
  match parseClaim lib v with
  | none => none
  | some none => some s1
  | some (some parsed) =>
    match completeClaim islands parsed with
    | none => some s1
    | some c =>
      some { s1 with
        created := s1.created + 1
        islands := mapSet s1.islands c.IslandID s1.created
        countPerTribe := addClaim s1.countPerTribe s1.created c }

/-- The assignment of the three war fields to the claim object `id`, wherever a
list holds it. -/
def setWar (tribes : List TribeBuild) (id : Nat) (w : WarDeclaration) : List TribeBuild :=
  tribes.map (fun t =>
    { t with islands := t.islands.map (fun e =>
        if e.1 = id then
          (e.1, { e.2 with
            WarringTribeID := w.WarringTribeID
            WarStartUTC := w.WarStartUTC
            WarEndUTC := w.WarEndUTC })
        else e) })

/-- One iteration of the loop over the war declarations of `fetchIslandClaims`. -/
def fetchIslandClaims.warStep (lib : Library) (s : FetchState) (v : Bytes) : FetchState :=
  let s1 := { s with hash := crc32.update s.hash v }
  match lib.unmarshalWar v with
  | none => s1
  | some w =>
    if w.WarringTribeID = 0 ∨ w.WarStartUTC = 0 ∨ w.WarEndUTC = 0 then s1
    else
      match s1.islands.lookup w.IslandID with
      | some id => { s1 with countPerTribe := setWar s1.countPerTribe id w }
      | none => s1

/-- The loop over the claim values; `none` where an iteration panics. -/
def fetchIslandClaims.claimLoop (lib : Library) (islands : List (Int × IslandInstance)) :
    FetchState → List Bytes → Option FetchState
  | s, [] => some s
  | s, v :: rest =>
    match fetchIslandClaims.claimStep lib islands s v with
    | none => none
    | some s1 => fetchIslandClaims.claimLoop lib islands s1 rest

/-- What `fetchIslandClaims` has built when it reaches the label `End`: `none`
where it panics, `some none` where it returns the error of the first read. The
two reads of the store are given by what they return, `none` for an error, and
the values of each in the order in which the `range` loop visits them. -/
def fetchIslandClaims.build (lib : Library) (islands : List (Int × IslandInstance))
    (claimsReply warsReply : Option (List Bytes)) : Option (Option FetchState) :=
  match claimsReply with
  | none => some none
  | some raw =>
    match fetchIslandClaims.claimLoop lib islands
        { hash := 0, created := 0, islands := [], countPerTribe := [] } raw with
    | none => none
    | some s =>
      match warsReply with
      | none => some (some s)
      | some wars => some (some (wars.foldl (fetchIslandClaims.warStep lib) s))

/-- The entry of the returned map for an owner: key and `*TribeCount`. -/
def TribeBuild.finish (t : TribeBuild) : Nat × TribeCount :=
  (t.tribeID, { tribeID := t.tribeID, count := t.count, islands := t.islands.map Prod.snd })

/-- The three ways in which `fetchIslandClaims` ends: a panic, the return of an
error, and the return of the map of owners with the checksum. -/
inductive FetchResult where
  | panic : FetchResult
  | error : FetchResult
  | ok (counts : List (Nat × TribeCount)) (crc : Nat) : FetchResult

/-- The function `fetchIslandClaims(db, grid)` of `island.go`. -/
def fetchIslandClaims (lib : Library) (islands : List (Int × IslandInstance))
    (claimsReply warsReply : Option (List Bytes)) : FetchResult :=
  match fetchIslandClaims.build lib islands claimsReply warsReply with
  | none => FetchResult.panic
  | some none => FetchResult.error
  | some (some s) => FetchResult.ok (s.countPerTribe.map TribeBuild.finish) s.hash


/-! ## The output document and the colony loop (`island.go`, `generator.go`) -/

/-- The array `colors` of `generator.go`. -/
def colors : List String :=
  ["lime", "blue", "yellow", "fuchsia", "aqua", "maroon", "red", "olive", "purple", "teal"]

/-- The map `colorValues` of `generator.go`. -/
def colorValues : List (String × NRGBA) :=
  [("red", { R := 255, G := 0, B := 0, A := 255 }),
   ("green", { R := 0, G := 128, B := 0, A := 255 }),
   ("yellow", { R := 255, G := 255, B := 0, A := 255 }),
   ("fuchsia", { R := 255, G := 0, B := 128, A := 255 }),
   ("aqua", { R := 0, G := 255, B := 255, A := 255 }),
   ("cyan", { R := 0, G := 255, B := 255, A := 255 }),
   ("blue", { R := 0, G := 0, B := 255, A := 255 }),
   ("orange", { R := 255, G := 165, B := 0, A := 255 }),
   ("purple", { R := 128, G := 0, B := 128, A := 255 }),
   ("magenta", { R := 255, G := 0, B := 255, A := 255 }),
   ("lime", { R := 0, G := 255, B := 0, A := 255 }),
   ("pink", { R := 255, G := 192, B := 203, A := 255 }),
   ("teal", { R := 0, G := 128, B := 128, A := 255 }),
   ("lavender", { R := 230, G := 230, B := 250, A := 255 }),
   ("brown", { R := 165, G := 42, B := 42, A := 255 }),
   ("beige", { R := 245, G := 245, B := 220, A := 255 }),
   ("maroon", { R := 128, G := 0, B := 0, A := 255 }),
   ("olive", { R := 128, G := 128, B := 0, A := 255 }),
   ("coral", { R := 255, G := 127, B := 80, A := 255 }),
   ("navy", { R := 0, G := 0, B := 128, A := 255 }),
   ("grey", { R := 169, G := 169, B := 169, A := 255 }),
   ("black", { R := 0, G := 0, B := 0, A := 255 })]

/-- The function `Max(x, y)` of `generator.go`. -/
def Max (x y : Int) : Int := if x > y then x else y

/-- The fields of the struct `GridConfig` of `atlas/config.go` that the generator
reads. -/
structure GridConfig where
  GridSize : Float
  TotalGridsX : Int
  TotalGridsY : Int
  Islands : List (Int × IslandInstance)

/-- The entry of `output.Islands` that `generateIslandData` writes for a claim. -/
def islandInfoOutput (island : IslandClaim) (virtualPixels : Int) : IslandInfoOutput :=
  { IslandID := island.IslandID
    X := island.X / Float.ofInt virtualPixels
    Y := island.Y / Float.ofInt virtualPixels
    TribeID := island.OwnerTribeID
    Size := island.Radius / Float.ofInt virtualPixels
    Color := island.ColorName
    IslandPoints := island.IslandPoints
    SettlementName := island.SettlementFlagName
    TaxRate := island.TaxRate
    CombatPhaseStartTime := island.CombatPhaseStartTime
    WarringTribeID := island.WarringTribeID
    WarStartUTC := island.WarStartUTC
    WarEndUTC := island.WarEndUTC
    NumSettlers := island.NumSettlers }

/-- The name of a tribe after the loop over its islands in `generateIslandData`:
each island in turn gives its `OwnerName` to a name that is still empty. -/
def backfillName (name : String) (islands : List IslandClaim) : String :=
  islands.foldl (fun n island => if n.length = 0 then island.OwnerName else n) name

/-- One iteration of `for _, tribe := range *tribes` in `generateIslandData`. -/
def generateIslandData.step (virtualPixels : Int) (output : IslandOutput)
    (tribe : TribeCount) : IslandOutput :=
  { output with
    Islands := output.Islands ++ tribe.islands.map (fun island =>
      islandInfoOutput island virtualPixels)
    Companies := output.Companies ++
      [{ TribeID := tribe.tribeID
         TribeName := backfillName tribe.name tribe.islands
         FlagURL := tribe.flagURL }] }

/-- The document that `generateIslandData` builds and publishes as its JSON
text; `now` is the reading `time.Now().Unix()` of the clock, and `tribes` are
the values of the map in the order in which the `range` loop visits them. -/
def generateIslandData (now : Int) (tribes : List TribeCount) (virtualPixels : Int) :
    IslandOutput :=
  tribes.foldl (generateIslandData.step virtualPixels)
    { Version := now, Islands := [], Companies := [] }

/-- The colouring loop of `ProcessColony` for one rank `i`: the islands of the
tribe `top[i]` get the colour `colors[i]`. The result is `none` where the Go
code panics, on a tribe that is not in the map or a rank without colour. -/
def ProcessColony.colorTribe (counts : List (Nat × TribeCount)) (i : Nat) (id : Nat) :
    Option (List (Nat × TribeCount)) :=
  match counts.lookup id, colors[i]? with
  | some _, some name =>
    some (counts.map (fun e =>
      if e.1 = id then
        (e.1, { e.2 with islands := e.2.islands.map (fun island =>
          { island with
            Color := (colorValues.lookup name).getD { R := 0, G := 0, B := 0, A := 0 }
            ColorName := name }) })
      else e))
  | _, _ => none

/-- The loop `for i := 0; i < len(top); i++` of `ProcessColony`, from rank `i`. -/
def ProcessColony.colorLoop : List (Nat × TribeCount) → Nat → List Nat →
    Option (List (Nat × TribeCount))
  | counts, _, [] => some counts
  | counts, i, id :: rest =>
    match ProcessColony.colorTribe counts i id with
    | none => none
    | some counts1 => ProcessColony.colorLoop counts1 (i + 1) rest

/-- What `ProcessColony` keeps from one cycle to the next, and what it
publishes: `previousCrc` and the text `*islandData`. -/
structure ColonyState where
  previousCrc : Nat
  islandData : String

/-- What one cycle of `ProcessColony` meets: the answers of the store to the two
reads, the reading of the clock, and the orders in which the two `range` loops
over the map of owners, in `TopNTribes` and in `generateIslandData`, visit it. -/
structure ColonyInput where
  claimsReply : Option (List Bytes)
  warsReply : Option (List Bytes)
  now : Int
  orderTop : List (Nat × TribeCount) → List (Nat × TribeCount)
  orderOut : List (Nat × TribeCount) → List (Nat × TribeCount)

/-- What one cycle of `ProcessColony` does: the state it leaves, the lines it
logs, and the document it publishes, if it publishes one. -/
structure ColonyStep where
  state : ColonyState
  log : List String
  published : Option IslandOutput

/-- One cycle of the loop of `ProcessColony`, up to the `time.Sleep`; `none`
where the cycle panics. -/
def ProcessColony.cycle (lib : Library) (grid : GridConfig) (s : ColonyState)
    (input : ColonyInput) : Option ColonyStep :=
  match fetchIslandClaims lib grid.Islands input.claimsReply input.warsReply with
  | FetchResult.panic => none
  | FetchResult.error =>
    some { state := s, published := none
           log := ["Getting island claims", "Error!", "Done, waiting till next round"] }
  | FetchResult.ok counts crc =>
    if crc = s.previousCrc then
      some { state := s, published := none
             log := ["Getting island claims", "No CRC changes detected",
                     "Done, waiting till next round"] }
    else
      let top := TopNTribes 5 ((input.orderTop counts).map Prod.snd)
      match ProcessColony.colorLoop counts 0 top with
      | none => none
      | some colored =>
        let virtualPixels :=
          wrapInt64 (lib.floatToInt grid.GridSize * Max grid.TotalGridsX grid.TotalGridsY)
        let output :=
          generateIslandData input.now ((input.orderOut colored).map Prod.snd) virtualPixels
        some { state := { previousCrc := crc, islandData := lib.marshalOutput output }
               published := some output
               log := ["Getting island claims", "Finding top 5 tribes from claims",
                       "Generating island data", "Done, waiting till next round"] }

/-- The cycles of `ProcessColony` one after the other, from the state `s`: what
each cycle does, up to the first one that panics. -/
def ProcessColony.cycles (lib : Library) (grid : GridConfig) :
    ColonyState → List ColonyInput → List ColonyStep
  | _, [] => []
  | s, input :: rest =>
    match ProcessColony.cycle lib grid s input with
    | none => []
    | some step => step :: ProcessColony.cycles lib grid step.state rest

/-- The state in which `ProcessColony` enters its loop: `previousCrc` is 1, and
`islandData` is the text `{}` that `main` has put there. -/
def ProcessColony.start : ColonyState := { previousCrc := 1, islandData := "\x7b\x7d" }

/-! ## The store scan and the entity loop (`entity.go`) -/

/-- What the store answers to one call of `scan`: the keys that the iterator
yields, whether the iterator ends with an error, and for each key the field set
that `HGetAll` returns, `none` for an error. -/
structure ScanReply where
  keys : List String
  iterErr : Bool
  fields : String → Option Record

/-- The loop `for _, id := range keys` of `scan`, which fills the map `records`;
`none` where `log.Fatal` ends the process. -/
def scan.collect (fields : String → Option Record) :
    List (String × Record) → List String → Option (List (String × Record))
  | records, [] => some records
  | records, id :: rest =>
    match fields id with
    | none => none
    | some record => scan.collect fields (mapSet records id record) rest

/-- The function `scan(client, pattern)` of `entity.go`, by what it returns:
the map of the records, or `none` where it calls `log.Fatal`, which ends the
process. The grouping of the requests into pipeline executions does not change
what is returned. -/
def scan (reply : ScanReply) : Option (List (String × Record)) :=
  if reply.iterErr then none else scan.collect reply.fields [] reply.keys

/-- What `ProcessEntities` keeps from one cycle to the next, and what it
publishes: the texts `*tribeData` and `*entityData`, and the set
`kidsWithBadParents`. -/
structure EntitiesState where
  tribeData : String
  entityData : String
  kidsWithBadParents : List String

/-- What one cycle of `ProcessEntities` meets: the answers of the store to the
two scans, and the orders in which the three `range` loops over maps visit
them. -/
structure EntitiesInput where
  tribesReply : ScanReply
  entitiesReply : ScanReply
  orderTribes : List (String × Record) → List (String × Record)
  orderRecords : List (String × Record) → List (String × Record)
  orderValidate : EntityMap → List (String × EntityInfo)

/-- The parts of Go's library that the model of the entity loop takes as given:
`strconv.ParseFloat`, `strings.ToLower`, and `json.Marshal` of the two maps. -/
structure EntityLibrary where
  parseFloat : String → Float
  toLower : String → String
  marshalTribes : List (String × String) → String
  marshalEntities : EntityMap → String

/-- The map `tribes` that a cycle of `ProcessEntities` builds from the records
of the tribe scan. -/
def ProcessEntities.tribes (records : List Record) : List (String × String) :=
  records.foldl (fun tribes record =>
    mapSet tribes (record.get "TribeID") (record.get "TribeName")) []

/-- One cycle of the loop of `ProcessEntities`, up to the `time.Sleep`: the
state it leaves, and whether `log.Fatal` has ended the process in it. -/
def ProcessEntities.cycle (lib : EntityLibrary) (s : EntitiesState) (input : EntitiesInput) :
    EntitiesState × Bool :=
  match scan input.tribesReply with
  | none => (s, true)
  | some tribeRecords =>
    let s1 := { s with
      tribeData := lib.marshalTribes
        (ProcessEntities.tribes ((input.orderTribes tribeRecords).map Prod.snd)) }
    match scan input.entitiesReply with
    | none => (s1, true)
    | some entityRecords =>
      let entities := ProcessEntities.fetch lib.parseFloat lib.toLower
        ((input.orderRecords entityRecords).map Prod.snd)
      let final := ProcessEntities.validate s1.kidsWithBadParents entities
        (input.orderValidate entities)
      ({ tribeData := s1.tribeData
         entityData := lib.marshalEntities final.entities
         kidsWithBadParents := final.kidsWithBadParents }, false)

/-- The loop of `ProcessEntities` over the cycles that the inputs describe: the
state in which it ends, whether `log.Fatal` has ended the process, and the
number of cycles that ran to their end. -/
def ProcessEntities.loop (lib : EntityLibrary) :
    EntitiesState → List EntitiesInput → EntitiesState × Bool × Nat
  | s, [] => (s, false, 0)
  | s, input :: rest =>
    let r := ProcessEntities.cycle lib s input
    if r.2 then (r.1, true, 0)
    else
      let after := ProcessEntities.loop lib r.1 rest
      (after.1, after.2.1, after.2.2 + 1)


/-! ## Stand-ins for the library in the instances -/

/-- A stand-in for `json.Unmarshal` into an `*IslandClaim` that knows the
documents of a table: it sets the fields that a document of the table carries,
and returns an error for every other document. -/
def tableDecoder (table : List (Bytes × (IslandClaim → IslandClaim))) :
    Bytes → IslandClaim → IslandClaim × Bool :=
  fun doc c =>
    match table.lookup doc with
    | some set => (set c, false)
    | none => (c, true)

/-- A library for the instances: the claim documents and the war declarations
that the decoders accept are given by tables, the output document is written as
its version, and `int(f)` is 1. -/
def exampleLibrary (table : List (Bytes × (IslandClaim → IslandClaim)))
    (wars : List (Bytes × WarDeclaration)) : Library :=
  { unmarshalClaim := tableDecoder table
    unmarshalWar := fun doc => wars.lookup doc
    marshalOutput := fun o => decimalString o.Version.toNat
    floatToInt := fun _ => 1 }

/-- A grid of two islands, `1` with 30 points and `2` with 12 points, and an
island `3` without points. -/
def exampleGrid : GridConfig :=
  { GridSize := 1400000, TotalGridsX := 2, TotalGridsY := 2
    Islands :=
      [(1, { ID := 1, IslandPoints := 30, IslandWidth := 0, IslandHeight := 0,
             WorldX := 0, WorldY := 0 }),
       (2, { ID := 2, IslandPoints := 12, IslandWidth := 0, IslandHeight := 0,
             WorldX := 0, WorldY := 0 }),
       (3, { ID := 3, IslandPoints := -1, IslandWidth := 0, IslandHeight := 0,
             WorldX := 0, WorldY := 0 })] }

/-- A cycle input of `ProcessColony` with the given claim values and clock
reading, no war declarations, and the maps visited in the order of their
entries. -/
def colonyInput (claims : Option (List Bytes)) (now : Int) : ColonyInput :=
  { claimsReply := claims, warsReply := some [], now := now, orderTop := id, orderOut := id }

/-- A library for the instances of the entity loop: the two maps are written as
the list of their keys. -/
def exampleEntityLibrary : EntityLibrary :=
  { parseFloat := fun _ => 0
    toLower := lowerASCII
    marshalTribes := fun tribes => String.intercalate "," (tribes.map Prod.fst)
    marshalEntities := fun entities => String.intercalate "," entities.keys }

/-- A scan input of `ProcessEntities` with the given answers of the store, the
maps visited in the order of their entries. -/
def entitiesInput (tribesReply entitiesReply : ScanReply) : EntitiesInput :=
  { tribesReply := tribesReply, entitiesReply := entitiesReply
    orderTribes := id, orderRecords := id, orderValidate := id }

/-- The answer of a store that holds nothing. -/
def emptyScan : ScanReply := { keys := [], iterErr := false, fields := fun _ => none }

/-- The answer of a store whose key iterator fails. -/
def failingScan : ScanReply := { keys := [], iterErr := true, fields := fun _ => none }

/-- The answer of a store that holds the one entity `7`, a root. -/
def oneEntityScan : ScanReply :=
  { keys := ["entityinfo:7"], iterErr := false
    fields := fun _ => some [("EntityID", "7"), ("ParentEntityID", "0")] }

/-- The state in which `ProcessEntities` enters its loop: `main` has put the text
`{}` into the two published variables. -/
def ProcessEntities.start : EntitiesState :=
  { tribeData := "\x7b\x7d", entityData := "\x7b\x7d", kidsWithBadParents := [] }


/-! ## Predicates on the aggregation, used in the proofs -/

/-- The sum of the points of the claims of a list. -/
def pointsSum (islands : List IslandClaim) : Int := (islands.map (fun c => c.IslandPoints)).sum

/-- A claim without its three war fields. -/
def withoutWar (c : IslandClaim) : IslandClaim :=
  { c with WarringTribeID := 0, WarStartUTC := 0, WarEndUTC := 0 }

/-- The claim that a value of the store leaves, if it leaves one: decoded, not
dropped, and with the fields of its island. -/
def survivingClaim (lib : Library) (islands : List (Int × IslandInstance)) (v : Bytes) :
    Option IslandClaim :=
  match parseClaim lib v with
  | some (some parsed) => completeClaim islands parsed
  | _ => none

/-- The surviving claims of the values of the store, in the order of the values. -/
def survivingClaims (lib : Library) (islands : List (Int × IslandInstance))
    (raw : List Bytes) : List IslandClaim :=
  raw.filterMap (survivingClaim lib islands)

/-- What holds of every claim that `fetchIslandClaims` keeps: it has an owner,
and its island is in the table, with the points that the claim carries, which
are positive. -/
def keptClaim (islands : List (Int × IslandInstance)) (c : IslandClaim) : Prop :=
  c.OwnerTribeID ≠ 0 ∧ 0 < c.IslandPoints ∧
    ∃ island, islands.lookup c.IslandID = some island ∧ island.IslandPoints = c.IslandPoints

/-- What holds of every entry of `countPerTribe`: its list is not empty, its
count is the sum of the points of its list in Go's `int`, and every claim of
its list is a kept claim of this owner and is, but for the war fields, the
surviving claim whose number it carries. -/
def TribeBuild.sound (islands : List (Int × IslandInstance)) (survivors : List IslandClaim)
    (t : TribeBuild) : Prop :=
  t.islands ≠ [] ∧ t.count = wrapInt64 (pointsSum (t.islands.map Prod.snd)) ∧
    ∀ e ∈ t.islands, e.2.OwnerTribeID = t.tribeID ∧ keptClaim islands e.2 ∧
      ∃ c0, survivors[e.1]? = some c0 ∧ withoutWar e.2 = withoutWar c0

/-- The invariant of `fetchIslandClaims`: the owners of `countPerTribe` are
pairwise distinct, every entry is sound, and the claim objects of all the lists
together are the surviving claims, each one once. -/
def FetchState.sound (islands : List (Int × IslandInstance)) (survivors : List IslandClaim)
    (s : FetchState) : Prop :=
  s.created = survivors.length ∧
  (s.countPerTribe.map (fun t => t.tribeID)).Nodup ∧
  (∀ t ∈ s.countPerTribe, t.sound islands survivors) ∧
  (s.countPerTribe.flatMap (fun t => t.islands.map Prod.fst)).Perm (List.range s.created)

/-- The checksum that `fetchIslandClaims` returns, when it returns one. -/
def FetchResult.crc (r : FetchResult) : Option Nat :=
  match r with
  | FetchResult.ok _ crc => some crc
  | _ => none

/-- The map of owners that `fetchIslandClaims` returns, when it returns one. -/
def FetchResult.counts (r : FetchResult) : Option (List (Nat × TribeCount)) :=
  match r with
  | FetchResult.ok counts _ => some counts
  | _ => none


/-! ## Claim documents for the instances -/

/-- The claim document of owner `5` on island `1`. -/
def claimDoc1 : Bytes := utf8 "\x7b\"islandId\":1,\"ownerTribeId\":5\x7d"

/-- The claim document of owner `5` on island `2`. -/
def claimDoc2 : Bytes := utf8 "\x7b\"islandId\":2,\"ownerTribeId\":5\x7d"

/-- The claim document of owner `5` on island `3`. -/
def claimDoc3 : Bytes := utf8 "\x7b\"islandId\":3,\"ownerTribeId\":5\x7d"

/-- The claim document of owner `5` on island `4`. -/
def claimDoc4 : Bytes := utf8 "\x7b\"islandId\":4,\"ownerTribeId\":5\x7d"

/-- What `json.Unmarshal` does with the four claim documents: it sets the two
fields that they carry. -/
def claimTable : List (Bytes × (IslandClaim → IslandClaim)) :=
  [(claimDoc1, fun c => { c with IslandID := 1, OwnerTribeID := 5 }),
   (claimDoc2, fun c => { c with IslandID := 2, OwnerTribeID := 5 }),
   (claimDoc3, fun c => { c with IslandID := 3, OwnerTribeID := 5 }),
   (claimDoc4, fun c => { c with IslandID := 4, OwnerTribeID := 5 })]

/-- An island of `2^62` points, a value of Go's `int`. -/
def bigIsland (id : Int) : Int × IslandInstance :=
  (id, { ID := id, IslandPoints := 4611686018427387904, IslandWidth := 0, IslandHeight := 0,
         WorldX := 0, WorldY := 0 })

/-- An island table of four islands of `2^62` points each. -/
def bigIslands : List (Int × IslandInstance) := [bigIsland 1, bigIsland 2, bigIsland 3, bigIsland 4]

/-- The counts of the map that `fetchIslandClaims` returns, by owner. -/
def FetchResult.countOf (r : FetchResult) : Option (List (Nat × Int)) :=
  r.counts.map (fun counts => counts.map (fun e => (e.1, e.2.count)))

/-- The points of the claims of each list of the map that `fetchIslandClaims`
returns, by owner. -/
def FetchResult.pointsOf (r : FetchResult) : Option (List (Nat × List Int)) :=
  r.counts.map (fun counts => counts.map (fun e => (e.1, e.2.islands.map (fun c => c.IslandPoints))))


/-! ## The layout of a claim document (`island.go`)

The documents that the game writes carry the fields of `IslandClaim` in the
order of the struct and without white space: `islandId`, `settlementFlagName`,
`ownerTribeId`, `ownerName`, `combatPhaseStartTime`, and so on. -/

/-- Whether a text holds a comma directly followed by a double quote. The text
between the quotes of a JSON string holds none, since a quote inside a string
follows a backslash. -/
def hasCommaQuote : Bytes → Bool
  | [] => false
  | b :: rest =>
    match rest with
    | [] => false
    | b1 :: _ => (b == 44 && b1 == 34) || hasCommaQuote rest

/-- A claim document by its parts: `pre` is the text before the field
`settlementFlagName`, `name` the text between the quotes of its value, `mid` the
text between `"ownerTribeId"` and the field `ownerName`, `owner` the text
between the quotes of the value of `ownerName`, and `rest` the text after
`"combatPhaseStartTime"`. -/
def claimPayload (pre name mid owner rest : Bytes) : Bytes :=
  pre ++ (settlementMarker ++ (58 :: 34 :: (name ++ (34 :: (ownerTribeMarker ++ (mid ++
    (ownerNameMarker ++ (58 :: 34 :: (owner ++ (34 :: (combatPhaseMarker ++ rest)))))))))))

/-- The claim document of the same parts without the two name fields. -/
def excisedPayload (pre mid rest : Bytes) : Bytes :=
  pre ++ (ownerTribeMarker ++ (mid ++ (combatPhaseMarker ++ rest)))

/-- The text of a sequence of bytes with every byte outside the printable ASCII
range 32 to 126 replaced by the two characters `[]`. -/
def replaceUnprintable (s : Bytes) : String :=
  s.foldl (fun out b => if 32 ≤ b ∧ b ≤ 126 then out.push (Char.ofNat b) else out ++ "[]") ""

/-- The claim document of the same parts without the field
`settlementFlagName`. -/
def ownerPayload (pre mid owner rest : Bytes) : Bytes :=
  pre ++ (ownerTribeMarker ++ (mid ++ (ownerNameMarker ++ (58 :: 34 :: (owner ++
    (34 :: (combatPhaseMarker ++ rest)))))))

/-- The text before the field `settlementFlagName` in the instances: the
document opens with the field `islandId` of island `1`. -/
def examplePre : Bytes := utf8 "\x7b\"islandId\":1"

/-- The text between `"ownerTribeId"` and the field `ownerName` in the
instances: the owner is `5`. -/
def exampleMid : Bytes := utf8 ":5"

/-- The text after `"combatPhaseStartTime"` in the instances. -/
def exampleRest : Bytes :=
  utf8 ":0,\"lastUTCTimeAdjustedCombatPhase\":0,\"taxRate\":10,\"bIsContested\":false,\"numSettlers\":3\x7d"

/-- A claim document with a raw line feed in the settlement name `Port Royal`
and the owner name `Zoë`, whose last letter is not an ASCII character. -/
def repairDoc : Bytes :=
  claimPayload examplePre (utf8 "Port\nRoyal") exampleMid (utf8 "Zoë") exampleRest

/-- What `json.Unmarshal` does with the document that is left of `repairDoc`
and of `ownerRepairDoc` without the name fields: it sets the seven fields that
the document carries. No other document of the instances is well formed. -/
def repairTable : List (Bytes × (IslandClaim → IslandClaim)) :=
  [(excisedPayload examplePre exampleMid exampleRest,
    fun c => { c with IslandID := 1, OwnerTribeID := 5, CombatPhaseStartTime := 0,
                      LastUTCTimeAdjustedCombatPhase := 0, TaxRate := 10,
                      BIsContested := false, NumSettlers := 3 })]

/-- The two names, the island and the owner of the claim that `parseClaim`
returns, when it returns one. -/
def parsedNames (r : Option (Option IslandClaim)) : Option (String × String × Int × Nat) :=
  match r with
  | some (some c) => some (c.SettlementFlagName, c.OwnerName, c.IslandID, c.OwnerTribeID)
  | _ => none

/-! ## The pipeline executions of `scan` (`entity.go`) -/

/-- The state of the batching loop of `scan`: the pipeline executions made so
far, each with the requests it carries, the requests queued on the current
pipeline `pipe`, and the counter `batch`. -/
structure PipelineState where
  executed : List (List String)
  pipe : List String
  batch : Nat

/-- One iteration of the loop `for i := 0; i < len(keys); i++` of `scan`: the
request for the key is queued on the pipeline, and when `batch > 2000` the
pipeline is executed and a new one is opened. -/
def scan.queue (s : PipelineState) (key : String) : PipelineState :=
  let pipe := s.pipe ++ [key]
  let batch := s.batch + 1
  if batch > 2000 then { executed := s.executed ++ [pipe], pipe := [], batch := 0 }
  else { executed := s.executed, pipe := pipe, batch := batch }

/-- The pipeline executions of `scan` for a list of keys, in the order in which
they are made: those of the loop, and the one after the loop when `batch > 0`. -/
def scan.executions (keys : List String) : List (List String) :=
  let s := keys.foldl scan.queue { executed := [], pipe := [], batch := 0 }
  if s.batch > 0 then s.executed ++ [s.pipe] else s.executed

/-! ## The name of a company, as the code gives it -/

/-- The `OwnerName` of the first claim of a list whose `OwnerName` is not empty,
and the empty text when the list has none. -/
def firstOwnerName (islands : List IslandClaim) : String :=
  match islands.find? (fun island => island.OwnerName.length ≠ 0) with
  | some island => island.OwnerName
  | none => ""

/-- An aggregate of owner `5` with two claims: the first has no owner name, the
second has the owner name `Bob`. -/
def unnamedFirst : TribeCount :=
  { tribeID := 5, count := 42
    islands := [{ newIslandClaim with IslandID := 1, OwnerTribeID := 5, IslandPoints := 30 },
                { newIslandClaim with IslandID := 2, OwnerTribeID := 5, IslandPoints := 12,
                                      OwnerName := "Bob" }] }

/-- An aggregate of owner `6` with two claims, of the owner names `Ann` and
`Bob`. -/
def namedFirst : TribeCount :=
  { tribeID := 6, count := 42
    islands := [{ newIslandClaim with IslandID := 1, OwnerTribeID := 6, IslandPoints := 30,
                                      OwnerName := "Ann" },
                { newIslandClaim with IslandID := 2, OwnerTribeID := 6, IslandPoints := 12,
                                      OwnerName := "Bob" }] }

/-! ## The text that `fixBadString` is to return -/

/-- Whether a character is in the printable ASCII range 32 to 126. -/
def isPrintable (c : Char) : Prop := 32 ≤ c.toNat ∧ c.toNat ≤ 126

instance (c : Char) : Decidable (isPrintable c) := by
  unfold isPrintable
  exact inferInstance

/-- A text with every character outside the printable ASCII range replaced by
the two characters `[]`, and every character inside it kept in place. -/
def sanitized (s : String) : String :=
  String.mk (s.toList.flatMap (fun c => if isPrintable c then [c] else ['[', ']']))

/-! ## Claim documents with the fields in another order -/

/-- A claim document with the field `ownerTribeId` before the field
`settlementFlagName`, and a raw line feed in the settlement name. -/
def reorderedDoc : Bytes :=
  utf8 "\x7b\"islandId\":1,\"ownerTribeId\":5,\"settlementFlagName\":\"Port\nRoyal\"\x7d"

/-- A claim document without settlement name, with the field
`combatPhaseStartTime` before the field `ownerName`, and a raw line feed in the
owner name. -/
def reorderedOwnerDoc : Bytes :=
  utf8 "\x7b\"islandId\":1,\"combatPhaseStartTime\":0,\"ownerName\":\"Bad\nName\"\x7d"

/-- Whether `fetchIslandClaims` ends in a panic. -/
def FetchResult.isPanic (r : FetchResult) : Bool :=
  match r with
  | FetchResult.panic => true
  | _ => false

/-! ## War declarations (`island.go`) -/

/-- The three war fields of a claim. -/
def warFields (c : IslandClaim) : Nat × Nat × Nat :=
  (c.WarringTribeID, c.WarStartUTC, c.WarEndUTC)

/-- What the tag `json:"-"` of the three war fields of `IslandClaim` means for
`json.Unmarshal`: it leaves them as they are. -/
def Library.keepsWarFields (lib : Library) : Prop :=
  ∀ (v : Bytes) (c : IslandClaim), warFields (lib.unmarshalClaim v c).1 = warFields c

/-- The war declaration that a value of the store holds, when the second loop of
`fetchIslandClaims` does not skip it: it decodes, and none of `WarringTribeID`,
`WarStartUTC` and `WarEndUTC` is 0. -/
def validWar (lib : Library) (v : Bytes) : Option WarDeclaration :=
  match lib.unmarshalWar v with
  | none => none
  | some w => if w.WarringTribeID = 0 ∨ w.WarStartUTC = 0 ∨ w.WarEndUTC = 0 then none else some w

/-- The war declarations that the second loop of `fetchIslandClaims` does not
skip, in the order in which it visits them. -/
def validWars (lib : Library) (wars : List Bytes) : List WarDeclaration :=
  wars.filterMap (validWar lib)

/-- A claim with the three war fields of a declaration. -/
def withWar (c : IslandClaim) (w : WarDeclaration) : IslandClaim :=
  { c with
    WarringTribeID := w.WarringTribeID
    WarStartUTC := w.WarStartUTC
    WarEndUTC := w.WarEndUTC }

/-- What a war declaration does to a claim object, given the map `islands`: the
object that the map holds for the island of the declaration gets its war
fields, every other object is left as it is. -/
def applyWar (m : List (Int × Nat)) (e : Nat × IslandClaim) (w : WarDeclaration) :
    Nat × IslandClaim :=
  if m.lookup w.IslandID = some e.1 then (e.1, withWar e.2 w) else e

/-- The surviving claim number `i` is the last one of the island `id`: it has
this island id, and no surviving claim after it has. -/
def IsLastClaimOf (survivors : List IslandClaim) (id : Int) (i : Nat) : Prop :=
  (∃ c, survivors[i]? = some c ∧ c.IslandID = id) ∧
    ∀ (j : Nat) (c : IslandClaim), i < j → survivors[j]? = some c → c.IslandID ≠ id

/-- The invariant of the first loop of `fetchIslandClaims` that the war
declarations rest on: every claim object of a list is the surviving claim whose
number it carries, and the map `islands` holds for an island id the last
surviving claim of this island. -/
def FetchState.exact (survivors : List IslandClaim) (s : FetchState) : Prop :=
  s.created = survivors.length ∧
  (∀ t ∈ s.countPerTribe, ∀ e ∈ t.islands, survivors[e.1]? = some e.2) ∧
  (∀ (id : Int) (i : Nat), s.islands.lookup id = some i ↔ IsLastClaimOf survivors id i)

/-- The claims of the lists of the map that `fetchIslandClaims` returns, each as
the list of its owner, its island and its three war fields. -/
def FetchResult.warsOf (r : FetchResult) : Option (List (List Int)) :=
  r.counts.map (fun counts =>
    counts.flatMap (fun e => e.2.islands.map (fun c =>
      [(e.1 : Int), c.IslandID, (c.WarringTribeID : Int), (c.WarStartUTC : Int),
        (c.WarEndUTC : Int)])))

/-! ## Claims and war declarations for the instances -/

/-- The claim document of owner `6` on island `1`. -/
def rivalDoc1 : Bytes := utf8 "\x7b\"islandId\":1,\"ownerTribeId\":6\x7d"

/-- What `json.Unmarshal` does with the claim documents of the owners `5` and
`6`. -/
def rivalTable : List (Bytes × (IslandClaim → IslandClaim)) :=
  claimTable ++ [(rivalDoc1, fun c => { c with IslandID := 1, OwnerTribeID := 6 })]

/-- The declaration of war of tribe `9` on island `1`, from 100 to 200. -/
def warDoc1 : Bytes :=
  utf8 "\x7b\"islandId\":1,\"warringTribeID\":9,\"warStartUTC\":100,\"warEndUTC\":200\x7d"

/-- The declaration of war of tribe `8` on island `1`, from 300 to 400. -/
def warDoc1b : Bytes :=
  utf8 "\x7b\"islandId\":1,\"warringTribeID\":8,\"warStartUTC\":300,\"warEndUTC\":400\x7d"

/-- A declaration of war of tribe `9` on island `2` without end, `warEndUTC`
being 0. -/
def warDoc2 : Bytes :=
  utf8 "\x7b\"islandId\":2,\"warringTribeID\":9,\"warStartUTC\":100,\"warEndUTC\":0\x7d"

/-- What `json.Unmarshal` does with the three war declarations. -/
def warTable : List (Bytes × WarDeclaration) :=
  [(warDoc1, { IslandID := 1, WarringTribeID := 9, WarStartUTC := 100, WarEndUTC := 200 }),
   (warDoc1b, { IslandID := 1, WarringTribeID := 8, WarStartUTC := 300, WarEndUTC := 400 }),
   (warDoc2, { IslandID := 2, WarringTribeID := 9, WarStartUTC := 100, WarEndUTC := 0 })]

/-! ## The published text and its lock (`island.go`, `main.go`)

`generateIslandData` builds the document in the local variable `output`,
encodes it, and assigns the text to `*islandData` between `Lock()` and
`Unlock()`; `getIslands` reads `islandData` between `RLock()` and `RUnlock()`.
The writer and the readers run as goroutines; a run of the program is an
interleaving of their steps. A Go string is a pointer and a length: the
assignment writes two words, and between the two the variable holds neither
the old text nor the new one. -/

/-- The content of the variable `islandData`: a text, or the two words of a text
half written over those of another. -/
inductive Cell where
  | stable (text : String) : Cell
  | torn (old new : String) : Cell
  deriving DecidableEq

/-- The text of the variable when it is not half written. -/
def Cell.text (c : Cell) : String :=
  match c with
  | Cell.stable text => text
  | Cell.torn old _ => old

/-- Where the goroutine that runs `generateIslandData` stands: in the loop over
the tribes, `k` of them done; after `json.Marshal`; after `Lock()`; after the
first word of the assignment; after the assignment; after `Unlock()`. -/
inductive WriterPc where
  | building (k : Nat) : WriterPc
  | marshalled : WriterPc
  | locked : WriterPc
  | assigning : WriterPc
  | assigned : WriterPc
  | unlocked : WriterPc
  deriving DecidableEq

/-- Whether the writer holds the lock: from `Lock()` to `Unlock()`. -/
def WriterPc.holdsLock (pc : WriterPc) : Bool :=
  match pc with
  | WriterPc.locked => true
  | WriterPc.assigning => true
  | WriterPc.assigned => true
  | _ => false

/-- Where a goroutine that runs `getIslands` stands: before `RLock()`; after
`RLock()`; after the read of `islandData`, with what it has read; after
`RUnlock()`, with what it has read. -/
inductive ReaderPc where
  | idle : ReaderPc
  | holding : ReaderPc
  | read (seen : Cell) : ReaderPc
  | done (seen : Cell) : ReaderPc
  deriving DecidableEq

/-- Whether a reader holds the lock: from `RLock()` to `RUnlock()`. -/
def ReaderPc.holdsLock (pc : ReaderPc) : Bool :=
  match pc with
  | ReaderPc.holding => true
  | ReaderPc.read _ => true
  | _ => false

/-- What a reader has read, when it has read. -/
def ReaderPc.seen? (pc : ReaderPc) : Option Cell :=
  match pc with
  | ReaderPc.read seen => some seen
  | ReaderPc.done seen => some seen
  | _ => none

/-- The state of the program as far as the published text goes: the variable
`islandData`, the writer with its local variables `output` and `js`, and the
readers. -/
structure PublishState where
  cell : Cell
  pc : WriterPc
  output : IslandOutput
  js : String
  readers : List ReaderPc

/-- A step of a run: of the writer, or of the reader number `i`. -/
inductive PublishAction where
  | writer : PublishAction
  | reader (i : Nat) : PublishAction

/-- The next step of the writer, `generateIslandData` from its loop on; `none`
where the writer cannot move, blocked in `Lock()` by a reader or at its end. -/
def generateIslandData.next (marshal : IslandOutput → String) (tribes : List TribeCount)
    (virtualPixels : Int) (s : PublishState) : Option PublishState :=
  match s.pc with
  | WriterPc.building k =>
    match tribes[k]? with
    | some tribe =>
      some { s with pc := WriterPc.building (k + 1)
                    output := generateIslandData.step virtualPixels s.output tribe }
    | none => some { s with pc := WriterPc.marshalled, js := marshal s.output }
  | WriterPc.marshalled =>
    if s.readers.any ReaderPc.holdsLock then none else some { s with pc := WriterPc.locked }
  | WriterPc.locked =>
    some { s with pc := WriterPc.assigning, cell := Cell.torn s.cell.text s.js }
  | WriterPc.assigning => some { s with pc := WriterPc.assigned, cell := Cell.stable s.js }
  | WriterPc.assigned => some { s with pc := WriterPc.unlocked }
  | WriterPc.unlocked => none

/-- The next step of a reader, `getIslands`; `none` where the reader cannot
move, blocked in `RLock()` by the writer or at its end. -/
def getIslands.next (cell : Cell) (writer : WriterPc) (pc : ReaderPc) : Option ReaderPc :=
  match pc with
  | ReaderPc.idle => if writer.holdsLock then none else some ReaderPc.holding
  | ReaderPc.holding => some (ReaderPc.read cell)
  | ReaderPc.read seen => some (ReaderPc.done seen)
  | ReaderPc.done _ => none

/-- One step of a run; `none` where the goroutine chosen cannot move. -/
def publishStep (marshal : IslandOutput → String) (tribes : List TribeCount)
    (virtualPixels : Int) (s : PublishState) (a : PublishAction) : Option PublishState :=
  match a with
  | PublishAction.writer => generateIslandData.next marshal tribes virtualPixels s
  | PublishAction.reader i =>
    match s.readers[i]? with
    | none => none
    | some pc =>
      match getIslands.next s.cell s.pc pc with
      | none => none
      | some pc1 => some { s with readers := s.readers.set i pc1 }

/-- A run: the steps of a schedule one after the other; `none` where a step of
the schedule cannot be made. -/
def publishRun (marshal : IslandOutput → String) (tribes : List TribeCount)
    (virtualPixels : Int) : PublishState → List PublishAction → Option PublishState
  | s, [] => some s
  | s, a :: rest =>
    match publishStep marshal tribes virtualPixels s a with
    | none => none
    | some s1 => publishRun marshal tribes virtualPixels s1 rest

/-- The state in which `generateIslandData` enters its loop, at the clock
reading `now`, with the text `old` published and `n` readers about to call
`getIslands`. -/
def publishStart (now : Int) (old : String) (n : Nat) : PublishState :=
  { cell := Cell.stable old
    pc := WriterPc.building 0
    output := { Version := now, Islands := [], Companies := [] }
    js := ""
    readers := List.replicate n ReaderPc.idle }

/-- The invariant of the runs: the local variables of the writer are what its
place in the code says, the variable is half written only between the two
words of the assignment, no reader holds the lock while the writer does, and
what a reader has read is the old text or the new one. -/
def PublishState.inv (marshal : IslandOutput → String) (now : Int) (tribes : List TribeCount)
    (virtualPixels : Int) (old : String) (s : PublishState) : Prop :=
  (match s.pc with
    | WriterPc.building k =>
      k ≤ tribes.length ∧
      s.output = (tribes.take k).foldl (generateIslandData.step virtualPixels)
        { Version := now, Islands := [], Companies := [] } ∧
      s.cell = Cell.stable old
    | WriterPc.marshalled =>
      s.js = marshal (generateIslandData now tribes virtualPixels) ∧ s.cell = Cell.stable old
    | WriterPc.locked =>
      s.js = marshal (generateIslandData now tribes virtualPixels) ∧ s.cell = Cell.stable old
    | WriterPc.assigning =>
      s.js = marshal (generateIslandData now tribes virtualPixels) ∧
      s.cell = Cell.torn old (marshal (generateIslandData now tribes virtualPixels))
    | WriterPc.assigned =>
      s.js = marshal (generateIslandData now tribes virtualPixels) ∧
      s.cell = Cell.stable (marshal (generateIslandData now tribes virtualPixels))
    | WriterPc.unlocked =>
      s.cell = Cell.stable (marshal (generateIslandData now tribes virtualPixels))) ∧
  (s.pc.holdsLock = true → ∀ r ∈ s.readers, r.holdsLock = false) ∧
  (∀ r ∈ s.readers, ∀ c, r.seen? = some c →
    c = Cell.stable old ∨ c = Cell.stable (marshal (generateIslandData now tribes virtualPixels)))

/-- A schedule of the instances: the reader 0 calls `RLock()` and reads while
the writer builds the document, and returns before the writer calls `Lock()`;
the reader 1 runs after the `Unlock()` of the writer. -/
def exampleSchedule : List PublishAction :=
  [PublishAction.reader 0, PublishAction.writer, PublishAction.reader 0, PublishAction.writer,
   PublishAction.reader 0, PublishAction.writer, PublishAction.writer, PublishAction.writer,
   PublishAction.writer, PublishAction.reader 1, PublishAction.reader 1, PublishAction.reader 1]

/-- A schedule of the instances in which the reader 1 calls `RLock()` between
the two words of the assignment of the writer. -/
def blockedSchedule : List PublishAction :=
  [PublishAction.writer, PublishAction.writer, PublishAction.writer, PublishAction.writer,
   PublishAction.reader 1]

/-- The cycle that fetches the map `c.1` and visits it in the order `c.2` removes
the id `k` as an orphan: `k` is a key of the fetched map and no key of the map
that the validation loop leaves. Which entries the loop removes does not depend
on the set `kidsWithBadParents`. -/
def cycleRemoves (c : EntityMap × List (String × EntityInfo)) (k : String) : Prop :=
  k ∈ c.1.keys ∧ k ∉ (ProcessEntities.validate [] c.1 c.2).entities.keys

instance (c : EntityMap × List (String × EntityInfo)) (k : String) :
    Decidable (cycleRemoves c k) := by
  unfold cycleRemoves
  exact inferInstance

/-! ## Theorems: `container/heap` and `TopNTribes` -/

theorem length_swapAt {α : Type} (l : List α) (i j : Nat) :
    (swapAt l i j).length = l.length := by
  unfold swapAt
  split <;> simp

theorem swapAt_eq {α : Type} (l : List α) {i j : Nat} (hi : i < l.length) (hj : j < l.length) :
    swapAt l i j = (l.set i l[j]).set j l[i] := by
  unfold swapAt
  rw [List.getElem?_eq_getElem hi, List.getElem?_eq_getElem hj]

theorem getElem?_swapAt {α : Type} (l : List α) {i j : Nat} (hi : i < l.length)
    (hj : j < l.length) (k : Nat) : (swapAt l i j)[k]? = l[tr i j k]? := by
  rw [swapAt_eq l hi hj]
  simp only [List.getElem?_set, tr, List.length_set]
  by_cases h1 : k = j
  · subst h1
    by_cases h2 : k = i
    · subst h2; simp [hi]
    · simp [h2, hj, hi]
  · by_cases h2 : k = i
    · subst h2
      simp [hj, hi, Ne.symm h1]
    · simp [h1, h2, Ne.symm h1, Ne.symm h2]

theorem swapAt_perm {α : Type} (l : List α) (i j : Nat) : (swapAt l i j).Perm l := by
  classical
  unfold swapAt
  split
  · next a b ha hb =>
    obtain ⟨hi, hia⟩ := List.getElem?_eq_some_iff.mp ha
    obtain ⟨hj, hjb⟩ := List.getElem?_eq_some_iff.mp hb
    rw [List.perm_iff_count]
    intro x
    have hj' : j < (l.set i b).length := by simpa using hj
    rw [List.count_set _ _ _ _ hj', List.count_set _ _ _ _ hi]
    have e1 : (l.set i b)[j] = b := by
      rw [List.getElem_set]
      split
      · rfl
      · exact hjb
    rw [e1, hia]
    have h1 : a = x → 1 ≤ List.count x l := by
      intro h
      subst h
      exact List.count_pos_iff.mpr (hia ▸ List.getElem_mem hi)
    by_cases hax : a = x
    · have h2 := h1 hax
      by_cases hbx : b = x <;> simp [hax, hbx] <;> omega
    · by_cases hbx : b = x <;> simp [hax, hbx]
  · exact List.Perm.refl _

theorem TribeCount.less_iff (a b : TribeCount) :
    a.less b = true ↔ a.count < b.count ∨ (a.count = b.count ∧ a.tribeID < b.tribeID) := by
  unfold TribeCount.less
  by_cases h1 : a.count < b.count
  · simp [h1]
  · by_cases h2 : a.count = b.count
    · simp [h1, h2]
    · simp [h1, h2]

theorem TribeCount.less_eq_false_iff (a b : TribeCount) :
    a.less b = false ↔ b.count < a.count ∨ (b.count = a.count ∧ b.tribeID ≤ a.tribeID) := by
  rw [← Bool.not_eq_true, TribeCount.less_iff]
  omega

theorem TribeCount.less_asymm (a b : TribeCount) (h : a.less b = true) : b.less a = false := by
  rw [TribeCount.less_iff] at h
  rw [TribeCount.less_eq_false_iff]
  omega

theorem TribeCount.less_negtrans (a b c : TribeCount) (h1 : b.less a = false)
    (h2 : c.less b = false) : c.less a = false := by
  rw [TribeCount.less_eq_false_iff] at *
  omega

theorem Less_eq (h : TribeCountHeap) {i j : Nat} (hi : i < h.length) (hj : j < h.length) :
    h.Less i j = h[i].less h[j] := by
  unfold TribeCountHeap.Less
  rw [List.getElem?_eq_getElem hi, List.getElem?_eq_getElem hj]

theorem Less_asymm (h : TribeCountHeap) (a b : Nat) (hab : h.Less a b = true) :
    h.Less b a = false := by
  unfold TribeCountHeap.Less at *
  cases ha : h[a]? <;> cases hb : h[b]? <;> simp_all
  exact TribeCount.less_asymm _ _ hab

theorem Less_negtrans (h : TribeCountHeap) (a b c : Nat) (hb : b < h.length)
    (h1 : h.Less b a = false) (h2 : h.Less c b = false) : h.Less c a = false := by
  unfold TribeCountHeap.Less at *
  rw [List.getElem?_eq_getElem hb] at h1 h2
  cases ha : h[a]? <;> cases hc : h[c]? <;> simp_all
  exact TribeCount.less_negtrans _ _ _ h1 h2

theorem Less_swap (h : TribeCountHeap) {i j : Nat} (hi : i < h.length) (hj : j < h.length)
    (a b : Nat) : (h.Swap i j).Less a b = h.Less (tr i j a) (tr i j b) := by
  unfold TribeCountHeap.Less TribeCountHeap.Swap
  rw [getElem?_swapAt h hi hj, getElem?_swapAt h hi hj]

theorem length_Swap (h : TribeCountHeap) (i j : Nat) : (h.Swap i j).length = h.length :=
  length_swapAt h i j

theorem downLoop_heap (n lo : Nat) : ∀ (fuel : Nat) (h : TribeCountHeap) (i : Nat),
    n ≤ h.length → n ≤ fuel + i →
    (∀ c, 0 < c → c < n → lo ≤ (c - 1) / 2 → (c - 1) / 2 ≠ i →
      h.Less c ((c - 1) / 2) = false) →
    (∀ c, 0 < c → c < n → (c - 1) / 2 = i → 0 < i → lo ≤ (i - 1) / 2 →
      h.Less c ((i - 1) / 2) = false) →
    HeapFrom (heap.downLoop fuel h i n) n lo := by
  intro fuel
  induction fuel with
  | zero =>
    intro h i _ hf hb _ c hc0 hcn hlo
    exact hb c hc0 hcn hlo (by omega)
  | succ fuel ih =>
    intro h i hlen hf hb hg
    simp only [heap.downLoop]
    by_cases hj1 : 2 * i + 1 ≥ n
    · simp only [hj1, if_true]
      intro c hc0 hcn hlo
      exact hb c hc0 hcn hlo (by omega)
    · simp only [hj1, if_false]
      have hin : 2 * i + 1 < n := by omega
      -- the smaller child
      obtain ⟨j, hjdef, hjlo, hjn, hjpar, hjmin⟩ :
          ∃ j, (if (decide (2 * i + 1 + 1 < n) && h.Less (2 * i + 1 + 1) (2 * i + 1)) = true
                then 2 * i + 1 + 1 else 2 * i + 1) = j ∧ 2 * i + 1 ≤ j ∧ j < n ∧
            (j - 1) / 2 = i ∧
            ∀ c, 0 < c → c < n → (c - 1) / 2 = i → h.Less c j = false := by
        by_cases hc : (decide (2 * i + 1 + 1 < n) && h.Less (2 * i + 1 + 1) (2 * i + 1)) = true
        · refine ⟨2 * i + 1 + 1, by simp [hc], by omega, ?_, by omega, ?_⟩
          · simp at hc; omega
          · intro c hc0 hcn hpar
            simp at hc
            have : c = 2 * i + 1 ∨ c = 2 * i + 1 + 1 := by omega
            rcases this with rfl | rfl
            · exact Less_asymm _ _ _ hc.2
            · unfold TribeCountHeap.Less
              cases h[2 * i + 1 + 1]? <;> simp [TribeCount.less]
        · refine ⟨2 * i + 1, by simp [hc], by omega, by omega, by omega, ?_⟩
          intro c hc0 hcn hpar
          have : c = 2 * i + 1 ∨ c = 2 * i + 1 + 1 := by omega
          rcases this with rfl | rfl
          · unfold TribeCountHeap.Less
            cases h[2 * i + 1]? <;> simp [TribeCount.less]
          · simp at hc
            have := hc hcn
            simpa using this
      rw [hjdef]
      by_cases hless : h.Less j i = true
      · simp only [hless, Bool.not_true]
        have hi' : i < h.length := by omega
        have hj' : j < h.length := by omega
        apply ih
        · rw [length_Swap]; exact hlen
        · omega
        · intro c hc0 hcn hlo hne
          rw [Less_swap h hi' hj']
          by_cases hci : c = i
          · subst hci
            have e1 : tr c j c = j := by simp [tr]
            have e2 : tr c j ((c - 1) / 2) = (c - 1) / 2 := by
              unfold tr
              rw [if_neg (by omega), if_neg (by omega)]
            rw [e1, e2]
            exact hg j (by omega) hjn hjpar hc0 hlo
          · by_cases hcj : c = j
            · subst hcj
              have e1 : tr i c c = i := by
                unfold tr
                rw [if_neg hci, if_pos rfl]
              have e2 : tr i c ((c - 1) / 2) = c := by
                unfold tr
                rw [if_pos hjpar]
              rw [e1, e2]
              exact Less_asymm _ _ _ hless
            · have e1 : tr i j c = c := by
                unfold tr
                rw [if_neg hci, if_neg hcj]
              rw [e1]
              by_cases hpi : (c - 1) / 2 = i
              · have e2 : tr i j ((c - 1) / 2) = j := by
                  unfold tr
                  rw [if_pos hpi]
                rw [e2]
                exact hjmin c hc0 hcn hpi
              · have e2 : tr i j ((c - 1) / 2) = (c - 1) / 2 := by
                  unfold tr
                  rw [if_neg hpi, if_neg hne]
                rw [e2]
                exact hb c hc0 hcn hlo hpi
        · intro c hc0 hcn hpar _ hlo
          rw [Less_swap h hi' hj']
          have e1 : tr i j c = c := by
            unfold tr
            rw [if_neg (by omega), if_neg (by omega)]
          have e2 : tr i j ((j - 1) / 2) = j := by
            unfold tr
            rw [if_pos hjpar]
          rw [e1, e2]
          have := hb c hc0 hcn (by omega) (by omega)
          rw [hpar] at this
          exact this
      · simp only [Bool.not_eq_true] at hless
        simp only [hless, Bool.not_false, if_true]
        intro c hc0 hcn hlo
        by_cases hpi : (c - 1) / 2 = i
        · rw [hpi]
          exact Less_negtrans h i j c (by omega) hless (hjmin c hc0 hcn hpi)
        · exact hb c hc0 hcn hlo hpi

theorem length_downLoop (n : Nat) : ∀ (fuel : Nat) (h : TribeCountHeap) (i : Nat),
    (heap.downLoop fuel h i n).length = h.length := by
  intro fuel
  induction fuel with
  | zero => intro h i; rfl
  | succ fuel ih =>
    intro h i
    simp only [heap.downLoop]
    split_ifs <;> first | rfl | (rw [ih, length_Swap])

theorem downLoop_perm (n : Nat) : ∀ (fuel : Nat) (h : TribeCountHeap) (i : Nat),
    (heap.downLoop fuel h i n).Perm h := by
  intro fuel
  induction fuel with
  | zero => intro h i; exact List.Perm.refl _
  | succ fuel ih =>
    intro h i
    simp only [heap.downLoop]
    split_ifs <;> first | exact List.Perm.refl _ | exact (ih _ _).trans (swapAt_perm _ _ _)

theorem downLoop_getElem?_ge (n : Nat) : ∀ (fuel : Nat) (h : TribeCountHeap) (i : Nat),
    n ≤ h.length → ∀ k, n ≤ k → (heap.downLoop fuel h i n)[k]? = h[k]? := by
  intro fuel
  induction fuel with
  | zero => intro h i _ k _; rfl
  | succ fuel ih =>
    intro h i hlen k hk
    simp only [heap.downLoop]
    by_cases hj1 : 2 * i + 1 ≥ n
    · simp only [hj1, if_true]
    · simp only [hj1, if_false]
      generalize hj : (if (decide (2 * i + 1 + 1 < n) && h.Less (2 * i + 1 + 1) (2 * i + 1)) = true
                then 2 * i + 1 + 1 else 2 * i + 1) = j
      have hjn : j < n := by
        rw [← hj]
        split_ifs with hc
        · simp at hc; omega
        · omega
      split_ifs
      · rfl
      · rw [ih _ _ (by rw [length_Swap]; exact hlen) k hk]
        unfold TribeCountHeap.Swap
        rw [getElem?_swapAt h (by omega) (by omega)]
        unfold tr
        rw [if_neg (by omega), if_neg (by omega)]

theorem length_upLoop : ∀ (fuel : Nat) (h : TribeCountHeap) (j : Nat),
    (heap.upLoop fuel h j).length = h.length := by
  intro fuel
  induction fuel with
  | zero => intro h j; rfl
  | succ fuel ih =>
    intro h j
    simp only [heap.upLoop]
    split_ifs <;> first | rfl | (rw [ih, length_Swap])

theorem upLoop_perm : ∀ (fuel : Nat) (h : TribeCountHeap) (j : Nat),
    (heap.upLoop fuel h j).Perm h := by
  intro fuel
  induction fuel with
  | zero => intro h j; exact List.Perm.refl _
  | succ fuel ih =>
    intro h j
    simp only [heap.upLoop]
    split_ifs <;> first | exact List.Perm.refl _ | exact (ih _ _).trans (swapAt_perm _ _ _)

theorem upLoop_heap (n : Nat) : ∀ (fuel : Nat) (h : TribeCountHeap) (j : Nat),
    n ≤ h.length → j < n → j < fuel →
    (∀ c, 0 < c → c < n → c ≠ j → h.Less c ((c - 1) / 2) = false) →
    (∀ c, 0 < c → c < n → (c - 1) / 2 = j → 0 < j → h.Less c ((j - 1) / 2) = false) →
    HeapFrom (heap.upLoop fuel h j) n 0 := by
  intro fuel
  induction fuel with
  | zero => intro h j _ _ hf; omega
  | succ fuel ih =>
    intro h j hlen hjn hf hb hg
    simp only [heap.upLoop]
    by_cases hij : (j - 1) / 2 = j
    · simp only [hij, decide_True, Bool.true_or, if_true]
      intro c hc0 hcn _
      exact hb c hc0 hcn (by omega)
    · by_cases hless : h.Less j ((j - 1) / 2) = true
      · simp only [hij, hless, decide_False, Bool.not_true, Bool.or_self, Bool.false_eq_true,
          if_false]
        have hj0 : 0 < j := by omega
        have hi' : (j - 1) / 2 < h.length := by omega
        have hj' : j < h.length := by omega
        apply ih
        · rw [length_Swap]; exact hlen
        · omega
        · omega
        · intro c hc0 hcn hne
          rw [Less_swap h hi' hj']
          by_cases hcj : c = j
          · subst hcj
            have e1 : tr ((c - 1) / 2) c c = (c - 1) / 2 := by
              unfold tr
              rw [if_neg (by omega), if_pos rfl]
            have e2 : tr ((c - 1) / 2) c ((c - 1) / 2) = c := by
              unfold tr
              rw [if_pos rfl]
            rw [e1, e2]
            exact Less_asymm _ _ _ hless
          · have e1 : tr ((j - 1) / 2) j c = c := by
              unfold tr
              rw [if_neg hne, if_neg hcj]
            rw [e1]
            by_cases hpi : (c - 1) / 2 = (j - 1) / 2
            · have e2 : tr ((j - 1) / 2) j ((c - 1) / 2) = j := by
                unfold tr
                rw [if_pos hpi]
              rw [e2]
              have h1 := hb c hc0 hcn hcj
              rw [hpi] at h1
              exact Less_negtrans h j ((j - 1) / 2) c hi' (Less_asymm _ _ _ hless) h1
            · by_cases hpj : (c - 1) / 2 = j
              · have e2 : tr ((j - 1) / 2) j ((c - 1) / 2) = (j - 1) / 2 := by
                  unfold tr
                  rw [if_neg hpi, if_pos hpj]
                rw [e2]
                exact hg c hc0 hcn hpj hj0
              · have e2 : tr ((j - 1) / 2) j ((c - 1) / 2) = (c - 1) / 2 := by
                  unfold tr
                  rw [if_neg hpi, if_neg hpj]
                rw [e2]
                exact hb c hc0 hcn hcj
        · intro c hc0 hcn hpar hi0
          rw [Less_swap h hi' hj']
          have e2 : tr ((j - 1) / 2) j (((j - 1) / 2 - 1) / 2) = ((j - 1) / 2 - 1) / 2 := by
            unfold tr
            rw [if_neg (by omega), if_neg (by omega)]
          rw [e2]
          have hpp := hb ((j - 1) / 2) hi0 (by omega) (by omega)
          by_cases hcj : c = j
          · subst hcj
            have e1 : tr ((c - 1) / 2) c c = (c - 1) / 2 := by
              unfold tr
              rw [if_neg (by omega), if_pos rfl]
            rw [e1]
            exact hpp
          · have e1 : tr ((j - 1) / 2) j c = c := by
              unfold tr
              rw [if_neg (by omega), if_neg hcj]
            rw [e1]
            have h1 := hb c hc0 hcn hcj
            rw [hpar] at h1
            exact Less_negtrans h _ ((j - 1) / 2) c hi' hpp h1
      · simp only [Bool.not_eq_true] at hless
        simp only [hless, Bool.not_false, Bool.or_true, if_true]
        intro c hc0 hcn _
        by_cases hcj : c = j
        · subst hcj; exact hless
        · exact hb c hc0 hcn hcj

theorem Less_congr (h h' : TribeCountHeap) {a b : Nat} (ha : h'[a]? = h[a]?)
    (hb : h'[b]? = h[b]?) : h'.Less a b = h.Less a b := by
  unfold TribeCountHeap.Less
  rw [ha, hb]

theorem Less_irrefl (h : TribeCountHeap) (a : Nat) : h.Less a a = false := by
  cases hx : h.Less a a
  · rfl
  · have := Less_asymm h a a hx
    rw [hx] at this
    exact this

theorem length_initLoop (n : Nat) : ∀ (m : Nat) (h : TribeCountHeap),
    (heap.initLoop m h n).length = h.length := by
  intro m
  induction m with
  | zero => intro h; rfl
  | succ m ih =>
    intro h
    simp only [heap.initLoop, heap.down]
    rw [ih, length_downLoop]

theorem initLoop_perm (n : Nat) : ∀ (m : Nat) (h : TribeCountHeap),
    (heap.initLoop m h n).Perm h := by
  intro m
  induction m with
  | zero => intro h; exact List.Perm.refl _
  | succ m ih =>
    intro h
    simp only [heap.initLoop, heap.down]
    exact (ih _).trans (downLoop_perm _ _ _ _)

theorem initLoop_heap (n : Nat) : ∀ (m : Nat) (h : TribeCountHeap),
    n ≤ h.length → HeapFrom h n m → HeapFrom (heap.initLoop m h n) n 0 := by
  intro m
  induction m with
  | zero => intro h _ hh; exact hh
  | succ m ih =>
    intro h hlen hh
    simp only [heap.initLoop, heap.down]
    apply ih
    · rw [length_downLoop]; exact hlen
    · apply downLoop_heap n m n h m hlen (by omega)
      · intro c hc0 hcn hlo hne
        exact hh c hc0 hcn (by omega)
      · intro c _ _ _ hm hlo
        omega

theorem length_Init (h : TribeCountHeap) : (heap.Init h).length = h.length :=
  length_initLoop _ _ _

theorem Init_perm (h : TribeCountHeap) : (heap.Init h).Perm h :=
  initLoop_perm _ _ _

theorem Init_heap (h : TribeCountHeap) : IsHeap (heap.Init h) := by
  unfold IsHeap
  rw [length_Init]
  apply initLoop_heap h.length (h.length / 2) h (Nat.le_refl _)
  intro c hc0 hcn hlo
  omega

theorem length_Push (h : TribeCountHeap) (x : TribeCount) :
    (heap.Push h x).length = h.length + 1 := by
  simp only [heap.Push, heap.up, length_upLoop, List.length_append, List.length_singleton]

theorem Push_perm (h : TribeCountHeap) (x : TribeCount) : (heap.Push h x).Perm (x :: h) := by
  simp only [heap.Push, heap.up]
  exact (upLoop_perm _ _ _).trans (List.perm_append_singleton x h)

theorem Push_heap (h : TribeCountHeap) (x : TribeCount) (hh : IsHeap h) :
    IsHeap (heap.Push h x) := by
  unfold IsHeap
  rw [length_Push]
  simp only [heap.Push, heap.up, TribeCountHeap.Len, List.length_append, List.length_singleton,
    Nat.add_sub_cancel]
  apply upLoop_heap (h.length + 1) _ (h ++ [x]) h.length (by simp) (by omega) (by omega)
  · intro c hc0 hcn hne
    have hc : c < h.length := by omega
    rw [Less_congr h (h ++ [x]) (List.getElem?_append_left hc)
      (List.getElem?_append_left (by omega))]
    exact hh c hc0 hc (Nat.zero_le _)
  · intro c hc0 hcn hpar _
    omega

theorem length_Pop (h : TribeCountHeap) : (heap.Pop h).length = h.length - 1 := by
  simp only [heap.Pop, heap.down, List.length_dropLast, length_downLoop, length_Swap]

theorem Pop_perm (x : TribeCount) (t : TribeCountHeap) :
    (x :: heap.Pop (x :: t)).Perm (x :: t) := by
  have hlen : (heap.down (TribeCountHeap.Swap (x :: t) 0 t.length) 0 t.length).length
      = t.length + 1 := by
    simp only [heap.down, length_downLoop, length_Swap, List.length_cons]
  have hlast : (heap.down (TribeCountHeap.Swap (x :: t) 0 t.length) 0 t.length).getLast?
      = some x := by
    rw [List.getLast?_eq_getElem?, hlen]
    simp only [heap.down, Nat.add_sub_cancel]
    rw [downLoop_getElem?_ge _ _ _ _ (by rw [length_Swap]; simp) _ (Nat.le_refl _)]
    unfold TribeCountHeap.Swap
    rw [getElem?_swapAt _ (by simp) (by simp)]
    have : tr 0 t.length t.length = 0 := by
      unfold tr
      split_ifs <;> omega
    rw [this]
    simp
  have hsplit := List.dropLast_append_getLast? x hlast
  have h1 : (x :: heap.Pop (x :: t)).Perm
      (heap.down (TribeCountHeap.Swap (x :: t) 0 t.length) 0 t.length) := by
    have e : heap.Pop (x :: t)
        = (heap.down (TribeCountHeap.Swap (x :: t) 0 t.length) 0 t.length).dropLast := by
      simp only [heap.Pop, TribeCountHeap.Len, List.length_cons, Nat.add_sub_cancel]
    rw [e]
    conv => rhs; rw [← hsplit]
    exact (List.perm_append_singleton x _).symm
  exact h1.trans ((downLoop_perm _ _ _ _).trans (swapAt_perm _ _ _))

theorem Pop_heap (h : TribeCountHeap) (hh : IsHeap h) : IsHeap (heap.Pop h) := by
  unfold IsHeap
  rw [length_Pop]
  have hd : HeapFrom (heap.down (h.Swap 0 (h.length - 1)) 0 (h.length - 1)) (h.length - 1) 0 := by
    by_cases hne : h.length = 0
    · intro c hc0 hcn _
      omega
    · apply downLoop_heap (h.length - 1) 0 _ _ 0 (by rw [length_Swap]; omega) (by omega)
      · intro c hc0 hcn _ hpar
        rw [Less_swap h (by omega) (by omega)]
        have e1 : tr 0 (h.length - 1) c = c := by
          unfold tr
          rw [if_neg (by omega), if_neg (by omega)]
        have e2 : tr 0 (h.length - 1) ((c - 1) / 2) = (c - 1) / 2 := by
          unfold tr
          rw [if_neg hpar, if_neg (by omega)]
        rw [e1, e2]
        exact hh c hc0 (by omega) (Nat.zero_le _)
      · intro c _ _ _ h0 _
        omega
  intro c hc0 hcn hlo
  have e : ∀ k, k < h.length - 1 → (heap.Pop h)[k]?
      = (heap.down (h.Swap 0 (h.length - 1)) 0 (h.length - 1))[k]? := by
    intro k hk
    simp only [heap.Pop, TribeCountHeap.Len]
    rw [List.getElem?_dropLast, if_pos]
    simp only [heap.down, length_downLoop, length_Swap]
    exact hk
  rw [Less_congr _ _ (e c hcn) (e _ (by omega))]
  exact hd c hc0 hcn hlo

theorem heap_root_min (h : TribeCountHeap) (hh : IsHeap h) :
    ∀ k, k < h.length → h.Less k 0 = false := by
  intro k
  induction k using Nat.strong_induction_on with
  | _ k ih =>
    intro hk
    by_cases hk0 : k = 0
    · subst hk0; exact Less_irrefl h 0
    · have h1 := hh k (by omega) hk (Nat.zero_le _)
      have h2 := ih ((k - 1) / 2) (by omega) (by omega)
      exact Less_negtrans h 0 ((k - 1) / 2) k (by omega) h2 h1

theorem heap_head_min (x : TribeCount) (t : TribeCountHeap) (hh : IsHeap (x :: t)) :
    ∀ y ∈ x :: t, y.less x = false := by
  intro y hy
  obtain ⟨k, hk, rfl⟩ := List.getElem_of_mem hy
  have := heap_root_min (x :: t) hh k hk
  rw [Less_eq _ hk (by simp)] at this
  simpa using this

theorem Selected_init (p : List TribeCount) : Selected p.length p (heap.Init p) := by
  refine ⟨Init_heap p, length_Init p, [], ?_, ?_⟩
  · simpa using Init_perm p
  · intro d hd
    cases hd

theorem Selected_push_pop (m : Nat) (p pq : List TribeCount) (v : TribeCount)
    (hs : Selected m p pq) : Selected m (p ++ [v]) (heap.Pop (heap.Push pq v)) := by
  obtain ⟨hheap, hlen, D, hperm, hD⟩ := hs
  have hpush := Push_heap pq v hheap
  have hpl := length_Push pq v
  have hpp := Push_perm pq v
  cases hq : heap.Push pq v with
  | nil => rw [hq] at hpl; simp at hpl
  | cons x t =>
    rw [hq] at hpush hpl hpp
    have hpop := Pop_perm x t
    have hmin := heap_head_min x t hpush
    have hall : (x :: heap.Pop (x :: t)).Perm (v :: pq) := hpop.trans hpp
    refine ⟨Pop_heap _ hpush, ?_, x :: D, ?_, ?_⟩
    · rw [length_Pop, hpl]; omega
    · have h1 : (heap.Pop (x :: t) ++ x :: D).Perm (x :: heap.Pop (x :: t) ++ D) := by
        simp
      have h2 : (x :: heap.Pop (x :: t) ++ D).Perm (v :: pq ++ D) := hall.append_right D
      have h3 : (v :: pq ++ D).Perm (p ++ [v]) := by
        simpa using ((hperm.cons v).trans (List.perm_append_singleton v p).symm)
      exact h1.trans (h2.trans h3)
    · intro d hd r hr
      have hr2 : r ∈ x :: t := hpop.subset (List.mem_cons_of_mem _ hr)
      rcases List.mem_cons.mp hd with rfl | hdD
      · exact hmin r hr2
      · have hxv : x ∈ v :: pq := hall.subset (List.mem_cons_self _ _)
        have hrv : r ∈ v :: pq := hall.subset (List.mem_cons_of_mem _ hr)
        rcases List.mem_cons.mp hrv with rfl | hrpq
        · rcases List.mem_cons.mp hxv with hx | hxpq
          · subst hx
            have : (heap.Pop (x :: t)).Perm pq := hall.cons_inv
            exact hD d hdD x (this.subset hr)
          · exact TribeCount.less_negtrans d x r (hD d hdD x hxpq) (hmin r hr2)
        · exact hD d hdD r hrpq

theorem step_inv (m : Nat) (p : List TribeCount) (s : TribeCountHeap × Nat) (v : TribeCount)
    (h : LoopInv m p s) : LoopInv m (p ++ [v]) (TopNTribes.step (m : Int) s v) := by
  obtain ⟨pq, i⟩ := s
  obtain ⟨hi, hraw, hsel⟩ := h
  simp only at hi hraw hsel
  unfold TopNTribes.step
  simp only [Nat.cast_lt, Nat.cast_inj, gt_iff_lt, TribeCountHeap.Len]
  by_cases hlt : i < m
  · simp only [hlt, if_true]
    refine ⟨by simp [hi], ?_, ?_⟩
    · intro _
      simp only
      rw [hraw (by omega)]
    · intro h'
      simp only at h'
      omega
  · simp only [hlt, if_false]
    have hsel1 : Selected m p (if i = m then heap.Init pq else pq) := by
      by_cases him : i = m
      · simp only [him, if_true]
        have hpq : pq = p := hraw (by omega)
        have hm : m = p.length := by omega
        rw [hpq, hm]
        exact Selected_init p
      · simp only [him, if_false]
        exact hsel (by omega)
    have hlen2 : m < (heap.Push (if i = m then heap.Init pq else pq) v).length := by
      rw [length_Push, hsel1.2.1]
      omega
    simp only [hlen2, if_true]
    refine ⟨by simp [hi], ?_, ?_⟩
    · intro h'
      simp only at h'
      omega
    · intro _
      exact Selected_push_pop m p _ v hsel1

theorem foldl_inv (m : Nat) : ∀ (l p : List TribeCount) (s : TribeCountHeap × Nat),
    LoopInv m p s → LoopInv m (p ++ l) (l.foldl (TopNTribes.step (m : Int)) s) := by
  intro l
  induction l with
  | nil => intro p s h; simpa using h
  | cons v l ih =>
    intro p s h
    have := ih (p ++ [v]) _ (step_inv m p s v h)
    simpa using this

theorem selectedHeap_spec (m : Nat) (l : List TribeCount) :
    Selected (min m l.length) l (selectedHeap (m : Int) l) := by
  have hinv : LoopInv m l (l.foldl (TopNTribes.step (m : Int)) ([], 0)) := by
    have := foldl_inv m l [] ([], 0) ⟨rfl, fun _ => rfl, fun h => by simp at h⟩
    simpa using this
  obtain ⟨hi, hraw, hsel⟩ := hinv
  unfold selectedHeap
  simp only [Nat.cast_le]
  by_cases hle : (l.foldl (TopNTribes.step (m : Int)) ([], 0)).2 ≤ m
  · simp only [hle, if_true]
    rw [hraw hle]
    have : min m l.length = l.length := by omega
    rw [this]
    exact Selected_init l
  · simp only [hle, if_false]
    have : min m l.length = m := by omega
    rw [this]
    exact hsel (by omega)

theorem drain_spec : ∀ (fuel : Nat) (pq : TribeCountHeap) (results : List Nat),
    pq.length = fuel → IsHeap pq →
    ∃ A : List TribeCount, A.Perm pq ∧ A.Pairwise (fun a b => b.less a = false) ∧
      TopNTribes.drain fuel pq results = results ++ A.map (fun t => t.tribeID) := by
  intro fuel
  induction fuel with
  | zero =>
    intro pq results hlen _
    have : pq = [] := List.length_eq_zero.mp hlen
    subst this
    exact ⟨[], List.Perm.refl _, List.Pairwise.nil, by simp [TopNTribes.drain]⟩
  | succ fuel ih =>
    intro pq results hlen hheap
    cases pq with
    | nil => simp at hlen
    | cons x t =>
      obtain ⟨A, hperm, hsorted, hdrain⟩ := ih (heap.Pop (x :: t)) (results ++ [x.tribeID])
        (by rw [length_Pop, hlen]; rfl) (Pop_heap _ hheap)
      refine ⟨x :: A, (hperm.cons x).trans (Pop_perm x t), ?_, ?_⟩
      · refine List.Pairwise.cons ?_ hsorted
        intro a ha
        exact heap_head_min x t hheap a
          ((Pop_perm x t).subset (List.mem_cons_of_mem _ (hperm.subset ha)))
      · simp only [TopNTribes.drain, hdrain, List.map_cons, List.append_assoc,
          List.singleton_append]

theorem length_reverseLoop : ∀ (m : Nat) (r : List Nat),
    (TopNTribes.reverseLoop m r).length = r.length := by
  intro m
  induction m with
  | zero => intro r; rfl
  | succ m ih =>
    intro r
    simp only [TopNTribes.reverseLoop]
    rw [ih, length_swapAt]

theorem reverseLoop_getElem? : ∀ (m : Nat) (r : List Nat), 2 * m ≤ r.length →
    ∀ k, k < r.length → (TopNTribes.reverseLoop m r)[k]? =
      if k < m ∨ r.length - m ≤ k then r[r.length - 1 - k]? else r[k]? := by
  intro m
  induction m with
  | zero =>
    intro r _ k hk
    simp only [TopNTribes.reverseLoop]
    rw [if_neg (by omega)]
  | succ m ih =>
    intro r hm k hk
    simp only [TopNTribes.reverseLoop]
    rw [ih _ (by rw [length_swapAt]; omega) k (by rw [length_swapAt]; exact hk), length_swapAt]
    have hsw := getElem?_swapAt r (i := m) (j := r.length - 1 - m) (by omega) (by omega)
    rw [hsw, hsw]
    by_cases h1 : k < m ∨ r.length - m ≤ k
    · rw [if_pos h1, if_pos (by omega)]
      congr 1
      unfold tr
      rw [if_neg (by omega), if_neg (by omega)]
    · rw [if_neg h1]
      by_cases h2 : k = m
      · rw [if_pos (by omega)]
        congr 1
        unfold tr
        rw [if_pos h2, h2]
      · by_cases h3 : k = r.length - 1 - m
        · rw [if_pos (by omega)]
          congr 1
          unfold tr
          rw [if_neg h2, if_pos h3]
          omega
        · rw [if_neg (by omega)]
          congr 1
          unfold tr
          rw [if_neg h2, if_neg h3]

theorem reverseLoop_eq_reverse (r : List Nat) :
    TopNTribes.reverseLoop (r.length / 2) r = r.reverse := by
  apply List.ext_getElem?
  intro k
  by_cases hk : k < r.length
  · rw [reverseLoop_getElem? _ r (by omega) k hk, List.getElem?_reverse hk]
    by_cases h1 : k < r.length / 2 ∨ r.length - r.length / 2 ≤ k
    · rw [if_pos h1]
    · rw [if_neg h1]
      congr 1
      omega
  · rw [List.getElem?_eq_none (by rw [length_reverseLoop]; omega),
      List.getElem?_eq_none (by rw [List.length_reverse]; omega)]

theorem TopNTribes_eq (n : Int) (counts : List TribeCount) :
    TopNTribes n counts = (TopNTribes.drain (selectedHeap n counts).length
      (selectedHeap n counts) []).reverse := by
  unfold TopNTribes selectedHeap
  simp only [TribeCountHeap.Len]
  rw [reverseLoop_eq_reverse]

/-- What `TopNTribes` returns, in terms of elements: the ids of a list `R` that
is in descending order, has `min n k` elements, and is followed in the ranking
by all the other owners. -/
theorem TopNTribes_elems (m : Nat) (l : List TribeCount) :
    ∃ R D : List TribeCount, TopNTribes (m : Int) l = R.map (fun t => t.tribeID) ∧
      R.length = min m l.length ∧ (R ++ D).Perm l ∧
      R.Pairwise (fun a b => a.less b = false) ∧ ∀ d ∈ D, ∀ r ∈ R, r.less d = false := by
  obtain ⟨hheap, hlen, D, hperm, hD⟩ := selectedHeap_spec m l
  obtain ⟨A, hA, hsorted, hdrain⟩ := drain_spec _ (selectedHeap (m : Int) l) [] rfl hheap
  refine ⟨A.reverse, D, ?_, ?_, ?_, ?_, ?_⟩
  · rw [TopNTribes_eq, hdrain]
    simp
  · rw [List.length_reverse, hA.length_eq, hlen]
  · exact (((List.reverse_perm A).trans hA).append_right D).trans hperm
  · rw [List.pairwise_reverse]
    exact hsorted
  · intro d hd r hr
    exact hD d hd r (hA.subset (List.mem_reverse.mp hr))

theorem ranksAhead_iff_less (a b : TribeCount) : ranksAhead a b ↔ a.less b = false := by
  rw [TribeCount.less_eq_false_iff]
  rfl

theorem ranksAhead_iff_key (a b : TribeCount) : ranksAhead a b ↔ rankKey b ≤ rankKey a := by
  unfold ranksAhead rankKey
  rw [Prod.Lex.le_iff]

theorem tribeID_eq_of_key (t : TribeCount) : t.tribeID = (ofLex (rankKey t)).2 := rfl

/-- Two lists of owners in ranking order with the same elements carry the same
ids in the same positions. -/
theorem ids_eq_of_sorted_perm (l₁ l₂ : List TribeCount) (hp : l₁.Perm l₂)
    (h₁ : l₁.Pairwise ranksAhead) (h₂ : l₂.Pairwise ranksAhead) :
    l₁.map (fun t => t.tribeID) = l₂.map (fun t => t.tribeID) := by
  have hk : l₁.map rankKey = l₂.map rankKey := by
    apply List.eq_of_perm_of_sorted (r := fun a b : Lex (Int × Nat) => b ≤ a) (hp.map rankKey)
    · rw [List.Sorted, List.pairwise_map]
      exact h₁.imp (fun h => (ranksAhead_iff_key _ _).mp h)
    · rw [List.Sorted, List.pairwise_map]
      exact h₂.imp (fun h => (ranksAhead_iff_key _ _).mp h)
  have e : (fun t : TribeCount => t.tribeID) = (fun k : Lex (Int × Nat) => (ofLex k).2) ∘ rankKey := by
    funext t
    rfl
  rw [e, ← List.map_map, ← List.map_map, hk]

theorem TopNTribes_nat (m : Nat) (l : List TribeCount) :
    TopNTribes (m : Int) l = topNBySorting m l := by
  obtain ⟨R, D, hres, hlen, hperm, hsorted, hD⟩ := TopNTribes_elems m l
  have hRD : (R ++ D.insertionSort ranksAhead).Pairwise ranksAhead := by
    rw [List.pairwise_append]
    refine ⟨hsorted.imp (fun h => (ranksAhead_iff_less _ _).mpr h),
      List.sorted_insertionSort ranksAhead D, ?_⟩
    intro a ha b hb
    rw [ranksAhead_iff_less]
    exact hD b ((List.perm_insertionSort ranksAhead D).subset hb) a ha
  have hp : (R ++ D.insertionSort ranksAhead).Perm (l.insertionSort ranksAhead) :=
    (((List.perm_insertionSort ranksAhead D).append_left R).trans hperm).trans
      (List.perm_insertionSort ranksAhead l).symm
  have hids := ids_eq_of_sorted_perm _ _ hp hRD (List.sorted_insertionSort ranksAhead l)
  unfold topNBySorting
  rw [List.map_take, ← hids, hres, List.map_append]
  have hl : l.length = R.length + D.length := by
    rw [← hperm.length_eq, List.length_append]
  by_cases hm : m ≤ l.length
  · rw [List.take_left']
    rw [List.length_map, hlen]
    omega
  · have hD0 : D = [] := List.length_eq_zero.mp (by omega)
    subst hD0
    simp only [List.insertionSort, List.map_nil, List.append_nil]
    rw [List.take_of_length_le]
    rw [List.length_map]
    omega

theorem topNBySorting_perm (m : Nat) (l₁ l₂ : List TribeCount) (hp : l₁.Perm l₂) :
    topNBySorting m l₁ = topNBySorting m l₂ := by
  unfold topNBySorting
  rw [List.map_take, List.map_take]
  congr 1
  exact ids_eq_of_sorted_perm _ _
    (((List.perm_insertionSort ranksAhead l₁).trans hp).trans
      (List.perm_insertionSort ranksAhead l₂).symm)
    (List.sorted_insertionSort ranksAhead l₁) (List.sorted_insertionSort ranksAhead l₂)

/-- C1. For every `n ≥ 0`, every owner map `counts` and every order `order` in
which the `range` loop enumerates it, `TopNTribes(n, counts)` is the list of the
first `n` ids of the owners sorted by descending count, equal counts by
descending tribeID. (The ids need not even be pairwise distinct for this.) -/
theorem TopNTribes_eq_topNBySorting (n : Int) (hn : 0 ≤ n) (counts order : List TribeCount)
    (horder : order.Perm counts) :
    TopNTribes n order = topNBySorting n.toNat counts := by
  obtain ⟨m, rfl⟩ := Int.eq_ofNat_of_zero_le hn
  rw [TopNTribes_nat, Int.toNat_ofNat]
  exact topNBySorting_perm m order counts horder

/-- The instance of C1 given with the claim: `n = 5` and the six owners
`{1:10, 2:10, 3:30, 4:5, 5:10, 6:1}`, here enumerated backwards, give
`[3, 5, 2, 1, 4]`. -/
theorem TopNTribes_eq_topNBySorting_witness :
    TopNTribes 5 exampleOwners.reverse = [3, 5, 2, 1, 4] :=
  (TopNTribes_eq_topNBySorting 5 (by decide) exampleOwners exampleOwners.reverse
    (List.reverse_perm exampleOwners)).trans (by decide)

/-- C2. For every `n ≥ 0` and every owner map with `k` entries, the list returned
by `TopNTribes(n, counts)` has exactly `min n k` elements; with `n = 5` and two
owners it is the two ids, the owner with the higher total first, in whichever
order the two are enumerated. -/
theorem TopNTribes_length (n : Int) (hn : 0 ≤ n) (counts : List TribeCount) :
    (TopNTribes n counts).length = min n.toNat counts.length ∧
    ∀ a b : TribeCount, b.count < a.count →
      TopNTribes 5 [a, b] = [a.tribeID, b.tribeID] ∧
      TopNTribes 5 [b, a] = [a.tribeID, b.tribeID] := by
  constructor
  · obtain ⟨m, rfl⟩ := Int.eq_ofNat_of_zero_le hn
    obtain ⟨R, D, hres, hlen, _, _, _⟩ := TopNTribes_elems m counts
    rw [hres, List.length_map, hlen, Int.toNat_ofNat]
  · intro a b hab
    have h5 : (5 : Int) = ((5 : Nat) : Int) := rfl
    have hba : ¬ ranksAhead b a := by
      unfold ranksAhead
      omega
    have hab' : ranksAhead a b := Or.inl hab
    rw [h5, TopNTribes_nat, TopNTribes_nat]
    constructor
    · simp [topNBySorting, List.insertionSort, List.orderedInsert, hab']
    · simp [topNBySorting, List.insertionSort, List.orderedInsert, hba]

/-- An instance of C2: `n = 5` and the two owners `{7:3, 9:8}`. -/
theorem TopNTribes_length_witness :
    (TopNTribes 5 [{ tribeID := 7, count := 3 }, { tribeID := 9, count := 8 }]).length = 2 ∧
    TopNTribes 5 [{ tribeID := 7, count := 3 }, { tribeID := 9, count := 8 }] = [9, 7] :=
  ⟨(TopNTribes_length 5 (by decide)
      [{ tribeID := 7, count := 3 }, { tribeID := 9, count := 8 }]).1,
    ((TopNTribes_length 5 (by decide) []).2
      { tribeID := 9, count := 8 } { tribeID := 7, count := 3 } (by decide)).2⟩

/-! ### The validation loop of `ProcessEntities` -/

theorem mem_delete (m : EntityMap) (k : String) (e : String × EntityInfo) :
    e ∈ m.delete k ↔ e ∈ m ∧ e.1 ≠ k := by
  simp [EntityMap.delete]

theorem mem_keys_delete (m : EntityMap) (k k' : String) :
    k' ∈ (m.delete k).keys ↔ k' ∈ m.keys ∧ k' ≠ k := by
  simp only [EntityMap.keys, List.mem_map, mem_delete]
  constructor
  · rintro ⟨e, ⟨he, hne⟩, rfl⟩
    exact ⟨⟨e, he, rfl⟩, hne⟩
  · rintro ⟨⟨e, he, rfl⟩, hne⟩
    exact ⟨e, ⟨he, hne⟩, rfl⟩

theorem delete_sublist (m : EntityMap) (k : String) : (m.delete k).Sublist m :=
  List.filter_sublist m

theorem validateStep_entities (s : ValidatorState) (kv : String × EntityInfo) :
    (ProcessEntities.validateStep s kv).entities =
      if removesAt s kv then s.entities.delete kv.1 else s.entities := by
  unfold ProcessEntities.validateStep removesAt
  by_cases h1 : kv.2.ParentEntityID ≠ "0"
  · by_cases h2 : kv.2.ParentEntityID ∉ s.entities.keys
    · by_cases h3 : kv.1 ∉ s.kidsWithBadParents <;> simp [h1, h2, h3]
    · simp [h1, h2]
  · simp [h1]

theorem validateStep_kids (s : ValidatorState) (kv : String × EntityInfo) :
    (ProcessEntities.validateStep s kv).kidsWithBadParents =
      if removesAt s kv ∧ kv.1 ∉ s.kidsWithBadParents then kv.1 :: s.kidsWithBadParents
      else s.kidsWithBadParents := by
  unfold ProcessEntities.validateStep removesAt
  by_cases h1 : kv.2.ParentEntityID ≠ "0"
  · by_cases h2 : kv.2.ParentEntityID ∉ s.entities.keys
    · by_cases h3 : kv.1 ∉ s.kidsWithBadParents <;> simp [h1, h2, h3]
    · simp [h1, h2]
  · simp [h1]

theorem validateStep_log (s : ValidatorState) (kv : String × EntityInfo) :
    (ProcessEntities.validateStep s kv).log =
      if removesAt s kv ∧ kv.1 ∉ s.kidsWithBadParents then s.log ++ [(kv.1, kv.2.ParentEntityID)]
      else s.log := by
  unfold ProcessEntities.validateStep removesAt
  by_cases h1 : kv.2.ParentEntityID ≠ "0"
  · by_cases h2 : kv.2.ParentEntityID ∉ s.entities.keys
    · by_cases h3 : kv.1 ∉ s.kidsWithBadParents <;> simp [h1, h2, h3]
    · simp [h1, h2]
  · simp [h1]

theorem validateStep_sublist (s : ValidatorState) (kv : String × EntityInfo) :
    (ProcessEntities.validateStep s kv).entities.Sublist s.entities := by
  rw [validateStep_entities]
  split
  · exact delete_sublist _ _
  · exact List.Sublist.refl _

theorem foldl_validateStep_sublist : ∀ (order : List (String × EntityInfo)) (s : ValidatorState),
    (order.foldl ProcessEntities.validateStep s).entities.Sublist s.entities := by
  intro order
  induction order with
  | nil => intro s; exact List.Sublist.refl _
  | cons e rest ih =>
    intro s
    exact (ih _).trans (validateStep_sublist s e)

theorem keys_sublist {m₁ m₂ : EntityMap} (h : m₁.Sublist m₂) : m₁.keys.Sublist m₂.keys :=
  h.map Prod.fst

theorem foldl_validateStep_removes : ∀ (order : List (String × EntityInfo)) (s : ValidatorState)
    (k : String) (v : EntityInfo), (k, v) ∈ order → v.ParentEntityID ≠ "0" →
    v.ParentEntityID ∉ s.entities.keys →
    k ∉ (order.foldl ProcessEntities.validateStep s).entities.keys := by
  intro order
  induction order with
  | nil => intro s k v h; cases h
  | cons e rest ih =>
    intro s k v hmem h0 hp
    simp only [List.foldl_cons]
    rcases List.mem_cons.mp hmem with rfl | hrest
    · intro hk
      have h1 := (keys_sublist (foldl_validateStep_sublist rest _)).subset hk
      rw [validateStep_entities, if_pos ⟨h0, hp⟩, mem_keys_delete] at h1
      exact h1.2 rfl
    · apply ih _ k v hrest h0
      intro hk
      exact hp ((keys_sublist (validateStep_sublist s e)).subset hk)

theorem foldl_validateStep_keeps : ∀ (order : List (String × EntityInfo)) (s : ValidatorState)
    (k : String) (v : EntityInfo), (k, v) ∈ s.entities →
    (∀ e ∈ order, e.1 = k → e.2.ParentEntityID = "0" ∨
      e.2.ParentEntityID ∈ (order.foldl ProcessEntities.validateStep s).entities.keys) →
    (k, v) ∈ (order.foldl ProcessEntities.validateStep s).entities := by
  intro order
  induction order with
  | nil => intro s k v h _; exact h
  | cons e rest ih =>
    intro s k v hmem hcond
    simp only [List.foldl_cons] at hcond ⊢
    apply ih
    · rw [validateStep_entities]
      by_cases hek : e.1 = k
      · have hnot : ¬ removesAt s e := by
          rintro ⟨h0, hp⟩
          rcases hcond e (List.mem_cons_self _ _) hek with h | h
          · exact h0 h
          · exact hp ((keys_sublist ((foldl_validateStep_sublist rest _).trans
              (validateStep_sublist s e))).subset h)
        rw [if_neg hnot]
        exact hmem
      · split
        · rw [mem_delete]
          exact ⟨hmem, fun h => hek h.symm⟩
        · exact hmem
    · intro e' he' hk
      exact hcond e' (List.mem_cons_of_mem _ he') hk

theorem eq_of_mem_of_nodup_keys {m : EntityMap} (hnd : m.keys.Nodup) {k : String}
    {v v' : EntityInfo} (h : (k, v) ∈ m) (h' : (k, v') ∈ m) : v = v' := by
  induction m with
  | nil => cases h
  | cons e m ih =>
    simp only [EntityMap.keys, List.map_cons, List.nodup_cons, List.mem_map, not_exists,
      not_and] at hnd
    rcases List.mem_cons.mp h with rfl | hm
    · rcases List.mem_cons.mp h' with h2 | hm'
      · exact (Prod.mk.inj h2).2.symm
      · exact absurd rfl (hnd.1 (k, v') hm')
    · rcases List.mem_cons.mp h' with rfl | hm'
      · exact absurd rfl (hnd.1 (k, v) hm)
      · exact ih hnd.2 hm hm'

theorem keys_insert (m : EntityMap) (k : String) (v : EntityInfo) :
    (m.insert k v).keys = if k ∈ m.keys then m.keys else m.keys ++ [k] := by
  unfold EntityMap.insert
  by_cases h : k ∈ m.keys
  · rw [if_pos h, if_pos h]
    simp only [EntityMap.keys, List.map_map]
    apply List.map_congr_left
    intro e _
    simp only [Function.comp]
    split
    · next hk => exact hk.symm
    · rfl
  · rw [if_neg h, if_neg h]
    simp [EntityMap.keys]

theorem keys_insert_nodup (m : EntityMap) (k : String) (v : EntityInfo) (h : m.keys.Nodup) :
    (m.insert k v).keys.Nodup := by
  rw [keys_insert]
  split
  · exact h
  · next hk =>
    rw [List.nodup_append]
    refine ⟨h, List.nodup_singleton k, ?_⟩
    intro x hx hx'
    rw [List.mem_singleton] at hx'
    exact hk (hx' ▸ hx)

theorem mem_insert (m : EntityMap) (k : String) (v : EntityInfo) (e : String × EntityInfo)
    (he : e ∈ m.insert k v) : e = (k, v) ∨ e ∈ m := by
  unfold EntityMap.insert at he
  split at he
  · obtain ⟨e', he', hee⟩ := List.mem_map.mp he
    split at hee
    · exact Or.inl hee.symm
    · exact Or.inr (hee ▸ he')
  · rcases List.mem_append.mp he with h | h
    · exact Or.inr h
    · exact Or.inl (List.mem_singleton.mp h)

/-- The map that a cycle fetches has pairwise distinct keys, and every entry is
filed under its own `EntityID`. -/
theorem fetch_wellformed (parseFloat : String → Float) (toLower : String → String)
    (records : List Record) :
    (ProcessEntities.fetch parseFloat toLower records).keys.Nodup ∧
    ∀ e ∈ ProcessEntities.fetch parseFloat toLower records, e.2.EntityID = e.1 := by
  unfold ProcessEntities.fetch
  have hgen : ∀ (rs : List Record) (m : EntityMap), m.keys.Nodup →
      (∀ e ∈ m, e.2.EntityID = e.1) →
      (rs.foldl (fun entities record =>
        EntityMap.insert entities (newEntityInfo parseFloat toLower record).EntityID
          (newEntityInfo parseFloat toLower record)) m).keys.Nodup ∧
      ∀ e ∈ rs.foldl (fun entities record =>
        EntityMap.insert entities (newEntityInfo parseFloat toLower record).EntityID
          (newEntityInfo parseFloat toLower record)) m, e.2.EntityID = e.1 := by
    intro rs
    induction rs with
    | nil => intro m h1 h2; exact ⟨h1, h2⟩
    | cons r rs ih =>
      intro m h1 h2
      simp only [List.foldl_cons]
      apply ih
      · exact keys_insert_nodup m _ _ h1
      · intro e he
        rcases mem_insert m _ _ e he with h | h
        · rw [h]
        · exact h2 e h
  exact hgen records [] (by simp [EntityMap.keys]) (by simp)

theorem foldl_validateStep_keeps_of_not_visited (order : List (String × EntityInfo))
    (s : ValidatorState) (k : String) (v : EntityInfo) (hmem : (k, v) ∈ s.entities)
    (hk : ∀ e ∈ order, e.1 ≠ k) :
    (k, v) ∈ (order.foldl ProcessEntities.validateStep s).entities :=
  foldl_validateStep_keeps order s k v hmem (fun e he hek => absurd hek (hk e he))

/-- C3, at an input where the code does not do what the claim says. The fetched
map is `{B: parent X, C: parent B}` and the loop visits `C` before `B`: `C` is
kept because `B` is still in the map, then `B` is removed because `X` is
missing. The validated map is `{C}`: `C` is left with the parent `B`, which is
not `"0"` and not a key of the validated map. -/
theorem validate_leaves_missing_parent :
    (ProcessEntities.validate [] orphanChain orphanChain.reverse).entities
      = [("C", entityWithParent "C" "B")] ∧
    (entityWithParent "C" "B").ParentEntityID ≠ "0" ∧
    (entityWithParent "C" "B").ParentEntityID ∉
      (ProcessEntities.validate [] orphanChain orphanChain.reverse).entities.keys := by
  refine ⟨?_, by decide, by decide⟩
  rfl

/-- C4 as stated fails: in the fetched map `{B: parent X, C: parent B}`, visited
in the order `B`, `C`, the parent of `C` is the id of an entity of the fetched
map, and yet `C` is not in the validated map. -/
theorem validate_drops_child_of_removed_parent :
    ("C", entityWithParent "C" "B") ∈ orphanChain ∧
    (entityWithParent "C" "B").ParentEntityID ∈ orphanChain.keys ∧
    orphanChain.keys.Nodup ∧
    "C" ∉ (ProcessEntities.validate [] orphanChain orphanChain).entities.keys := by
  refine ⟨?_, by decide, by decide, by decide⟩
  simp [orphanChain]

/-- When exactly the validation loop keeps an entity `(k, v)` of the fetched map:
when its `ParentEntityID` is `"0"` or is a key of the map at the moment the loop
visits the entity, that is of the fetched map without the entities removed
earlier in the same pass. This is so when the parent is present after the loop,
and also when the parent is visited later in the pass. -/
theorem validate_keeps_iff_at_visit (kids : List String) (entities : EntityMap)
    (pre post : List (String × EntityInfo)) (k : String) (v : EntityInfo)
    (hperm : (pre ++ (k, v) :: post).Perm entities) (hnd : entities.keys.Nodup) :
    ((k, v) ∈ (ProcessEntities.validate kids entities (pre ++ (k, v) :: post)).entities ↔
        v.ParentEntityID = "0" ∨
        v.ParentEntityID ∈ (ProcessEntities.validate kids entities pre).entities.keys) ∧
    (v.ParentEntityID ∈
        (ProcessEntities.validate kids entities (pre ++ (k, v) :: post)).entities.keys →
      (k, v) ∈ (ProcessEntities.validate kids entities (pre ++ (k, v) :: post)).entities) ∧
    (v.ParentEntityID ∈ post.map Prod.fst →
      (k, v) ∈ (ProcessEntities.validate kids entities (pre ++ (k, v) :: post)).entities) := by
  have hndo : ((pre ++ (k, v) :: post).map Prod.fst).Nodup :=
    ((hperm.map Prod.fst).nodup_iff).mpr hnd
  rw [List.map_append, List.map_cons, List.nodup_append] at hndo
  obtain ⟨_, hnd2, hdisj⟩ := hndo
  rw [List.nodup_cons] at hnd2
  have hpre : ∀ e ∈ pre, e.1 ≠ k := by
    intro e he hek
    exact hdisj (List.mem_map_of_mem Prod.fst he) (by simp [hek])
  have hpost : ∀ e ∈ post, e.1 ≠ k := by
    intro e he hek
    have := List.mem_map_of_mem Prod.fst he
    rw [hek] at this
    exact hnd2.1 this
  have hmem : (k, v) ∈ entities := hperm.subset (by simp)
  simp only [ProcessEntities.validate, List.foldl_append, List.foldl_cons]
  generalize hinit : ({ entities := entities, kidsWithBadParents := kids, log := [] } :
    ValidatorState) = init
  have hmem0 : (k, v) ∈ init.entities := by rw [← hinit]; exact hmem
  have hkv := foldl_validateStep_keeps_of_not_visited pre init k v hmem0 hpre
  have hiff : (k, v) ∈ (post.foldl ProcessEntities.validateStep
        (ProcessEntities.validateStep (pre.foldl ProcessEntities.validateStep init) (k, v))).entities
      ↔ v.ParentEntityID = "0" ∨
        v.ParentEntityID ∈ (pre.foldl ProcessEntities.validateStep init).entities.keys := by
    constructor
    · intro hin
      by_contra hcon
      have hrem : removesAt (pre.foldl ProcessEntities.validateStep init) (k, v) :=
        ⟨fun h => hcon (Or.inl h), fun h => hcon (Or.inr h)⟩
      have h1 := (foldl_validateStep_sublist post _).subset hin
      rw [validateStep_entities, if_pos hrem, mem_delete] at h1
      exact h1.2 rfl
    · intro hcond
      apply foldl_validateStep_keeps_of_not_visited post _ k v _ hpost
      rw [validateStep_entities, if_neg]
      · exact hkv
      · rintro ⟨h0, hp⟩
        rcases hcond with h | h
        · exact h0 h
        · exact hp h
  refine ⟨hiff, ?_, ?_⟩
  · intro hp
    apply hiff.mpr
    right
    exact (keys_sublist ((foldl_validateStep_sublist post _).trans
      (validateStep_sublist _ _))).subset hp
  · intro hp
    apply hiff.mpr
    right
    obtain ⟨e, he, hep⟩ := List.mem_map.mp hp
    have hein : e ∈ init.entities := by
      rw [← hinit]
      exact hperm.subset (by simp [he])
    have hne : ∀ e' ∈ pre, e'.1 ≠ e.1 := by
      intro e' he' heq
      have h1 := List.mem_map_of_mem Prod.fst he'
      rw [heq] at h1
      exact hdisj h1 (List.mem_cons_of_mem _ (List.mem_map_of_mem Prod.fst he))
    have := foldl_validateStep_keeps_of_not_visited pre init e.1 e.2 hein hne
    rw [← hep]
    exact List.mem_map_of_mem Prod.fst this

/-- C4, amended. For every fetched map and every order in which the validation
loop visits it, an entity whose `ParentEntityID` is `"0"`, or is the key of an
entity that is itself present after the loop, is present after the loop,
unchanged. -/
theorem validate_keeps_child_of_kept_parent (kids : List String) (entities : EntityMap)
    (order : List (String × EntityInfo)) (hperm : order.Perm entities)
    (hnd : entities.keys.Nodup) (k : String) (v : EntityInfo) (hmem : (k, v) ∈ entities)
    (hpar : v.ParentEntityID = "0" ∨
      v.ParentEntityID ∈ (ProcessEntities.validate kids entities order).entities.keys) :
    (k, v) ∈ (ProcessEntities.validate kids entities order).entities := by
  apply foldl_validateStep_keeps order _ k v hmem
  intro e he hek
  have he' : (k, e.2) ∈ entities := by
    have := hperm.subset he
    rw [← hek]
    exact this
  rw [eq_of_mem_of_nodup_keys hnd he' hmem]
  exact hpar

/-- An instance of the amended C4: in `{P: parent 0, Q: parent P}`, visited `Q`
first, the entity `Q` is present after the loop, its parent `P` being present
after the loop. -/
theorem validate_keeps_child_of_kept_parent_witness :
    ("Q", entityWithParent "Q" "P") ∈
      (ProcessEntities.validate [] parentAndChild parentAndChild.reverse).entities :=
  validate_keeps_child_of_kept_parent [] parentAndChild parentAndChild.reverse
    (List.reverse_perm parentAndChild) (by decide) "Q" (entityWithParent "Q" "P")
    (by simp [parentAndChild]) (Or.inr (by decide))

/-- C5. For every fetched map and every order in which the validation loop
visits it, an entity whose `ParentEntityID` is not `"0"` and is not a key of the
fetched map is absent from the validated map, and the validated map is a
sub-list of the fetched one: what remains are entries of the fetched map,
unchanged. -/
theorem validate_removes_orphans (kids : List String) (entities : EntityMap)
    (order : List (String × EntityInfo)) (hperm : order.Perm entities) :
    (∀ k v, (k, v) ∈ entities → v.ParentEntityID ≠ "0" → v.ParentEntityID ∉ entities.keys →
      k ∉ (ProcessEntities.validate kids entities order).entities.keys) ∧
    (ProcessEntities.validate kids entities order).entities.Sublist entities ∧
    ∀ e ∈ (ProcessEntities.validate kids entities order).entities, e ∈ entities := by
  refine ⟨?_, foldl_validateStep_sublist order _, ?_⟩
  · intro k v hmem h0 hp
    exact foldl_validateStep_removes order _ k v (hperm.symm.subset hmem) h0 hp
  · intro e he
    exact (foldl_validateStep_sublist order _).subset he

/-- An instance of C5, the example of the specification: the entity `2` with the
parent `999`, which is not in the fetched map, is absent from the validated
map. -/
theorem validate_removes_orphans_witness :
    "2" ∉ (ProcessEntities.validate [] orphanBatch orphanBatch.reverse).entities.keys :=
  (validate_removes_orphans [] orphanBatch orphanBatch.reverse
    (List.reverse_perm orphanBatch)).1 "2" (entityWithParent "2" "999")
    (by simp [orphanBatch]) (by decide) (by decide)

theorem logCount_append_singleton (k : String) (log : List (String × String))
    (line : String × String) :
    logCount k (log ++ [line]) = logCount k log + if line.1 = k then 1 else 0 := by
  unfold logCount
  rw [List.countP_append]
  by_cases h : line.1 = k <;> simp [List.countP_cons, h]

/-- What one iteration of the validation loop does, seen from one id `k`. -/
theorem validateStep_effect (k : String) (s : ValidatorState) (e : String × EntityInfo) :
    (k ∈ (ProcessEntities.validateStep s e).entities.keys ↔
      k ∈ s.entities.keys ∧ ¬ (removesAt s e ∧ k = e.1)) ∧
    (k ∈ (ProcessEntities.validateStep s e).kidsWithBadParents ↔
      k ∈ s.kidsWithBadParents ∨ (removesAt s e ∧ k = e.1)) ∧
    ((removesAt s e ∧ k = e.1) ∧ k ∉ s.kidsWithBadParents →
      logCount k (ProcessEntities.validateStep s e).log = logCount k s.log + 1) ∧
    (¬ ((removesAt s e ∧ k = e.1) ∧ k ∉ s.kidsWithBadParents) →
      logCount k (ProcessEntities.validateStep s e).log = logCount k s.log) := by
  rw [validateStep_entities, validateStep_kids, validateStep_log]
  by_cases hrem : removesAt s e
  · by_cases hke : k = e.1
    · subst hke
      by_cases hseen : e.1 ∈ s.kidsWithBadParents
      · simp [hrem, hseen, mem_keys_delete]
      · simp [hrem, hseen, mem_keys_delete, logCount_append_singleton]
    · by_cases hseen : e.1 ∈ s.kidsWithBadParents
      · simp [hrem, hke, hseen, mem_keys_delete]
      · simp [hrem, hke, hseen, mem_keys_delete, logCount_append_singleton, Ne.symm hke]
  · simp [hrem]

/-- What the rest of a pass does to the seen-set and to the log, for one id. -/
theorem foldl_validateStep_log (k : String) : ∀ (order : List (String × EntityInfo))
    (s : ValidatorState), (order.map Prod.fst).Nodup → (∀ e ∈ order, e.1 ∈ s.entities.keys) →
    (k ∈ (order.foldl ProcessEntities.validateStep s).kidsWithBadParents ↔
      k ∈ s.kidsWithBadParents ∨
      (k ∈ s.entities.keys ∧ k ∉ (order.foldl ProcessEntities.validateStep s).entities.keys)) ∧
    ((k ∈ s.entities.keys ∧ k ∉ (order.foldl ProcessEntities.validateStep s).entities.keys)
        ∧ k ∉ s.kidsWithBadParents →
      logCount k (order.foldl ProcessEntities.validateStep s).log = logCount k s.log + 1) ∧
    (¬ ((k ∈ s.entities.keys ∧ k ∉ (order.foldl ProcessEntities.validateStep s).entities.keys)
        ∧ k ∉ s.kidsWithBadParents) →
      logCount k (order.foldl ProcessEntities.validateStep s).log = logCount k s.log) := by
  intro order
  induction order with
  | nil =>
    intro s _ _
    simp
  | cons e rest ih =>
    intro s hnd hin
    simp only [List.map_cons, List.nodup_cons] at hnd
    simp only [List.foldl_cons]
    have hek : e.1 ∈ s.entities.keys := hin e (List.mem_cons_self _ _)
    have hrest : ∀ e' ∈ rest, e'.1 ≠ e.1 := by
      intro e' he' heq
      have := List.mem_map_of_mem Prod.fst he'
      rw [heq] at this
      exact hnd.1 this
    obtain ⟨hE, hK, hLa, hLb⟩ := validateStep_effect k s e
    have hin1 : ∀ e' ∈ rest, e'.1 ∈ (ProcessEntities.validateStep s e).entities.keys := by
      intro e' he'
      rw [(validateStep_effect e'.1 s e).1]
      exact ⟨hin e' (List.mem_cons_of_mem _ he'), fun h => hrest e' he' h.2⟩
    obtain ⟨ih1, ih2a, ih2b⟩ := ih (ProcessEntities.validateStep s e) hnd.2 hin1
    have hsub : k ∈ (rest.foldl ProcessEntities.validateStep
        (ProcessEntities.validateStep s e)).entities.keys →
        k ∈ (ProcessEntities.validateStep s e).entities.keys :=
      fun h => (keys_sublist (foldl_validateStep_sublist rest _)).subset h
    by_cases hP : removesAt s e ∧ k = e.1
    · have hks : k ∈ s.entities.keys := hP.2 ▸ hek
      have hk1 : k ∉ (ProcessEntities.validateStep s e).entities.keys := by
        rw [hE]
        exact fun h => h.2 hP
      have hF : k ∉ (rest.foldl ProcessEntities.validateStep
          (ProcessEntities.validateStep s e)).entities.keys := fun h => hk1 (hsub h)
      have hcnt := ih2b (fun h => hk1 h.1.1)
      refine ⟨?_, ?_, ?_⟩
      · rw [ih1]
        exact ⟨fun _ => Or.inr ⟨hks, hF⟩, fun _ => Or.inl (hK.mpr (Or.inr hP))⟩
      · intro h
        rw [hcnt]
        exact hLa ⟨hP, h.2⟩
      · intro h
        rw [hcnt]
        exact hLb (fun h' => h ⟨⟨hks, hF⟩, h'.2⟩)
    · have hE' : k ∈ (ProcessEntities.validateStep s e).entities.keys ↔ k ∈ s.entities.keys := by
        rw [hE]
        exact ⟨fun h => h.1, fun h => ⟨h, hP⟩⟩
      have hK' : k ∈ (ProcessEntities.validateStep s e).kidsWithBadParents ↔
          k ∈ s.kidsWithBadParents := by
        rw [hK]
        exact ⟨fun h => h.elim id (fun h' => absurd h' hP), Or.inl⟩
      have hL' := hLb (fun h => hP h.1)
      rw [hE', hK', hL'] at ih2a ih2b
      rw [hE', hK'] at ih1
      exact ⟨ih1, ih2a, ih2b⟩

/-- What one cycle does to the seen-set and to the log, for one id. -/
theorem validate_log (k : String) (kids : List String) (entities : EntityMap)
    (order : List (String × EntityInfo)) (hperm : order.Perm entities)
    (hnd : entities.keys.Nodup) :
    (k ∈ (ProcessEntities.validate kids entities order).kidsWithBadParents ↔
      k ∈ kids ∨ CycleResult.removed
        { fetched := entities, final := ProcessEntities.validate kids entities order } k) ∧
    logCount k (ProcessEntities.validate kids entities order).log =
      if CycleResult.removed
          { fetched := entities, final := ProcessEntities.validate kids entities order } k
        ∧ k ∉ kids then 1 else 0 := by
  have hndo : (order.map Prod.fst).Nodup := ((hperm.map Prod.fst).nodup_iff).mpr hnd
  have hin : ∀ e ∈ order, e.1 ∈ entities.keys := by
    intro e he
    exact List.mem_map_of_mem Prod.fst (hperm.subset he)
  obtain ⟨h1, h2a, h2b⟩ := foldl_validateStep_log k order
    { entities := entities, kidsWithBadParents := kids, log := [] } hndo hin
  refine ⟨h1, ?_⟩
  by_cases hc : CycleResult.removed
      { fetched := entities, final := ProcessEntities.validate kids entities order } k ∧ k ∉ kids
  · rw [if_pos hc]
    have := h2a hc
    simpa [logCount] using this
  · rw [if_neg hc]
    have := h2b hc
    simpa [logCount] using this

theorem cycles_cons (kids : List String) (c : EntityMap × List (String × EntityInfo))
    (rest : List (EntityMap × List (String × EntityInfo))) :
    ProcessEntities.cycles kids (c :: rest) =
      { fetched := c.1, final := ProcessEntities.validate kids c.1 c.2 } ::
        ProcessEntities.cycles (ProcessEntities.validate kids c.1 c.2).kidsWithBadParents rest :=
  rfl

/-- The log of each cycle, for one id `k` and any seen-set at the start. -/
theorem cycles_log_at (k : String) : ∀ (cs : List (EntityMap × List (String × EntityInfo)))
    (kids : List String), (∀ c ∈ cs, c.2.Perm c.1 ∧ c.1.keys.Nodup) →
    ∀ (i : Nat) (r : CycleResult), (ProcessEntities.cycles kids cs)[i]? = some r →
      logCount k r.final.log ≤ 1 ∧
      (logCount k r.final.log = 1 ↔
        k ∉ kids ∧ r.removed k ∧
          ∀ (j : Nat) (rj : CycleResult), j < i →
            (ProcessEntities.cycles kids cs)[j]? = some rj → ¬ rj.removed k) := by
  intro cs
  induction cs with
  | nil =>
    intro kids _ i r hr
    simp [ProcessEntities.cycles] at hr
  | cons c rest ih =>
    intro kids hwf i r hr
    obtain ⟨hkids, hcount⟩ := validate_log k kids c.1 c.2 (hwf c (List.mem_cons_self _ _)).1
      (hwf c (List.mem_cons_self _ _)).2
    rw [cycles_cons] at hr ⊢
    cases i with
    | zero =>
      simp only [List.getElem?_cons_zero, Option.some.injEq] at hr
      subst hr
      simp only at hcount ⊢
      rw [hcount]
      constructor
      · split <;> omega
      · constructor
        · intro h
          split at h
          · next hc => exact ⟨hc.2, hc.1, fun j rj hj => by omega⟩
          · omega
        · intro h
          rw [if_pos ⟨h.2.1, h.1⟩]
    | succ i =>
      simp only [List.getElem?_cons_succ] at hr
      obtain ⟨hle, hiff⟩ := ih _ (fun c' hc' => hwf c' (List.mem_cons_of_mem _ hc')) i r hr
      refine ⟨hle, ?_⟩
      rw [hiff, hkids]
      constructor
      · rintro ⟨hk, hrem, hprev⟩
        refine ⟨fun h => hk (Or.inl h), hrem, ?_⟩
        intro j rj hj hrj
        cases j with
        | zero =>
          simp only [List.getElem?_cons_zero, Option.some.injEq] at hrj
          subst hrj
          exact fun h => hk (Or.inr h)
        | succ j =>
          simp only [List.getElem?_cons_succ] at hrj
          exact hprev j rj (by omega) hrj
      · rintro ⟨hk, hrem, hprev⟩
        refine ⟨?_, hrem, ?_⟩
        · rintro (h | h)
          · exact hk h
          · exact hprev 0 _ (by omega) (by simp) h
        · intro j rj hj hrj
          exact hprev (j + 1) rj (by omega) (by simpa using hrj)

/-- The log of all the cycles together, for one id `k` and any seen-set at the
start. -/
theorem cycles_log_total (k : String) : ∀ (cs : List (EntityMap × List (String × EntityInfo)))
    (kids : List String), (∀ c ∈ cs, c.2.Perm c.1 ∧ c.1.keys.Nodup) →
    ((k ∉ kids ∧ ∃ r ∈ ProcessEntities.cycles kids cs, r.removed k) →
      totalLogCount k (ProcessEntities.cycles kids cs) = 1) ∧
    (¬ (k ∉ kids ∧ ∃ r ∈ ProcessEntities.cycles kids cs, r.removed k) →
      totalLogCount k (ProcessEntities.cycles kids cs) = 0) := by
  intro cs
  induction cs with
  | nil =>
    intro kids _
    simp [ProcessEntities.cycles, totalLogCount]
  | cons c rest ih =>
    intro kids hwf
    obtain ⟨hkids, hcount⟩ := validate_log k kids c.1 c.2 (hwf c (List.mem_cons_self _ _)).1
      (hwf c (List.mem_cons_self _ _)).2
    obtain ⟨ih1, ih0⟩ := ih (ProcessEntities.validate kids c.1 c.2).kidsWithBadParents
      (fun c' hc' => hwf c' (List.mem_cons_of_mem _ hc'))
    rw [cycles_cons]
    simp only [totalLogCount, List.map_cons, List.sum_cons, List.mem_cons, exists_eq_or_imp]
      at ih1 ih0 ⊢
    rw [hcount]
    by_cases hfirst : CycleResult.removed
        { fetched := c.1, final := ProcessEntities.validate kids c.1 c.2 } k ∧ k ∉ kids
    · rw [if_pos hfirst]
      have h0 := ih0 (fun h => h.1 (hkids.mpr (Or.inr hfirst.1)))
      constructor
      · intro _
        omega
      · intro h
        exact absurd ⟨hfirst.2, Or.inl hfirst.1⟩ h
    · rw [if_neg hfirst]
      constructor
      · rintro ⟨hk, hex⟩
        rcases hex with h | h
        · exact absurd ⟨h, hk⟩ hfirst
        · have hnr : ¬ CycleResult.removed
              { fetched := c.1, final := ProcessEntities.validate kids c.1 c.2 } k :=
            fun h' => hfirst ⟨h', hk⟩
          have := ih1 ⟨fun h' => (hkids.mp h').elim hk hnr, h⟩
          omega
      · intro h
        have := ih0 (fun h' => h ⟨fun hk => h'.1 (hkids.mpr (Or.inl hk)), Or.inr h'.2⟩)
        omega

theorem validateStep_entities_congr (s s1 : ValidatorState) (kv : String × EntityInfo)
    (h : s.entities = s1.entities) :
    (ProcessEntities.validateStep s kv).entities =
      (ProcessEntities.validateStep s1 kv).entities := by
  simp only [validateStep_entities, removesAt, h]

theorem foldl_validateStep_entities_congr : ∀ (order : List (String × EntityInfo))
    (s s1 : ValidatorState), s.entities = s1.entities →
    (order.foldl ProcessEntities.validateStep s).entities =
      (order.foldl ProcessEntities.validateStep s1).entities := by
  intro order
  induction order with
  | nil => intro s s1 h; exact h
  | cons kv rest ih =>
    intro s s1 h
    exact ih _ _ (validateStep_entities_congr s s1 kv h)

theorem validate_entities_seen (kids : List String) (entities : EntityMap)
    (order : List (String × EntityInfo)) :
    (ProcessEntities.validate kids entities order).entities =
      (ProcessEntities.validate [] entities order).entities :=
  foldl_validateStep_entities_congr order _ _ rfl

theorem cycles_length : ∀ (cs : List (EntityMap × List (String × EntityInfo)))
    (kids : List String), (ProcessEntities.cycles kids cs).length = cs.length := by
  intro cs
  induction cs with
  | nil => intro kids; rfl
  | cons c rest ih => intro kids; simp [ProcessEntities.cycles, ih]

theorem cycles_head (kids : List String) (cs : List (EntityMap × List (String × EntityInfo)))
    (c : EntityMap × List (String × EntityInfo)) (h : cs[0]? = some c) :
    (ProcessEntities.cycles kids cs)[0]? =
      some { fetched := c.1, final := ProcessEntities.validate kids c.1 c.2 } := by
  cases cs with
  | nil => simp at h
  | cons c0 rest =>
    simp only [List.getElem?_cons_zero, Option.some.injEq] at h
    subst h
    rw [cycles_cons]
    exact List.getElem?_cons_zero

theorem cycles_succ : ∀ (cs : List (EntityMap × List (String × EntityInfo)))
    (kids : List String) (i : Nat) (c : EntityMap × List (String × EntityInfo))
    (r : CycleResult), cs[i + 1]? = some c → (ProcessEntities.cycles kids cs)[i]? = some r →
    (ProcessEntities.cycles kids cs)[i + 1]? =
      some { fetched := c.1
             final := ProcessEntities.validate r.final.kidsWithBadParents c.1 c.2 } := by
  intro cs
  induction cs with
  | nil => intro kids i c r h; simp at h
  | cons c0 rest ih =>
    intro kids i c r hc hr
    rw [cycles_cons] at hr ⊢
    rw [List.getElem?_cons_succ] at hc ⊢
    cases i with
    | zero =>
      simp only [List.getElem?_cons_zero, Option.some.injEq] at hr
      subst hr
      exact cycles_head _ rest c hc
    | succ i =>
      rw [List.getElem?_cons_succ] at hr
      exact ih _ i c r hc hr

theorem cycles_at : ∀ (cs : List (EntityMap × List (String × EntityInfo)))
    (kids : List String) (i : Nat),
    (∀ c, cs[i]? = some c → ∃ r, (ProcessEntities.cycles kids cs)[i]? = some r ∧
      r.fetched = c.1 ∧
      r.final.entities = (ProcessEntities.validate [] c.1 c.2).entities) ∧
    (∀ r, (ProcessEntities.cycles kids cs)[i]? = some r → ∃ c, cs[i]? = some c ∧
      r.fetched = c.1 ∧
      r.final.entities = (ProcessEntities.validate [] c.1 c.2).entities) := by
  intro cs
  induction cs with
  | nil =>
    intro kids i
    constructor
    · intro c h; simp at h
    · intro r h; simp [ProcessEntities.cycles] at h
  | cons c0 rest ih =>
    intro kids i
    rw [cycles_cons]
    cases i with
    | zero =>
      constructor
      · intro c h
        simp only [List.getElem?_cons_zero, Option.some.injEq] at h
        subst h
        exact ⟨_, List.getElem?_cons_zero, rfl, validate_entities_seen _ _ _⟩
      · intro r h
        simp only [List.getElem?_cons_zero, Option.some.injEq] at h
        subst h
        exact ⟨c0, List.getElem?_cons_zero, rfl, validate_entities_seen _ _ _⟩
    | succ i =>
      simp only [List.getElem?_cons_succ]
      exact ih _ i

theorem removed_iff_cycleRemoves (r : CycleResult) (c : EntityMap × List (String × EntityInfo))
    (k : String) (h1 : r.fetched = c.1)
    (h2 : r.final.entities = (ProcessEntities.validate [] c.1 c.2).entities) :
    r.removed k ↔ cycleRemoves c k := by
  unfold CycleResult.removed cycleRemoves
  rw [h1, h2]

/-- C6. Over any sequence of cycles of `ProcessEntities`, which share the set
`kidsWithBadParents` created empty before the first one, every cycle runs, the
first with the empty set and each later one with the set that the cycle before
it leaves; the log line for an entity id `k` is written in a cycle exactly when
`k` is removed as an orphan in that cycle and was removed in no earlier cycle,
and then it is written once, and it is not written in a later cycle although
`k` is removed again there; so over all the cycles together the line is
written once if `k` is ever removed, and never otherwise. -/
theorem orphan_logged_once (cs : List (EntityMap × List (String × EntityInfo)))
    (hwf : ∀ c ∈ cs, c.2.Perm c.1 ∧ c.1.keys.Nodup) (k : String) :
    (∀ (i : Nat) (r : CycleResult), (ProcessEntities.cycles [] cs)[i]? = some r →
      logCount k r.final.log ≤ 1 ∧
      (logCount k r.final.log = 1 ↔
        r.removed k ∧ ∀ (j : Nat) (rj : CycleResult), j < i →
          (ProcessEntities.cycles [] cs)[j]? = some rj → ¬ rj.removed k)) ∧
    ((∃ r ∈ ProcessEntities.cycles [] cs, r.removed k) →
      totalLogCount k (ProcessEntities.cycles [] cs) = 1) ∧
    (¬ (∃ r ∈ ProcessEntities.cycles [] cs, r.removed k) →
      totalLogCount k (ProcessEntities.cycles [] cs) = 0) ∧
    (ProcessEntities.cycles [] cs).length = cs.length ∧
    (∀ c, cs[0]? = some c → (ProcessEntities.cycles [] cs)[0]? =
      some { fetched := c.1, final := ProcessEntities.validate [] c.1 c.2 }) ∧
    (∀ (i : Nat) (c : EntityMap × List (String × EntityInfo)) (r : CycleResult),
      cs[i + 1]? = some c → (ProcessEntities.cycles [] cs)[i]? = some r →
      (ProcessEntities.cycles [] cs)[i + 1]? =
        some { fetched := c.1
               final := ProcessEntities.validate r.final.kidsWithBadParents c.1 c.2 }) ∧
    (∀ (i : Nat) (c : EntityMap × List (String × EntityInfo)), cs[i]? = some c →
      ∃ r, (ProcessEntities.cycles [] cs)[i]? = some r ∧ r.fetched = c.1 ∧
        r.final.entities = (ProcessEntities.validate [] c.1 c.2).entities ∧
        ((cycleRemoves c k ∧ ∀ (j : Nat) (cj : EntityMap × List (String × EntityInfo)),
            j < i → cs[j]? = some cj → ¬ cycleRemoves cj k) →
          logCount k r.final.log = 1) ∧
        (¬ (cycleRemoves c k ∧ ∀ (j : Nat) (cj : EntityMap × List (String × EntityInfo)),
            j < i → cs[j]? = some cj → ¬ cycleRemoves cj k) →
          logCount k r.final.log = 0)) ∧
    ((∃ c ∈ cs, cycleRemoves c k) → totalLogCount k (ProcessEntities.cycles [] cs) = 1) ∧
    (¬ (∃ c ∈ cs, cycleRemoves c k) → totalLogCount k (ProcessEntities.cycles [] cs) = 0) := by
  have hex : (∃ r ∈ ProcessEntities.cycles [] cs, r.removed k) ↔ ∃ c ∈ cs, cycleRemoves c k := by
    constructor
    · rintro ⟨r, hr, hrem⟩
      obtain ⟨i, hi⟩ := List.getElem?_of_mem hr
      obtain ⟨c, hc, h1, h2⟩ := (cycles_at cs [] i).2 r hi
      exact ⟨c, List.getElem?_mem hc, (removed_iff_cycleRemoves r c k h1 h2).mp hrem⟩
    · rintro ⟨c, hc, hrem⟩
      obtain ⟨i, hi⟩ := List.getElem?_of_mem hc
      obtain ⟨r, hr, h1, h2⟩ := (cycles_at cs [] i).1 c hi
      exact ⟨r, List.getElem?_mem hr, (removed_iff_cycleRemoves r c k h1 h2).mpr hrem⟩
  refine ⟨?_, ?_, ?_, cycles_length cs [], cycles_head [] cs, cycles_succ cs [], ?_, ?_, ?_⟩
  · intro i r hr
    obtain ⟨h1, h2⟩ := cycles_log_at k cs [] hwf i r hr
    refine ⟨h1, ?_⟩
    rw [h2]
    simp
  · intro h
    exact (cycles_log_total k cs [] hwf).1 ⟨by simp, h⟩
  · intro h
    exact (cycles_log_total k cs [] hwf).2 (fun h' => h h'.2)
  · intro i c hc
    obtain ⟨r, hr, h1, h2⟩ := (cycles_at cs [] i).1 c hc
    obtain ⟨hle, hiff⟩ := cycles_log_at k cs [] hwf i r hr
    have hcond : (k ∉ ([] : List String) ∧ r.removed k ∧
        ∀ (j : Nat) (rj : CycleResult), j < i →
          (ProcessEntities.cycles [] cs)[j]? = some rj → ¬ rj.removed k) ↔
        (cycleRemoves c k ∧ ∀ (j : Nat) (cj : EntityMap × List (String × EntityInfo)),
          j < i → cs[j]? = some cj → ¬ cycleRemoves cj k) := by
      constructor
      · rintro ⟨_, hrem, hearlier⟩
        refine ⟨(removed_iff_cycleRemoves r c k h1 h2).mp hrem, ?_⟩
        intro j cj hj hcj hremj
        obtain ⟨rj, hrj, g1, g2⟩ := (cycles_at cs [] j).1 cj hcj
        exact hearlier j rj hj hrj ((removed_iff_cycleRemoves rj cj k g1 g2).mpr hremj)
      · rintro ⟨hrem, hearlier⟩
        refine ⟨by simp, (removed_iff_cycleRemoves r c k h1 h2).mpr hrem, ?_⟩
        intro j rj hj hrj hremj
        obtain ⟨cj, hcj, g1, g2⟩ := (cycles_at cs [] j).2 rj hrj
        exact hearlier j cj hj hcj ((removed_iff_cycleRemoves rj cj k g1 g2).mp hremj)
    refine ⟨r, hr, h1, h2, ?_, ?_⟩
    · intro h
      exact hiff.mpr (hcond.mpr h)
    · intro h
      have hne : logCount k r.final.log ≠ 1 := fun h1 => h (hcond.mp (hiff.mp h1))
      omega
  · intro h
    exact (cycles_log_total k cs [] hwf).1 ⟨by simp, hex.mpr h⟩
  · intro h
    exact (cycles_log_total k cs [] hwf).2 (fun h' => h (hex.mp h'.2))

set_option maxRecDepth 100000 in
/-- An instance of C6, the example of the specification: three cycles that each
fetch the entity `2` with the missing parent `999`. All three cycles run and
remove the entity; the line for `2` is written in the first cycle, not in the
second and the third, and once in all. -/
theorem orphan_logged_once_witness :
    totalLogCount "2" (ProcessEntities.cycles [] orphanCycles) = 1 ∧
    (ProcessEntities.cycles [] orphanCycles).map (fun r => logCount "2" r.final.log) =
      [1, 0, 0] ∧
    (ProcessEntities.cycles [] orphanCycles).map (fun r => r.final.entities.keys) =
      [["1"], ["1"], ["1"]] ∧
    (ProcessEntities.cycles [] orphanCycles).map (fun r => r.final.kidsWithBadParents) =
      [["2"], ["2"], ["2"]] :=
  ⟨(orphan_logged_once orphanCycles
    (by
      intro c hc
      simp only [orphanCycles, List.mem_cons, List.mem_singleton, List.not_mem_nil,
        or_false] at hc
      rcases hc with rfl | rfl | rfl
      · exact ⟨List.Perm.refl _, by decide⟩
      · exact ⟨List.reverse_perm _, by decide⟩
      · exact ⟨List.Perm.refl _, by decide⟩)
    "2").2.1 (by decide), by decide, by decide, by decide⟩

/-! ### `strconv.ParseUint`, `serverID` and `newEntityInfo` -/

theorem digit_bounds (c : Char) (h : isDecimalDigit c = true) :
    ('0' ≤ c ∧ c ≤ '9') ∧ c.toNat - '0'.toNat < 10 := by
  unfold isDecimalDigit at h
  have h' := of_decide_eq_true h
  refine ⟨h', ?_⟩
  obtain ⟨h1, h2⟩ := h'
  rw [Char.le_def] at h1 h2
  have h3 : 48 ≤ c.toNat := h1
  have h4 : c.toNat ≤ 57 := h2
  have h5 : '0'.toNat = 48 := rfl
  omega

theorem digitsValue_ge (cs : List Char) : ∀ n, n ≤ digitsValue n cs := by
  induction cs with
  | nil => intro n; exact Nat.le_refl _
  | cons c cs ih =>
    intro n
    have := ih (n * 10 + (c.toNat - '0'.toNat))
    simp only [digitsValue, List.foldl_cons] at this ⊢
    omega

theorem digitsValue_append (n : Nat) (xs ys : List Char) :
    digitsValue n (xs ++ ys) = digitsValue (digitsValue n xs) ys := by
  simp [digitsValue, List.foldl_append]

/-- One iteration of the loop of `ParseUint` on a digit, without the detour
through 64-bit wrap-around. -/
theorem ParseUint_loop_digit (maxVal : Nat) (hmax : maxVal < 2 ^ 64) (c : Char)
    (cs : List Char) (n : Nat) (hc : isDecimalDigit c = true) :
    ParseUint.loop maxVal (c :: cs) n =
      if maxVal < n * 10 + (c.toNat - '0'.toNat) then (maxVal, some NumError.ErrRange)
      else ParseUint.loop maxVal cs (n * 10 + (c.toNat - '0'.toNat)) := by
  obtain ⟨hd, hlt⟩ := digit_bounds c hc
  generalize hdv : c.toNat - '0'.toNat = d at hlt ⊢
  simp only [ParseUint.loop, hd, and_self, if_true, hdv, ParseUint.cutoff]
  have h64 : (2 : Nat) ^ 64 = 18446744073709551616 := by norm_num
  rw [h64] at hmax ⊢
  by_cases h1 : n ≥ (18446744073709551616 - 1) / 10 + 1
  · rw [if_pos h1, if_pos (by omega)]
  · rw [if_neg h1]
    by_cases h2 : maxVal < n * 10 + d
    · rw [if_pos h2, if_pos (by omega)]
    · rw [if_neg h2, if_neg (by omega)]
      congr 1
      omega

/-- What the loop of `ParseUint` returns, in terms of the digits the text starts
with. -/
theorem ParseUint_loop_spec (maxVal : Nat) (hmax : maxVal < 2 ^ 64) :
    ∀ (cs : List Char) (n : Nat), n ≤ maxVal →
    ParseUint.loop maxVal cs n =
      if maxVal < digitsValue n (cs.takeWhile isDecimalDigit) then
        (maxVal, some NumError.ErrRange)
      else if cs.takeWhile isDecimalDigit = cs then
        (digitsValue n (cs.takeWhile isDecimalDigit), none)
      else (0, some NumError.ErrSyntax) := by
  intro cs
  induction cs with
  | nil =>
    intro n hn
    simp [ParseUint.loop, digitsValue, Nat.not_lt.mpr hn]
  | cons c cs ih =>
    intro n hn
    by_cases hc : isDecimalDigit c = true
    · rw [ParseUint_loop_digit maxVal hmax c cs n hc]
      simp only [List.takeWhile_cons, hc, if_true, List.cons.injEq, true_and]
      have hval : digitsValue n (c :: cs.takeWhile isDecimalDigit) =
          digitsValue (n * 10 + (c.toNat - '0'.toNat)) (cs.takeWhile isDecimalDigit) := rfl
      rw [hval]
      by_cases h2 : maxVal < n * 10 + (c.toNat - '0'.toNat)
      · rw [if_pos h2, if_pos]
        exact Nat.lt_of_lt_of_le h2 (digitsValue_ge _ _)
      · rw [if_neg h2]
        exact ih _ (by omega)
    · have hc' : ¬ ('0' ≤ c ∧ c ≤ '9') := by
        intro h
        exact hc (by simp [isDecimalDigit, h])
      simp only [ParseUint.loop, hc', if_false, List.takeWhile_cons, hc]
      rw [if_neg (by simp [digitsValue]; omega), if_neg (by simp)]

/-- What `ParseUint` returns, in terms of the digits the text starts with. -/
theorem ParseUint_spec (s : String) (bitSize : Nat) (hb : bitSize ≤ 64) :
    ParseUint s bitSize =
      if s = "" then (0, some NumError.ErrSyntax)
      else if 2 ^ bitSize - 1 < digitsValue 0 (leadingDigits s) then
        (2 ^ bitSize - 1, some NumError.ErrRange)
      else if leadingDigits s = s.toList then (digitsValue 0 (leadingDigits s), none)
      else (0, some NumError.ErrSyntax) := by
  unfold ParseUint leadingDigits
  by_cases hs : s = ""
  · rw [if_pos hs, if_pos hs]
  · rw [if_neg hs, if_neg hs]
    have hpow : 2 ^ bitSize ≤ 2 ^ 64 := Nat.pow_le_pow_right (by omega) hb
    have hpos : 0 < 2 ^ bitSize := Nat.two_pow_pos bitSize
    exact ParseUint_loop_spec _ (by omega) _ 0 (Nat.zero_le _)

theorem ParseUint_ok_iff (s : String) (bitSize : Nat) (hb : bitSize ≤ 64) :
    (ParseUint s bitSize).2 = none ↔ parsesAsUint s bitSize := by
  rw [ParseUint_spec s bitSize hb]
  unfold parsesAsUint leadingDigits
  by_cases hs : s = ""
  · simp [hs]
  · rw [if_neg hs]
    by_cases hall : s.toList.takeWhile isDecimalDigit = s.toList
    · have hall' := List.takeWhile_eq_self_iff.mp hall
      rw [hall]
      by_cases hv : 2 ^ bitSize - 1 < digitsValue 0 s.toList
      · rw [if_pos hv]
        simp only [reduceCtorEq, false_iff, not_and, not_le]
        intro _ _
        exact hv
      · rw [if_neg hv]
        simp only [if_true, true_iff]
        exact ⟨hs, hall', by omega⟩
    · have hnall : ¬ ∀ c ∈ s.toList, isDecimalDigit c = true :=
        fun h => hall (List.takeWhile_eq_self_iff.mpr h)
      rw [if_neg hall]
      by_cases hv : 2 ^ bitSize - 1 < digitsValue 0 (s.toList.takeWhile isDecimalDigit)
      · rw [if_pos hv]
        simp only [reduceCtorEq, false_iff, not_and]
        intro _ h
        exact absurd h hnall
      · rw [if_neg hv]
        simp only [reduceCtorEq, false_iff, not_and]
        intro _ h
        exact absurd h hnall

theorem digitChar_spec (d : Nat) (hd : d < 10) :
    isDecimalDigit (Nat.digitChar d) = true ∧ (Nat.digitChar d).toNat - '0'.toNat = d := by
  have h : ∀ i : Fin 10, isDecimalDigit (Nat.digitChar i) = true ∧
      (Nat.digitChar i).toNat - '0'.toNat = i := by decide
  exact h ⟨d, hd⟩

theorem decimalDigits_spec : ∀ (fuel v : Nat), v < fuel →
    (∀ c ∈ decimalDigits fuel v, isDecimalDigit c = true) ∧
    digitsValue 0 (decimalDigits fuel v) = v ∧ decimalDigits fuel v ≠ [] := by
  intro fuel
  induction fuel with
  | zero => intro v hv; omega
  | succ fuel ih =>
    intro v hv
    simp only [decimalDigits]
    by_cases h10 : v < 10
    · rw [if_pos h10]
      obtain ⟨h1, h2⟩ := digitChar_spec v h10
      refine ⟨?_, ?_, by simp⟩
      · intro c hc
        rw [List.mem_singleton] at hc
        rw [hc]
        exact h1
      · simp only [digitsValue, List.foldl_cons, List.foldl_nil, Nat.zero_mul, Nat.zero_add]
        exact h2
    · rw [if_neg h10]
      obtain ⟨ih1, ih2, _⟩ := ih (v / 10) (by omega)
      obtain ⟨h1, h2⟩ := digitChar_spec (v % 10) (by omega)
      refine ⟨?_, ?_, by simp⟩
      · intro c hc
        rcases List.mem_append.mp hc with h | h
        · exact ih1 c h
        · rw [List.mem_singleton] at h
          rw [h]
          exact h1
      · rw [digitsValue_append, ih2]
        simp only [digitsValue, List.foldl_cons, List.foldl_nil]
        rw [h2]
        omega

theorem toList_decimalString (v : Nat) : (decimalString v).toList = decimalDigits (v + 1) v :=
  rfl

theorem decimalString_parses (v bitSize : Nat) (hv : v ≤ 2 ^ bitSize - 1) :
    parsesAsUint (decimalString v) bitSize := by
  obtain ⟨h1, h2, h3⟩ := decimalDigits_spec (v + 1) v (by omega)
  refine ⟨?_, ?_, ?_⟩
  · intro h
    have := congrArg String.toList h
    rw [toList_decimalString] at this
    exact h3 this
  · rw [toList_decimalString]
    exact h1
  · rw [toList_decimalString, h2]
    exact hv

/-- The function `ParseUint` reads back the decimal string of a number in range. -/
theorem ParseUint_decimalString (v bitSize : Nat) (hb : bitSize ≤ 64)
    (hv : v ≤ 2 ^ bitSize - 1) : ParseUint (decimalString v) bitSize = (v, none) := by
  obtain ⟨hne, hall, hval⟩ := decimalString_parses v bitSize hv
  obtain ⟨_, h2, _⟩ := decimalDigits_spec (v + 1) v (by omega)
  have hpre : leadingDigits (decimalString v) = (decimalString v).toList :=
    List.takeWhile_eq_self_iff.mpr hall
  rw [ParseUint_spec _ _ hb, if_neg hne, hpre, if_neg (by omega), if_pos rfl,
    toList_decimalString, h2]

theorem or_shiftLeft_eight (a b : Nat) (ha : a < 256) : a ||| (b <<< 8) = 256 * b + a := by
  have h := Nat.mul_add_lt_is_or (i := 8) (b := a) (by omega) b
  rw [Nat.shiftLeft_eq, Nat.or_comm, Nat.mul_comm b]
  norm_num at h ⊢
  exact h.symm

/-- The two halves that `serverID` reads from the four bytes of a 32-bit value. -/
theorem Uint16_PutUint32 (w : Nat) (hw : w < 2 ^ 32) :
    LittleEndian.Uint16 ((LittleEndian.PutUint32 w).take 2) = w % 2 ^ 16 ∧
    LittleEndian.Uint16 ((LittleEndian.PutUint32 w).drop 2) = w / 2 ^ 16 := by
  simp only [LittleEndian.PutUint32, LittleEndian.Uint16, List.take, List.drop, List.getD_cons_zero,
    List.getD_cons_succ, Nat.shiftRight_eq_div_pow]
  rw [or_shiftLeft_eight _ _ (Nat.mod_lt _ (by omega)),
    or_shiftLeft_eight _ _ (Nat.mod_lt _ (by omega))]
  norm_num at hw ⊢
  omega

theorem serverID_of_parse (packed : String) (v : Nat) (hv : v < 2 ^ 32)
    (h : ParseUint packed 32 = (v, none)) :
    serverID packed = ((v % 2 ^ 16, v / 2 ^ 16), none) := by
  unfold serverID
  rw [h]
  simp only
  rw [Nat.mod_eq_of_lt hv, (Uint16_PutUint32 v hv).1, (Uint16_PutUint32 v hv).2]

/-- C7. For every `v` with `0 ≤ v < 2^32`, `serverID` applied to the decimal
string of `v` returns no error, and a pair that loses no bit of `v`: `split[0]`
is the low 16 bits of `v`, `split[1]` the high 16 bits, and
`split[1] * 65536 + split[0] = v`. -/
theorem serverID_decimalString (v : Nat) (hv : v < 2 ^ 32) :
    (serverID (decimalString v)).2 = none ∧
    (serverID (decimalString v)).1 = (v % 2 ^ 16, v / 2 ^ 16) ∧
    (serverID (decimalString v)).1.2 * 65536 + (serverID (decimalString v)).1.1 = v := by
  rw [serverID_of_parse _ v hv (ParseUint_decimalString v 32 (by omega) (by omega))]
  refine ⟨rfl, rfl, ?_⟩
  simp only
  omega

/-- An instance of C7: `v = 65538`, that is `0x00010002`. -/
theorem serverID_decimalString_witness :
    serverID (decimalString 65538) = ((2, 1), none) ∧ 1 * 65536 + 2 = 65538 :=
  ⟨Prod.ext (serverID_decimalString 65538 (by norm_num)).2.1
      (serverID_decimalString 65538 (by norm_num)).1, by decide⟩

theorem serverIDfromXY_eq (x y : Nat) (hy : y < 2 ^ 16) : serverIDfromXY x y = x * 65536 + y := by
  unfold serverIDfromXY
  rw [Nat.shiftLeft_eq, Nat.mul_comm x, ← Nat.mul_add_lt_is_or hy x]

/-- What `serverID` reads back from the decimal string of `serverIDfromXY(x, y)`:
the pair `[y, x]`. -/
theorem serverID_serverIDfromXY (x y : Nat) (hx : x < 2 ^ 16) (hy : y < 2 ^ 16) :
    serverID (decimalString (serverIDfromXY x y)) = ((y, x), none) := by
  have hv : serverIDfromXY x y < 2 ^ 32 := by
    rw [serverIDfromXY_eq x y hy]
    norm_num at hx hy ⊢
    omega
  rw [serverID_of_parse _ _ hv (ParseUint_decimalString _ 32 (by omega) (by omega)),
    serverIDfromXY_eq x y hy]
  have h1 : (x * 65536 + y) % 2 ^ 16 = y := by
    norm_num at hy ⊢
    omega
  have h2 : (x * 65536 + y) / 2 ^ 16 = x := by
    norm_num at hy ⊢
    omega
  rw [h1, h2]

/-- C8, at an input where the code does not do what the claim says: for `x = 1`,
`y = 2` the packed id is `65538`, and `serverID` applied to its decimal string
returns the pair `[2, 1]`, not `[1, 2]`. -/
theorem serverID_serverIDfromXY_one_two :
    serverIDfromXY 1 2 = 65538 ∧
    serverID (decimalString (serverIDfromXY 1 2)) = ((2, 1), none) ∧
    serverID (decimalString (serverIDfromXY 1 2)) ≠ ((1, 2), none) := by
  decide

/-- C9 as stated fails: the text `18446744073709551616`, which is `2^64`, is no
base-10 unsigned 64-bit integer, and `newEntityInfo` sets `LastUpdatedDBAt`
from it to `18446744073709551615`, not to `0`. -/
theorem newEntityInfo_out_of_range :
    ¬ parsesAsUint "18446744073709551616" 64 ∧
    (newEntityInfo (fun _ => 0) id
      [("LastUpdatedDBAt", "18446744073709551616")]).LastUpdatedDBAt
      = 18446744073709551615 := by
  constructor
  · unfold parsesAsUint
    decide
  · decide

theorem ParseUint_value_of_fail (s : String) (bitSize : Nat) (hb : bitSize ≤ 64)
    (h : ¬ parsesAsUint s bitSize) :
    (ParseUint s bitSize).1 =
      if digitsValue 0 (leadingDigits s) ≤ 2 ^ bitSize - 1 then 0 else 2 ^ bitSize - 1 := by
  have hok := (ParseUint_ok_iff s bitSize hb).not.mpr h
  rw [ParseUint_spec s bitSize hb] at hok ⊢
  by_cases hs : s = ""
  · rw [if_pos hs]
    rw [if_pos]
    rw [hs]
    simp [leadingDigits, digitsValue]
  · rw [if_neg hs] at hok ⊢
    by_cases hv : 2 ^ bitSize - 1 < digitsValue 0 (leadingDigits s)
    · rw [if_pos hv, if_neg (Nat.not_le.mpr hv)]
    · rw [if_neg hv] at hok ⊢
      rw [if_pos (Nat.not_lt.mp hv)]
      by_cases hall : leadingDigits s = s.toList
      · rw [if_pos hall] at hok
        exact absurd rfl hok
      · rw [if_neg hall]

theorem serverID_of_fail (s : String) (h : ¬ parsesAsUint s 32) : (serverID s).1 = (0, 0) := by
  have hok := (ParseUint_ok_iff s 32 (by omega)).not.mpr h
  unfold serverID
  cases hp : (ParseUint s 32).2 with
  | none => exact absurd hp hok
  | some err => simp only [hp]

/-- C9, amended. For every record: when the text of `LastUpdatedDBAt`, and
likewise of `NextAllowedUseTime`, is no base-10 unsigned 64-bit integer,
`newEntityInfo` sets the field to `0` if the digits the text starts with stay
within `2^64 - 1` (the text is empty or goes on with a character that is no
digit), and to `2^64 - 1` if they run out of range; and it sets `ServerID` to
`[0, 0]` whenever the server id text is no base-10 unsigned 32-bit integer. -/
theorem newEntityInfo_unparsed_numbers (parseFloat : String → Float)
    (toLower : String → String) (record : Record) :
    (¬ parsesAsUint (record.get "LastUpdatedDBAt") 64 →
      (newEntityInfo parseFloat toLower record).LastUpdatedDBAt =
        if digitsValue 0 (leadingDigits (record.get "LastUpdatedDBAt")) ≤ 2 ^ 64 - 1 then 0
        else 2 ^ 64 - 1) ∧
    (¬ parsesAsUint (record.get "NextAllowedUseTime") 64 →
      (newEntityInfo parseFloat toLower record).NextAllowedUseTime =
        if digitsValue 0 (leadingDigits (record.get "NextAllowedUseTime")) ≤ 2 ^ 64 - 1 then 0
        else 2 ^ 64 - 1) ∧
    (¬ parsesAsUint (serverIDText record) 32 →
      (newEntityInfo parseFloat toLower record).ServerID = (0, 0)) :=
  ⟨fun h => ParseUint_value_of_fail _ 64 (Nat.le_refl _) h,
    fun h => ParseUint_value_of_fail _ 64 (Nat.le_refl _) h,
    fun h => serverID_of_fail _ h⟩

/-- An instance of the amended C9: the text `12x` gives `LastUpdatedDBAt = 0`. -/
theorem newEntityInfo_unparsed_numbers_witness :
    (newEntityInfo (fun _ => 0) id [("LastUpdatedDBAt", "12x")]).LastUpdatedDBAt = 0 :=
  ((newEntityInfo_unparsed_numbers (fun _ => 0) id [("LastUpdatedDBAt", "12x")]).1
    (by unfold parsesAsUint; decide)).trans (by decide)

/-- C10. For every record, `newEntityInfo` takes the tribe id from the key
`TribeID` when that key is present, also when `TribeId` is present too,
otherwise from `TribeId` when present, otherwise it is the empty string; and it
takes the packed server id text from `ServerID` when present, otherwise from
`ServerId`, otherwise the empty string, which gives `ServerID = [0, 0]`. -/
theorem newEntityInfo_key_aliases (parseFloat : String → Float) (toLower : String → String)
    (record : Record) :
    (∀ t, record.lookup "TribeID" = some t →
      (newEntityInfo parseFloat toLower record).TribeID = t) ∧
    (record.lookup "TribeID" = none → ∀ t, record.lookup "TribeId" = some t →
      (newEntityInfo parseFloat toLower record).TribeID = t) ∧
    (record.lookup "TribeID" = none → record.lookup "TribeId" = none →
      (newEntityInfo parseFloat toLower record).TribeID = "") ∧
    (∀ t, record.lookup "ServerID" = some t →
      (newEntityInfo parseFloat toLower record).ServerID = (serverID t).1) ∧
    (record.lookup "ServerID" = none → ∀ t, record.lookup "ServerId" = some t →
      (newEntityInfo parseFloat toLower record).ServerID = (serverID t).1) ∧
    (record.lookup "ServerID" = none → record.lookup "ServerId" = none →
      (newEntityInfo parseFloat toLower record).ServerID = (serverID "").1 ∧
      (newEntityInfo parseFloat toLower record).ServerID = (0, 0)) := by
  refine ⟨?_, ?_, ?_, ?_, ?_, ?_⟩
  · intro t h
    simp only [newEntityInfo, h]
  · intro h1 t h2
    simp only [newEntityInfo, h1, Record.get, h2, Option.getD_some]
  · intro h1 h2
    simp only [newEntityInfo, h1, Record.get, h2, Option.getD_none]
  · intro t h
    simp only [newEntityInfo, h]
  · intro h1 t h2
    simp only [newEntityInfo, h1, Record.get, h2, Option.getD_some]
  · intro h1 h2
    simp only [newEntityInfo, h1, Record.get, h2, Option.getD_none]
    exact ⟨trivial, by decide⟩

/-- An instance of C10: a record with both spellings of the tribe key and the
legacy spelling of the server key. -/
theorem newEntityInfo_key_aliases_witness :
    (newEntityInfo (fun _ => 0) id
      [("TribeId", "7"), ("TribeID", "9"), ("ServerId", "65538")]).TribeID = "9" ∧
    (newEntityInfo (fun _ => 0) id
      [("TribeId", "7"), ("TribeID", "9"), ("ServerId", "65538")]).ServerID = (2, 1) :=
  ⟨(newEntityInfo_key_aliases (fun _ => 0) id
      [("TribeId", "7"), ("TribeID", "9"), ("ServerId", "65538")]).1 "9" (by decide),
    ((newEntityInfo_key_aliases (fun _ => 0) id
      [("TribeId", "7"), ("TribeID", "9"), ("ServerId", "65538")]).2.2.2.2.1 (by decide)
      "65538" (by decide)).trans (by decide)⟩

/-! ### The subtype set by `newEntityInfo` -/

theorem newEntityInfo_subtype_eq (parseFloat : String → Float) (toLower : String → String)
    (record : Record) :
    (newEntityInfo parseFloat toLower record).EntitySubType =
      subtypeBySpec (toLower (entityClassText record)) := by
  simp only [newEntityInfo, subtypeBySpec, subtypeTable, entityClassText, List.find?]
  generalize toLower (match record.lookup "EntityClass" with
    | some c => c
    | none => "none") = lowered
  cases h1 : stringsContains lowered "none"
  · cases h2 : stringsContains lowered "brigantine"
    · cases h3 : stringsContains lowered "dinghy"
      · cases h4 : stringsContains lowered "raft"
        · cases h5 : stringsContains lowered "sloop"
          · cases h6 : stringsContains lowered "schooner"
            · cases h7 : stringsContains lowered "galleon" <;> simp
            · simp
          · simp
        · simp
      · simp
    · simp
  · simp

theorem subtypeBySpec_mem (lowered : String) :
    subtypeBySpec lowered ∈
      ["None", "Brigantine", "Dingy", "Raft", "Sloop", "Schooner", "Galleon"] := by
  unfold subtypeBySpec
  cases h : subtypeTable.find? (fun e => stringsContains lowered e.1) with
  | none => simp
  | some e =>
    have hm := List.mem_of_find?_eq_some h
    simp only [subtypeTable, List.mem_cons, List.mem_singleton, List.not_mem_nil, or_false] at hm
    rcases hm with rfl | rfl | rfl | rfl | rfl | rfl | rfl <;> simp

/-- C11. For every record, the `EntitySubType` set by `newEntityInfo` is the label
of the first entry of the ordered list `none, brigantine, dinghy, raft, sloop,
schooner, galleon` whose key is a substring of the lower-cased `EntityClass`,
and `"None"` when no key is a substring or the field is missing (the lower-case
form of the text `none` being `none`); hence two records whose class texts have
the same lower-case form get the same subtype, and the subtype is always one of
the seven labels. -/
theorem newEntityInfo_subtype (parseFloat : String → Float) (toLower : String → String)
    (record : Record) :
    (newEntityInfo parseFloat toLower record).EntitySubType =
        subtypeBySpec (toLower (entityClassText record)) ∧
    (subtypeTable.find? (fun e => stringsContains (toLower (entityClassText record)) e.1) = none →
      (newEntityInfo parseFloat toLower record).EntitySubType = "None") ∧
    (record.lookup "EntityClass" = none → toLower "none" = "none" →
      (newEntityInfo parseFloat toLower record).EntitySubType = "None") ∧
    (∀ other : Record, toLower (entityClassText other) = toLower (entityClassText record) →
      (newEntityInfo parseFloat toLower other).EntitySubType =
        (newEntityInfo parseFloat toLower record).EntitySubType) ∧
    (newEntityInfo parseFloat toLower record).EntitySubType ∈
      ["None", "Brigantine", "Dingy", "Raft", "Sloop", "Schooner", "Galleon"] := by
  refine ⟨newEntityInfo_subtype_eq _ _ _, ?_, ?_, ?_, ?_⟩
  · intro h
    rw [newEntityInfo_subtype_eq, subtypeBySpec, h]
  · intro h hl
    rw [newEntityInfo_subtype_eq, entityClassText, h, hl]
    decide
  · intro other h
    rw [newEntityInfo_subtype_eq, newEntityInfo_subtype_eq, h]
  · rw [newEntityInfo_subtype_eq]
    exact subtypeBySpec_mem _

/-- An instance of C11: the class `Ship_SLOOP_BP`, lower-cased as ASCII text,
gives the subtype `Sloop`; a record without the field gives `None`. -/
theorem newEntityInfo_subtype_witness :
    (newEntityInfo (fun _ => 0) lowerASCII [("EntityClass", "Ship_SLOOP_BP")]).EntitySubType
      = "Sloop" ∧
    (newEntityInfo (fun _ => 0) lowerASCII [("EntityID", "1")]).EntitySubType = "None" :=
  ⟨(newEntityInfo_subtype (fun _ => 0) lowerASCII [("EntityClass", "Ship_SLOOP_BP")]).1.trans
      (by decide),
    (newEntityInfo_subtype (fun _ => 0) lowerASCII [("EntityID", "1")]).2.2.1
      (by decide) (by decide)⟩

/-! ### The colony loop: skipped cycles, failed reads, versions -/

/-- C15. In one cycle of `ProcessColony`, if `fetchIslandClaims` succeeds and its
checksum equals `previousCrc`, the cycle logs `No CRC changes detected` and
neither of the lines of the ranking and of the generation of the island data,
it publishes nothing, and the text `islandData` and `previousCrc` are after the
cycle what they were before it. -/
theorem ProcessColony_cycle_same_crc (lib : Library) (grid : GridConfig) (s : ColonyState)
    (input : ColonyInput) (counts : List (Nat × TribeCount)) (crc : Nat)
    (hfetch : fetchIslandClaims lib grid.Islands input.claimsReply input.warsReply
      = FetchResult.ok counts crc)
    (hcrc : crc = s.previousCrc) :
    ∃ step, ProcessColony.cycle lib grid s input = some step ∧
      step.state = s ∧ step.published = none ∧
      step.state.islandData = s.islandData ∧ step.state.previousCrc = s.previousCrc ∧
      step.log = ["Getting island claims", "No CRC changes detected",
        "Done, waiting till next round"] ∧
      "Finding top 5 tribes from claims" ∉ step.log ∧ "Generating island data" ∉ step.log := by
  refine ⟨{ state := s, published := none
            log := ["Getting island claims", "No CRC changes detected",
                    "Done, waiting till next round"] }, ?_, rfl, rfl, rfl, rfl, rfl, ?_, ?_⟩
  · simp only [ProcessColony.cycle, hfetch, hcrc, if_true]
  · show "Finding top 5 tribes from claims" ∉ ["Getting island claims",
      "No CRC changes detected", "Done, waiting till next round"]
    decide
  · show "Generating island data" ∉ ["Getting island claims",
      "No CRC changes detected", "Done, waiting till next round"]
    decide

/-- An instance of C15: the store holds no claim, the checksum is 0 as in the
cycle before. -/
theorem ProcessColony_cycle_same_crc_witness :
    ∃ step, ProcessColony.cycle (exampleLibrary [] []) exampleGrid
        { previousCrc := 0, islandData := "1" } (colonyInput (some []) 5) = some step ∧
      step.state = { previousCrc := 0, islandData := "1" } ∧ step.published = none :=
  (ProcessColony_cycle_same_crc (exampleLibrary [] []) exampleGrid
    { previousCrc := 0, islandData := "1" } (colonyInput (some []) 5) [] 0 rfl rfl).imp
    (fun _ h => ⟨h.1, h.2.1, h.2.2.1⟩)

/-- C16. In one cycle of `ProcessColony`, if `fetchIslandClaims` returns an error,
which it does when the read of the claims fails, the cycle publishes nothing,
and the text `islandData` and `previousCrc` are after the cycle what they were
before it. -/
theorem ProcessColony_cycle_fetch_error (lib : Library) (grid : GridConfig) (s : ColonyState)
    (input : ColonyInput) :
    (input.claimsReply = none →
      fetchIslandClaims lib grid.Islands input.claimsReply input.warsReply
        = FetchResult.error) ∧
    (fetchIslandClaims lib grid.Islands input.claimsReply input.warsReply = FetchResult.error →
      ∃ step, ProcessColony.cycle lib grid s input = some step ∧
        step.state = s ∧ step.published = none ∧
        step.state.islandData = s.islandData ∧ step.state.previousCrc = s.previousCrc) := by
  constructor
  · intro h
    simp only [fetchIslandClaims, fetchIslandClaims.build, h]
  · intro h
    refine ⟨{ state := s, published := none
              log := ["Getting island claims", "Error!", "Done, waiting till next round"] },
      ?_, rfl, rfl, rfl, rfl⟩
    simp only [ProcessColony.cycle, h]

/-- An instance of C16: the read of the claims fails. -/
theorem ProcessColony_cycle_fetch_error_witness :
    ∃ step, ProcessColony.cycle (exampleLibrary [] []) exampleGrid
        { previousCrc := 77, islandData := "1" } (colonyInput none 5) = some step ∧
      step.state = { previousCrc := 77, islandData := "1" } :=
  ((ProcessColony_cycle_fetch_error (exampleLibrary [] []) exampleGrid
    { previousCrc := 77, islandData := "1" } (colonyInput none 5)).2
    ((ProcessColony_cycle_fetch_error (exampleLibrary [] []) exampleGrid
      { previousCrc := 77, islandData := "1" } (colonyInput none 5)).1 rfl)).imp
    (fun _ h => ⟨h.1, h.2.1⟩)

theorem generateIslandData_step_version (virtualPixels : Int) :
    ∀ (tribes : List TribeCount) (output : IslandOutput),
      (tribes.foldl (generateIslandData.step virtualPixels) output).Version = output.Version := by
  intro tribes
  induction tribes with
  | nil => intro output; rfl
  | cons t rest ih =>
    intro output
    simp only [List.foldl_cons]
    rw [ih]
    rfl

theorem generateIslandData_version (now : Int) (tribes : List TribeCount)
    (virtualPixels : Int) : (generateIslandData now tribes virtualPixels).Version = now :=
  generateIslandData_step_version virtualPixels tribes _

theorem ProcessColony_cycle_version (lib : Library) (grid : GridConfig) (s : ColonyState)
    (input : ColonyInput) (step : ColonyStep) (o : IslandOutput)
    (hstep : ProcessColony.cycle lib grid s input = some step)
    (hpub : step.published = some o) : o.Version = input.now := by
  unfold ProcessColony.cycle at hstep
  cases hf : fetchIslandClaims lib grid.Islands input.claimsReply input.warsReply with
  | panic => rw [hf] at hstep; simp at hstep
  | error =>
    rw [hf] at hstep
    simp only [Option.some.injEq] at hstep
    rw [← hstep] at hpub
    simp at hpub
  | ok counts crc =>
    rw [hf] at hstep
    simp only at hstep
    split at hstep
    · simp only [Option.some.injEq] at hstep
      rw [← hstep] at hpub
      simp at hpub
    · split at hstep
      · simp at hstep
      · simp only [Option.some.injEq] at hstep
        rw [← hstep] at hpub
        simp only [Option.some.injEq] at hpub
        rw [← hpub]
        exact generateIslandData_version _ _ _

/-- The versions of the documents that a run of cycles publishes are, in order,
clock readings of the cycles. -/
theorem ProcessColony_cycles_versions (lib : Library) (grid : GridConfig) :
    ∀ (inputs : List ColonyInput) (s : ColonyState),
      (((ProcessColony.cycles lib grid s inputs).filterMap (fun step => step.published)).map
        (fun o => o.Version)).Sublist (inputs.map (fun input => input.now)) := by
  intro inputs
  induction inputs with
  | nil => intro s; simp [ProcessColony.cycles]
  | cons input rest ih =>
    intro s
    simp only [ProcessColony.cycles]
    cases hc : ProcessColony.cycle lib grid s input with
    | none => simp
    | some step =>
      simp only [List.filterMap_cons, List.map_cons]
      cases hp : step.published with
      | none =>
        simp only
        exact (ih step.state).trans (List.sublist_cons_self _ _)
      | some o =>
        simp only [List.map_cons]
        rw [ProcessColony_cycle_version lib grid s input step o hc hp]
        exact (ih step.state).cons₂ _

/-- C18 as stated fails: two cycles that both publish, the clock reading 10 in
the first and 5 in the second, stamp the versions 10 and then 5. -/
theorem ProcessColony_version_decreases :
    ((ProcessColony.cycles (exampleLibrary [] []) exampleGrid ProcessColony.start
        [colonyInput (some []) 10, colonyInput (some [utf8 "x"]) 5]).map
      (fun step => step.published.map (fun o => o.Version))) = [some 10, some 5] := by
  decide

/-- C18, amended. The version that `generateIslandData` stamps on a snapshot is
the reading of the wall clock at that moment, whatever the version of the
snapshot before: every document that a cycle publishes carries the clock
reading of its cycle, and over a run of cycles whose clock readings do not
decrease the versions of the published snapshots do not decrease. -/
theorem ProcessColony_version_is_clock (lib : Library) (grid : GridConfig) (s : ColonyState)
    (inputs : List ColonyInput) :
    (∀ (now : Int) (tribes : List TribeCount) (virtualPixels : Int),
      (generateIslandData now tribes virtualPixels).Version = now) ∧
    (∀ (input : ColonyInput) (step : ColonyStep) (o : IslandOutput),
      ProcessColony.cycle lib grid s input = some step → step.published = some o →
      o.Version = input.now) ∧
    ((inputs.map (fun input => input.now)).Pairwise (· ≤ ·) →
      (((ProcessColony.cycles lib grid s inputs).filterMap (fun step => step.published)).map
        (fun o => o.Version)).Pairwise (· ≤ ·)) :=
  ⟨generateIslandData_version,
    fun input step o h1 h2 => ProcessColony_cycle_version lib grid s input step o h1 h2,
    fun h => h.sublist (ProcessColony_cycles_versions lib grid inputs s)⟩

/-- An instance of the amended C18: the clock readings 5 and then 10 give the
versions 5 and then 10. -/
theorem ProcessColony_version_is_clock_witness :
    ((((ProcessColony.cycles (exampleLibrary [] []) exampleGrid ProcessColony.start
        [colonyInput (some []) 5, colonyInput (some [utf8 "x"]) 10]).filterMap
      (fun step => step.published)).map (fun o => o.Version)) = [5, 10]) ∧
    ((((ProcessColony.cycles (exampleLibrary [] []) exampleGrid ProcessColony.start
        [colonyInput (some []) 5, colonyInput (some [utf8 "x"]) 10]).filterMap
      (fun step => step.published)).map (fun o => o.Version)).Pairwise (· ≤ ·)) :=
  ⟨by decide,
    (ProcessColony_version_is_clock (exampleLibrary [] []) exampleGrid ProcessColony.start
      [colonyInput (some []) 5, colonyInput (some [utf8 "x"]) 10]).2.2 (by decide)⟩

/-! ### The entity loop and a failing scan -/

theorem scan_collect_eq_none (fields : String → Option Record) :
    ∀ (keys : List String) (records : List (String × Record)),
      (∃ k ∈ keys, fields k = none) → scan.collect fields records keys = none := by
  intro keys
  induction keys with
  | nil => intro records h; simp at h
  | cons k rest ih =>
    intro records h
    simp only [scan.collect]
    cases hk : fields k with
    | none => rfl
    | some record =>
      simp only
      apply ih
      obtain ⟨k', hk', hnone⟩ := h
      rcases List.mem_cons.mp hk' with rfl | hrest
      · rw [hk] at hnone
        cases hnone
      · exact ⟨k', hrest, hnone⟩

/-- The function `scan` ends the process when the key iterator fails, and when
the field set of one of the keys cannot be retrieved. -/
theorem scan_fails (reply : ScanReply)
    (h : reply.iterErr = true ∨ ∃ k ∈ reply.keys, reply.fields k = none) :
    scan reply = none := by
  unfold scan
  rcases h with h | h
  · rw [if_pos h]
  · split
    · rfl
    · exact scan_collect_eq_none _ _ _ h

/-- C17 as stated fails: a cycle whose key scan fails is followed by no other
cycle. With a failing first cycle the loop ends there, the process terminated
and no cycle completed, although the second cycle on its own would have
published the entity `7`. -/
theorem ProcessEntities_loop_stops_at_failed_scan :
    ProcessEntities.loop exampleEntityLibrary ProcessEntities.start
      [entitiesInput emptyScan failingScan, entitiesInput emptyScan oneEntityScan]
      = ({ tribeData := "", entityData := "\x7b\x7d", kidsWithBadParents := [] }, true, 0) ∧
    (ProcessEntities.loop exampleEntityLibrary ProcessEntities.start
      [entitiesInput emptyScan oneEntityScan]).1.entityData = "7" := by
  constructor
  · rfl
  · decide

/-- C17, amended. When the key scan, or the retrieval of the field set of a key,
fails during a cycle of `ProcessEntities`, `log.Fatal` ends the process in that
cycle: no later cycle runs, and up to that moment the text `entityData`
published before and the set `kidsWithBadParents` are unchanged. -/
theorem ProcessEntities_loop_failed_scan (lib : EntityLibrary) (s : EntitiesState)
    (input : EntitiesInput) (rest : List EntitiesInput)
    (hfail :
      (input.tribesReply.iterErr = true ∨
        ∃ k ∈ input.tribesReply.keys, input.tribesReply.fields k = none) ∨
      (input.entitiesReply.iterErr = true ∨
        ∃ k ∈ input.entitiesReply.keys, input.entitiesReply.fields k = none)) :
    (ProcessEntities.loop lib s (input :: rest)).2.1 = true ∧
    (ProcessEntities.loop lib s (input :: rest)).2.2 = 0 ∧
    (ProcessEntities.loop lib s (input :: rest)).1.entityData = s.entityData ∧
    (ProcessEntities.loop lib s (input :: rest)).1.kidsWithBadParents = s.kidsWithBadParents ∧
    ProcessEntities.loop lib s (input :: rest) = ProcessEntities.loop lib s [input] := by
  have hcycle : (ProcessEntities.cycle lib s input).2 = true ∧
      (ProcessEntities.cycle lib s input).1.entityData = s.entityData ∧
      (ProcessEntities.cycle lib s input).1.kidsWithBadParents = s.kidsWithBadParents := by
    unfold ProcessEntities.cycle
    cases ht : scan input.tribesReply with
    | none => exact ⟨rfl, rfl, rfl⟩
    | some tribeRecords =>
      rcases hfail with h | h
      · rw [scan_fails _ h] at ht
        cases ht
      · rw [scan_fails _ h]
        exact ⟨rfl, rfl, rfl⟩
  simp only [ProcessEntities.loop, hcycle.1, if_true]
  exact ⟨trivial, trivial, hcycle.2.1, hcycle.2.2, trivial⟩

/-- An instance of the amended C17: the entity scan of the first cycle fails. -/
theorem ProcessEntities_loop_failed_scan_witness :
    (ProcessEntities.loop exampleEntityLibrary ProcessEntities.start
      (entitiesInput emptyScan failingScan :: [entitiesInput emptyScan oneEntityScan])).2.1
      = true :=
  (ProcessEntities_loop_failed_scan exampleEntityLibrary ProcessEntities.start
    (entitiesInput emptyScan failingScan) [entitiesInput emptyScan oneEntityScan]
    (Or.inr (Or.inl rfl))).1

/-! ### The aggregation of `fetchIslandClaims` -/

theorem wrapInt64_add (a b : Int) : wrapInt64 (wrapInt64 a + b) = wrapInt64 (a + b) := by
  unfold wrapInt64
  norm_num
  omega

theorem wrapInt64_of_range (x : Int) (h1 : -(2 ^ 63) ≤ x) (h2 : x < 2 ^ 63) :
    wrapInt64 x = x := by
  unfold wrapInt64
  norm_num at h1 h2 ⊢
  omega

theorem pointsSum_append_singleton (l : List IslandClaim) (c : IslandClaim) :
    pointsSum (l ++ [c]) = pointsSum l + c.IslandPoints := by
  simp [pointsSum]

theorem completeClaim_kept (islands : List (Int × IslandInstance)) (parsed c : IslandClaim)
    (h : completeClaim islands parsed = some c) :
    keptClaim islands c ∧ c.OwnerTribeID = parsed.OwnerTribeID ∧ c.IslandID = parsed.IslandID := by
  unfold completeClaim at h
  split at h
  · cases h
  · next hown =>
    split at h
    · cases h
    · next island hl =>
      split at h
      · cases h
      · next hp =>
        simp only [Option.some.injEq] at h
        subst h
        exact ⟨⟨hown, by simpa using hp, island, hl, rfl⟩, rfl, rfl⟩

theorem sound_mono (islands : List (Int × IslandInstance)) (survivors : List IslandClaim)
    (c : IslandClaim) (t : TribeBuild) (h : t.sound islands survivors) :
    t.sound islands (survivors ++ [c]) := by
  obtain ⟨h1, h2, h3⟩ := h
  refine ⟨h1, h2, ?_⟩
  intro e he
  obtain ⟨ha, hb, c0, hc0, hw⟩ := h3 e he
  refine ⟨ha, hb, c0, ?_, hw⟩
  have hlt : e.1 < survivors.length := by
    by_contra hge
    rw [List.getElem?_eq_none (by omega)] at hc0
    cases hc0
  rw [List.getElem?_append_left hlt]
  exact hc0

theorem addClaim_keys (tribes : List TribeBuild) (id : Nat) (c : IslandClaim) :
    (addClaim tribes id c).map (fun t => t.tribeID) =
      if c.OwnerTribeID ∈ tribes.map (fun t => t.tribeID) then tribes.map (fun t => t.tribeID)
      else tribes.map (fun t => t.tribeID) ++ [c.OwnerTribeID] := by
  unfold addClaim
  split
  · rw [List.map_map]
    apply List.map_congr_left
    intro t _
    simp only [Function.comp]
    split <;> rfl
  · simp

theorem addClaim_tags (id : Nat) (c : IslandClaim) : ∀ (tribes : List TribeBuild),
    (tribes.map (fun t => t.tribeID)).Nodup →
    ((addClaim tribes id c).flatMap (fun t => t.islands.map Prod.fst)).Perm
      (tribes.flatMap (fun t => t.islands.map Prod.fst) ++ [id]) := by
  intro tribes hnd
  unfold addClaim
  split
  · next hmem =>
    induction tribes with
    | nil => simp at hmem
    | cons t rest ih =>
      simp only [List.map_cons, List.nodup_cons] at hnd
      simp only [List.map_cons, List.flatMap_cons]
      by_cases ht : t.tribeID = c.OwnerTribeID
      · have hrest : rest.map (fun t =>
            if t.tribeID = c.OwnerTribeID then
              { t with count := wrapInt64 (t.count + c.IslandPoints),
                       islands := t.islands ++ [(id, c)] }
            else t) = rest := by
          conv => rhs; rw [← List.map_id rest]
          apply List.map_congr_left
          intro t' ht'
          have : t'.tribeID ≠ c.OwnerTribeID := by
            intro h
            apply hnd.1
            rw [ht, ← h]
            exact List.mem_map_of_mem (fun t => t.tribeID) ht'
          simp [this]
        rw [hrest, if_pos ht]
        simp only [List.map_append, List.map_cons, List.map_nil, List.append_assoc]
        exact List.Perm.append_left _ List.perm_append_comm
      · have hmem' : c.OwnerTribeID ∈ rest.map (fun t => t.tribeID) := by
          simp only [List.map_cons, List.mem_cons] at hmem
          rcases hmem with h | h
          · exact absurd h.symm ht
          · exact h
        rw [if_neg ht, List.append_assoc]
        exact List.Perm.append_left _ (ih hnd.2 hmem')
  · simp

theorem addClaim_sound (islands : List (Int × IslandInstance)) (survivors : List IslandClaim)
    (tribes : List TribeBuild) (c : IslandClaim)
    (hall : ∀ t ∈ tribes, t.sound islands survivors) (hkept : keptClaim islands c)
    (hint : c.IslandPoints < 2 ^ 63) :
    ∀ t ∈ addClaim tribes survivors.length c, t.sound islands (survivors ++ [c]) := by
  have hnew : ∃ c0, (survivors ++ [c])[survivors.length]? = some c0 ∧
      withoutWar c = withoutWar c0 := ⟨c, by simp, rfl⟩
  intro t ht
  unfold addClaim at ht
  split at ht
  · obtain ⟨t0, ht0, rfl⟩ := List.mem_map.mp ht
    have hs := sound_mono islands survivors c t0 (hall t0 ht0)
    split
    · next hown =>
      obtain ⟨h1, h2, h3⟩ := hs
      refine ⟨by simp, ?_, ?_⟩
      · simp only [List.map_append, List.map_cons, List.map_nil]
        rw [pointsSum_append_singleton, h2, wrapInt64_add]
      · intro e he
        rcases List.mem_append.mp he with h | h
        · exact h3 e h
        · rw [List.mem_singleton] at h
          subst h
          exact ⟨hown.symm, hkept, hnew⟩
    · exact hs
  · rcases List.mem_append.mp ht with h | h
    · exact sound_mono islands survivors c t (hall t h)
    · rw [List.mem_singleton] at h
      subst h
      refine ⟨by simp, ?_, ?_⟩
      · simp only [List.map_cons, List.map_nil, pointsSum, List.sum_cons, List.sum_nil,
          add_zero]
        exact (wrapInt64_of_range _ (by have := hkept.2.1; omega) hint).symm
      · intro e he
        rw [List.mem_singleton] at he
        subst he
        exact ⟨rfl, hkept, hnew⟩

theorem lookup_mem {κ ν : Type} [BEq κ] [LawfulBEq κ] (k : κ) (v : ν) :
    ∀ (m : List (κ × ν)), m.lookup k = some v → (k, v) ∈ m := by
  intro m
  induction m with
  | nil => intro h; simp at h
  | cons e rest ih =>
    intro h
    obtain ⟨k1, v1⟩ := e
    rw [List.lookup_cons] at h
    by_cases hk : (k == k1) = true
    · rw [hk] at h
      simp only [Option.some.injEq] at h
      have hk1 : k = k1 := by simpa using hk
      subst hk1
      subst h
      exact List.mem_cons_self _ _
    · have hk2 : (k == k1) = false := by simpa using hk
      rw [hk2] at h
      exact List.mem_cons_of_mem _ (ih h)

theorem survivingClaims_append (lib : Library) (islands : List (Int × IslandInstance))
    (done : List Bytes) (v : Bytes) :
    survivingClaims lib islands (done ++ [v]) =
      survivingClaims lib islands done ++ (survivingClaim lib islands v).toList := by
  unfold survivingClaims
  rw [List.filterMap_append]
  congr 1

theorem claimStep_sound (lib : Library) (islands : List (Int × IslandInstance))
    (hint : ∀ e ∈ islands, e.2.IslandPoints < 2 ^ 63)
    (done : List Bytes) (v : Bytes) (s s1 : FetchState)
    (hs : s.sound islands (survivingClaims lib islands done))
    (hstep : fetchIslandClaims.claimStep lib islands s v = some s1) :
    s1.sound islands (survivingClaims lib islands (done ++ [v])) := by
  rw [survivingClaims_append]
  unfold fetchIslandClaims.claimStep at hstep
  unfold survivingClaim
  obtain ⟨hcreated, hnodup, hall, hperm⟩ := hs
  split at hstep
  · cases hstep
  · next hp =>
    simp only [Option.some.injEq] at hstep
    subst hstep
    rw [hp]
    simpa using ⟨hcreated, hnodup, hall, hperm⟩
  · next parsed hp =>
    rw [hp]
    simp only
    split at hstep
    · next hc =>
      simp only [Option.some.injEq] at hstep
      subst hstep
      rw [hc]
      simpa using ⟨hcreated, hnodup, hall, hperm⟩
    · next c hc =>
      simp only [Option.some.injEq] at hstep
      subst hstep
      rw [hc]
      have hkept := (completeClaim_kept islands parsed c hc).1
      have hlt : c.IslandPoints < 2 ^ 63 := by
        obtain ⟨_, _, island, hl, hpts⟩ := hkept
        rw [← hpts]
        exact hint _ (lookup_mem _ _ _ hl)
      simp only [Option.toList]
      refine ⟨?_, ?_, ?_, ?_⟩
      · simp [hcreated]
      · show ((addClaim s.countPerTribe s.created c).map (fun t => t.tribeID)).Nodup
        rw [addClaim_keys]
        split
        · exact hnodup
        · next hnot =>
          rw [List.nodup_append]
          refine ⟨hnodup, List.nodup_singleton _, ?_⟩
          intro a ha hb
          rw [List.mem_singleton] at hb
          subst hb
          exact hnot ha
      · show ∀ t ∈ addClaim s.countPerTribe s.created c, _
        rw [hcreated]
        exact addClaim_sound islands _ s.countPerTribe c hall hkept hlt
      · show ((addClaim s.countPerTribe s.created c).flatMap _).Perm (List.range (s.created + 1))
        rw [List.range_succ]
        exact (addClaim_tags s.created c s.countPerTribe hnodup).trans
          (List.Perm.append_right _ hperm)

theorem claimLoop_sound (lib : Library) (islands : List (Int × IslandInstance))
    (hint : ∀ e ∈ islands, e.2.IslandPoints < 2 ^ 63) :
    ∀ (rest done : List Bytes) (s s1 : FetchState),
      s.sound islands (survivingClaims lib islands done) →
      fetchIslandClaims.claimLoop lib islands s rest = some s1 →
      s1.sound islands (survivingClaims lib islands (done ++ rest)) := by
  intro rest
  induction rest with
  | nil =>
    intro done s s1 hs h
    simp only [fetchIslandClaims.claimLoop, Option.some.injEq] at h
    subst h
    simpa using hs
  | cons v rest ih =>
    intro done s s1 hs h
    simp only [fetchIslandClaims.claimLoop] at h
    split at h
    · cases h
    · next s2 hstep =>
      have h2 := claimStep_sound lib islands hint done v s s2 hs hstep
      have := ih (done ++ [v]) s2 s1 h2 h
      simpa using this

theorem setWar_sound (islands : List (Int × IslandInstance)) (survivors : List IslandClaim)
    (tribes : List TribeBuild) (id : Nat) (w : WarDeclaration)
    (hall : ∀ t ∈ tribes, t.sound islands survivors) :
    ∀ t ∈ setWar tribes id w, t.sound islands survivors := by
  intro t ht
  unfold setWar at ht
  obtain ⟨t0, ht0, rfl⟩ := List.mem_map.mp ht
  obtain ⟨h1, h2, h3⟩ := hall t0 ht0
  refine ⟨by simpa using h1, ?_, ?_⟩
  · show t0.count = _
    rw [h2]
    congr 1
    unfold pointsSum
    simp only [List.map_map]
    congr 1
    apply List.map_congr_left
    intro e _
    simp only [Function.comp]
    split <;> rfl
  · intro e he
    obtain ⟨e0, he0, rfl⟩ := List.mem_map.mp he
    obtain ⟨ha, hb, c0, hc0, hw⟩ := h3 e0 he0
    split
    · exact ⟨ha, hb, c0, hc0, by rw [← hw]; rfl⟩
    · exact ⟨ha, hb, c0, hc0, hw⟩

theorem setWar_keys (tribes : List TribeBuild) (id : Nat) (w : WarDeclaration) :
    (setWar tribes id w).map (fun t => t.tribeID) = tribes.map (fun t => t.tribeID) := by
  unfold setWar
  rw [List.map_map]
  rfl

theorem setWar_tags (tribes : List TribeBuild) (id : Nat) (w : WarDeclaration) :
    (setWar tribes id w).flatMap (fun t => t.islands.map Prod.fst) =
      tribes.flatMap (fun t => t.islands.map Prod.fst) := by
  unfold setWar
  induction tribes with
  | nil => rfl
  | cons t rest ih =>
    simp only [List.map_cons, List.flatMap_cons, List.map_map]
    rw [ih]
    congr 1
    apply List.map_congr_left
    intro e _
    simp only [Function.comp]
    split <;> rfl

theorem warStep_sound (lib : Library) (islands : List (Int × IslandInstance))
    (survivors : List IslandClaim) (s : FetchState) (v : Bytes)
    (hs : s.sound islands survivors) :
    (fetchIslandClaims.warStep lib s v).sound islands survivors := by
  obtain ⟨hcreated, hnodup, hall, hperm⟩ := hs
  unfold fetchIslandClaims.warStep
  simp only
  split
  · exact ⟨hcreated, hnodup, hall, hperm⟩
  · split
    · exact ⟨hcreated, hnodup, hall, hperm⟩
    · split
      · next id _ =>
        refine ⟨hcreated, ?_, ?_, ?_⟩
        · show ((setWar s.countPerTribe id _).map (fun t => t.tribeID)).Nodup
          rw [setWar_keys]
          exact hnodup
        · exact setWar_sound islands survivors s.countPerTribe id _ hall
        · show ((setWar s.countPerTribe id _).flatMap _).Perm _
          rw [setWar_tags]
          exact hperm
      · exact ⟨hcreated, hnodup, hall, hperm⟩

theorem warLoop_sound (lib : Library) (islands : List (Int × IslandInstance))
    (survivors : List IslandClaim) :
    ∀ (wars : List Bytes) (s : FetchState), s.sound islands survivors →
      (wars.foldl (fetchIslandClaims.warStep lib) s).sound islands survivors := by
  intro wars
  induction wars with
  | nil => intro s hs; exact hs
  | cons v rest ih =>
    intro s hs
    exact ih _ (warStep_sound lib islands survivors s v hs)

theorem build_sound (lib : Library) (islands : List (Int × IslandInstance))
    (hint : ∀ e ∈ islands, e.2.IslandPoints < 2 ^ 63)
    (raw : List Bytes) (warsReply : Option (List Bytes)) (s : FetchState)
    (h : fetchIslandClaims.build lib islands (some raw) warsReply = some (some s)) :
    s.sound islands (survivingClaims lib islands raw) := by
  unfold fetchIslandClaims.build at h
  simp only at h
  split at h
  · cases h
  · next s1 hloop =>
    have h0 : FetchState.sound islands (survivingClaims lib islands [])
        { hash := 0, created := 0, islands := [], countPerTribe := [] } := by
      refine ⟨rfl, by simp, by simp, by simp⟩
    have h1 := claimLoop_sound lib islands hint raw [] _ s1 h0 hloop
    rw [List.nil_append] at h1
    split at h
    · simp only [Option.some.injEq] at h
      subst h
      exact h1
    · next wars =>
      simp only [Option.some.injEq] at h
      subst h
      exact warLoop_sound lib islands _ wars s1 h1

theorem fetchIslandClaims_ok (lib : Library) (islands : List (Int × IslandInstance))
    (claimsReply warsReply : Option (List Bytes)) (counts : List (Nat × TribeCount)) (crc : Nat)
    (h : fetchIslandClaims lib islands claimsReply warsReply = FetchResult.ok counts crc) :
    ∃ raw s, claimsReply = some raw ∧
      fetchIslandClaims.build lib islands (some raw) warsReply = some (some s) ∧
      counts = s.countPerTribe.map TribeBuild.finish ∧ crc = s.hash := by
  unfold fetchIslandClaims at h
  split at h
  · cases h
  · cases h
  · next s hb =>
    cases claimsReply with
    | none => simp [fetchIslandClaims.build] at hb
    | some raw =>
      simp only [FetchResult.ok.injEq] at h
      exact ⟨raw, s, rfl, hb, h.1.symm, h.2.symm⟩

theorem pointsSum_pos (islands : List (Int × IslandInstance)) :
    ∀ (l : List IslandClaim), l ≠ [] → (∀ c ∈ l, keptClaim islands c) → 0 < pointsSum l := by
  intro l
  induction l with
  | nil => intro h; exact absurd rfl h
  | cons c rest ih =>
    intro _ hall
    have hc : 0 < c.IslandPoints := (hall c (List.mem_cons_self _ _)).2.1
    by_cases hrest : rest = []
    · subst hrest
      simpa [pointsSum] using hc
    · have := ih hrest (fun c hc => hall c (List.mem_cons_of_mem _ hc))
      simp only [pointsSum, List.map_cons, List.sum_cons] at this ⊢
      omega

/-! ### The checksum of `fetchIslandClaims` -/

theorem crc32_update_nil (c : Nat) : crc32.update c [] = c := by
  simp [crc32.update, Nat.xor_assoc]

theorem crc32_update_append (c : Nat) (p q : Bytes) :
    crc32.update (crc32.update c p) q = crc32.update c (p ++ q) := by
  simp [crc32.update, List.foldl_append, Nat.xor_assoc]

theorem claimStep_hash (lib : Library) (islands : List (Int × IslandInstance))
    (s s1 : FetchState) (v : Bytes)
    (h : fetchIslandClaims.claimStep lib islands s v = some s1) :
    s1.hash = crc32.update s.hash v := by
  unfold fetchIslandClaims.claimStep at h
  split at h
  · cases h
  · simp only [Option.some.injEq] at h
    subst h
    rfl
  · split at h
    · simp only [Option.some.injEq] at h
      subst h
      rfl
    · simp only [Option.some.injEq] at h
      subst h
      rfl

theorem claimLoop_hash (lib : Library) (islands : List (Int × IslandInstance)) :
    ∀ (raw : List Bytes) (s s1 : FetchState),
      fetchIslandClaims.claimLoop lib islands s raw = some s1 →
      s1.hash = crc32.update s.hash raw.flatten := by
  intro raw
  induction raw with
  | nil =>
    intro s s1 h
    simp only [fetchIslandClaims.claimLoop, Option.some.injEq] at h
    subst h
    simp [crc32_update_nil]
  | cons v rest ih =>
    intro s s1 h
    simp only [fetchIslandClaims.claimLoop] at h
    split at h
    · cases h
    · next s2 hstep =>
      rw [ih s2 s1 h, claimStep_hash lib islands s s2 v hstep, crc32_update_append]
      simp

theorem warStep_hash (lib : Library) (s : FetchState) (v : Bytes) :
    (fetchIslandClaims.warStep lib s v).hash = crc32.update s.hash v := by
  unfold fetchIslandClaims.warStep
  simp only
  split
  · rfl
  · split
    · rfl
    · split <;> rfl

theorem warLoop_hash (lib : Library) :
    ∀ (wars : List Bytes) (s : FetchState),
      (wars.foldl (fetchIslandClaims.warStep lib) s).hash = crc32.update s.hash wars.flatten := by
  intro wars
  induction wars with
  | nil => intro s; simp [crc32_update_nil]
  | cons v rest ih =>
    intro s
    rw [List.foldl_cons, ih, warStep_hash, crc32_update_append]
    simp

/-- The checksum that `fetchIslandClaims` returns is the CRC-32 of the claim
values followed by the war declarations, concatenated in the order in which the
two `range` loops visit them. -/
theorem fetchIslandClaims_crc_concat (lib : Library) (islands : List (Int × IslandInstance))
    (raw wars : List Bytes) (crc : Nat)
    (h : (fetchIslandClaims lib islands (some raw) (some wars)).crc = some crc) :
    crc = crc32.update 0 (raw.flatten ++ wars.flatten) := by
  unfold fetchIslandClaims fetchIslandClaims.build at h
  simp only at h
  cases hloop : fetchIslandClaims.claimLoop lib islands
      { hash := 0, created := 0, islands := [], countPerTribe := [] } raw with
  | none =>
    rw [hloop] at h
    simp [FetchResult.crc] at h
  | some s =>
    rw [hloop] at h
    simp only [FetchResult.crc, Option.some.injEq] at h
    rw [← h, warLoop_hash, claimLoop_hash lib islands raw _ s hloop, crc32_update_append]

theorem claimDoc1_bytes : claimDoc1 =
    [123, 34, 105, 115, 108, 97, 110, 100, 73, 100, 34, 58, 49, 44, 34, 111, 119, 110, 101, 114,
     84, 114, 105, 98, 101, 73, 100, 34, 58, 53, 125] := by
  decide

theorem claimDoc2_bytes : claimDoc2 =
    [123, 34, 105, 115, 108, 97, 110, 100, 73, 100, 34, 58, 50, 44, 34, 111, 119, 110, 101, 114,
     84, 114, 105, 98, 101, 73, 100, 34, 58, 53, 125] := by
  decide

theorem crc32_claimDoc1_claimDoc2 :
    crc32.update 0 ([claimDoc1, claimDoc2].flatten ++ ([] : List Bytes).flatten) = 917158023 := by
  rw [claimDoc1_bytes, claimDoc2_bytes]
  simp [crc32.update, crc32.tableEntry, crc32.shift]

theorem crc32_claimDoc2_claimDoc1 :
    crc32.update 0 ([claimDoc2, claimDoc1].flatten ++ ([] : List Bytes).flatten) = 3269333628 := by
  rw [claimDoc1_bytes, claimDoc2_bytes]
  simp [crc32.update, crc32.tableEntry, crc32.shift]

/-- C14, the failing input: the store holds the two claim documents `claimDoc1`
and `claimDoc2` and no war declaration. When the `range` loop visits `claimDoc1`
first, `fetchIslandClaims` returns the checksum `917158023`; when it visits
`claimDoc2` first, it returns `3269333628`. The map of owners that it returns
is the same in both runs: owner `5` with 42 points. -/
theorem fetchIslandClaims_crc_depends_on_order :
    (fetchIslandClaims (exampleLibrary claimTable []) exampleGrid.Islands
        (some [claimDoc1, claimDoc2]) (some [])).crc = some 917158023 ∧
    (fetchIslandClaims (exampleLibrary claimTable []) exampleGrid.Islands
        (some [claimDoc2, claimDoc1]) (some [])).crc = some 3269333628 ∧
    (fetchIslandClaims (exampleLibrary claimTable []) exampleGrid.Islands
        (some [claimDoc1, claimDoc2]) (some [])).countOf = some [(5, 42)] ∧
    (fetchIslandClaims (exampleLibrary claimTable []) exampleGrid.Islands
        (some [claimDoc2, claimDoc1]) (some [])).countOf = some [(5, 42)] := by
  have crcOf : ∀ (raw : List Bytes) (n : Nat),
      (fetchIslandClaims (exampleLibrary claimTable []) exampleGrid.Islands
        (some raw) (some [])).crc.isSome = true →
      crc32.update 0 (raw.flatten ++ ([] : List Bytes).flatten) = n →
      (fetchIslandClaims (exampleLibrary claimTable []) exampleGrid.Islands
        (some raw) (some [])).crc = some n := by
    intro raw n hsome hn
    obtain ⟨crc, hcrc⟩ := Option.isSome_iff_exists.mp hsome
    rw [hcrc, fetchIslandClaims_crc_concat _ _ raw [] crc hcrc, hn]
  exact ⟨crcOf _ _ (by decide) crc32_claimDoc1_claimDoc2,
    crcOf _ _ (by decide) crc32_claimDoc2_claimDoc1, by decide, by decide⟩

theorem finish_mem (s : FetchState) (e : Nat × TribeCount)
    (he : e ∈ s.countPerTribe.map TribeBuild.finish) :
    ∃ t ∈ s.countPerTribe, e = t.finish := by
  obtain ⟨t, ht, rfl⟩ := List.mem_map.mp he
  exact ⟨t, ht, rfl⟩

/-- C12, counterexample: the island table holds the islands `1` and `2` with
`2^62` points each, and the store holds a claim of owner `5` on each of them.
The map that `fetchIslandClaims` returns has the entry of owner `5` with both
claims in its list, of `2^62` points each, and with the count `-2^63`, which is
not their sum `2^63`. -/
theorem fetchIslandClaims_count_wraps :
    (fetchIslandClaims (exampleLibrary claimTable []) bigIslands
        (some [claimDoc1, claimDoc2]) (some [])).countOf = some [(5, -9223372036854775808)] ∧
    (fetchIslandClaims (exampleLibrary claimTable []) bigIslands
        (some [claimDoc1, claimDoc2]) (some [])).pointsOf =
      some [(5, [4611686018427387904, 4611686018427387904])] ∧
    (-9223372036854775808 : Int) ≠ 4611686018427387904 + 4611686018427387904 := by
  decide

/-- C12, amended: whenever `fetchIslandClaims` returns a map of owners, for an
island table whose points are values of Go's `int`, the keys of the map are
pairwise distinct, and every entry has the `tribeID` of its key, a count equal
to the sum of the `IslandPoints` of the claims of its list reduced to the range
of Go's 64-bit `int` (so equal to the sum itself when the sum is below `2^63`),
and in its list only claims whose `OwnerTribeID` is its `tribeID`. The claim
objects of all the lists together are the surviving claims, each one exactly
once: numbered in the order of their creation, the numbers of the claims of all
lists are a permutation of `0, ..., n-1` for the `n` surviving claims, and the
claim with number `i` is the `i`-th surviving claim but for its war fields. -/
theorem fetchIslandClaims_aggregates (lib : Library) (islands : List (Int × IslandInstance))
    (claimsReply warsReply : Option (List Bytes)) (counts : List (Nat × TribeCount)) (crc : Nat)
    (hint : ∀ e ∈ islands, e.2.IslandPoints < 2 ^ 63)
    (h : fetchIslandClaims lib islands claimsReply warsReply = FetchResult.ok counts crc) :
    (counts.map Prod.fst).Nodup ∧
    (∀ e ∈ counts, e.2.tribeID = e.1 ∧
      e.2.count = wrapInt64 (pointsSum e.2.islands) ∧
      (pointsSum e.2.islands < 2 ^ 63 → e.2.count = pointsSum e.2.islands) ∧
      ∀ c ∈ e.2.islands, c.OwnerTribeID = e.2.tribeID) ∧
    ∃ raw s, claimsReply = some raw ∧
      fetchIslandClaims.build lib islands claimsReply warsReply = some (some s) ∧
      counts = s.countPerTribe.map TribeBuild.finish ∧
      (s.countPerTribe.flatMap (fun t => t.islands.map Prod.fst)).Perm
        (List.range (survivingClaims lib islands raw).length) ∧
      ∀ t ∈ s.countPerTribe, ∀ e ∈ t.islands,
        ∃ c0, (survivingClaims lib islands raw)[e.1]? = some c0 ∧
          withoutWar e.2 = withoutWar c0 := by
  obtain ⟨raw, s, hraw, hbuild, hcounts, _⟩ :=
    fetchIslandClaims_ok lib islands claimsReply warsReply counts crc h
  subst hraw
  obtain ⟨hcreated, hnodup, hall, hperm⟩ := build_sound lib islands hint raw warsReply s hbuild
  subst hcounts
  refine ⟨?_, ?_, raw, s, rfl, hbuild, rfl, ?_, ?_⟩
  · rw [List.map_map]
    exact hnodup
  · intro e he
    obtain ⟨t, ht, rfl⟩ := finish_mem s e he
    obtain ⟨h1, h2, h3⟩ := hall t ht
    have hkept : ∀ c ∈ t.islands.map Prod.snd, keptClaim islands c := by
      intro c hc
      obtain ⟨e, he, rfl⟩ := List.mem_map.mp hc
      exact (h3 e he).2.1
    have hpos := pointsSum_pos islands (t.islands.map Prod.snd) (by simpa using h1) hkept
    refine ⟨rfl, h2, ?_, ?_⟩
    · intro hlt
      show t.count = pointsSum (t.islands.map Prod.snd)
      rw [h2]
      exact wrapInt64_of_range _ (by omega) hlt
    · intro c hc
      obtain ⟨e, he, rfl⟩ := List.mem_map.mp hc
      exact (h3 e he).1
  · rw [← hcreated]
    exact hperm
  · intro t ht e he
    exact (hall t ht).2.2 e he |>.2.2

set_option maxRecDepth 100000 in
/-- C12, instance: the claims of owner `5` on the islands `1` and `2` of
`exampleGrid`, of 30 and 12 points. -/
theorem fetchIslandClaims_aggregates_witness :
    (fetchIslandClaims (exampleLibrary claimTable []) exampleGrid.Islands
        (some [claimDoc1, claimDoc2]) (some [])).countOf = some [(5, 42)] ∧
    ∃ counts crc,
      fetchIslandClaims (exampleLibrary claimTable []) exampleGrid.Islands
        (some [claimDoc1, claimDoc2]) (some []) = FetchResult.ok counts crc ∧
      (counts.map Prod.fst).Nodup ∧
      (∀ e ∈ counts, e.2.tribeID = e.1 ∧
        e.2.count = wrapInt64 (pointsSum e.2.islands) ∧
        (pointsSum e.2.islands < 2 ^ 63 → e.2.count = pointsSum e.2.islands) ∧
        ∀ c ∈ e.2.islands, c.OwnerTribeID = e.2.tribeID) :=
  ⟨by decide, _, _, rfl,
    (fetchIslandClaims_aggregates (exampleLibrary claimTable []) exampleGrid.Islands
      (some [claimDoc1, claimDoc2]) (some []) _ _ (by decide) rfl).1,
    (fetchIslandClaims_aggregates (exampleLibrary claimTable []) exampleGrid.Islands
      (some [claimDoc1, claimDoc2]) (some []) _ _ (by decide) rfl).2.1⟩

theorem completeClaim_dropped (islands : List (Int × IslandInstance)) (parsed : IslandClaim)
    (h : parsed.OwnerTribeID = 0 ∨ islands.lookup parsed.IslandID = none ∨
      ∃ island, islands.lookup parsed.IslandID = some island ∧ island.IslandPoints ≤ 0) :
    completeClaim islands parsed = none := by
  unfold completeClaim
  rcases h with h | h | ⟨island, hl, hp⟩
  · rw [if_pos h]
  · split
    · rfl
    · rw [h]
  · split
    · rfl
    · rw [hl]
      simp only
      rw [if_pos hp]

/-- C13, counterexample: the island table holds four islands of `2^62` points
each, and the store holds a claim of owner `5` on each of them. The map that
`fetchIslandClaims` returns has the entry of owner `5` with the four claims in
its list, and with the count `0`, which is not greater than `0`. -/
theorem fetchIslandClaims_count_not_positive :
    (fetchIslandClaims (exampleLibrary claimTable []) bigIslands
        (some [claimDoc1, claimDoc2, claimDoc3, claimDoc4]) (some [])).countOf = some [(5, 0)] ∧
    (fetchIslandClaims (exampleLibrary claimTable []) bigIslands
        (some [claimDoc1, claimDoc2, claimDoc3, claimDoc4]) (some [])).pointsOf =
      some [(5, [4611686018427387904, 4611686018427387904, 4611686018427387904,
        4611686018427387904])] := by
  decide

/-- C13, amended: a decoded claim whose owner id is 0, whose island id is not in
the island table, or whose island has `IslandPoints <= 0` changes nothing but
the checksum in its iteration of `fetchIslandClaims`: no entry of
`countPerTribe` is created, no list grows, and no count changes. Consequently,
whenever `fetchIslandClaims` returns a map of owners, for an island table whose
points are values of Go's `int`, every claim of every list has an owner other
than 0 and an island of the table with the points of the claim, which are
greater than 0; every entry has at least one claim; and every entry whose
points sum to less than `2^63` has a count greater than 0. -/
theorem fetchIslandClaims_drops (lib : Library) (islands : List (Int × IslandInstance))
    (claimsReply warsReply : Option (List Bytes)) (counts : List (Nat × TribeCount)) (crc : Nat)
    (hint : ∀ e ∈ islands, e.2.IslandPoints < 2 ^ 63)
    (h : fetchIslandClaims lib islands claimsReply warsReply = FetchResult.ok counts crc) :
    (∀ (s : FetchState) (v : Bytes) (parsed : IslandClaim),
      parseClaim lib v = some (some parsed) →
      (parsed.OwnerTribeID = 0 ∨ islands.lookup parsed.IslandID = none ∨
        ∃ island, islands.lookup parsed.IslandID = some island ∧ island.IslandPoints ≤ 0) →
      survivingClaim lib islands v = none ∧
      fetchIslandClaims.claimStep lib islands s v =
        some { s with hash := crc32.update s.hash v }) ∧
    (∀ e ∈ counts, e.2.islands ≠ [] ∧
      (pointsSum e.2.islands < 2 ^ 63 → 0 < e.2.count) ∧
      ∀ c ∈ e.2.islands, c.OwnerTribeID ≠ 0 ∧ 0 < c.IslandPoints ∧
        ∃ island, islands.lookup c.IslandID = some island ∧
          island.IslandPoints = c.IslandPoints) := by
  constructor
  · intro s v parsed hp hdrop
    have hc := completeClaim_dropped islands parsed hdrop
    constructor
    · unfold survivingClaim
      rw [hp]
      exact hc
    · unfold fetchIslandClaims.claimStep
      rw [hp]
      simp only
      rw [hc]
  · obtain ⟨raw, s, hraw, hbuild, hcounts, _⟩ :=
      fetchIslandClaims_ok lib islands claimsReply warsReply counts crc h
    obtain ⟨_, _, hall, _⟩ := build_sound lib islands hint raw warsReply s hbuild
    subst hcounts
    intro e he
    obtain ⟨t, ht, rfl⟩ := finish_mem s e he
    obtain ⟨h1, h2, h3⟩ := hall t ht
    have hkept : ∀ c ∈ t.islands.map Prod.snd, keptClaim islands c := by
      intro c hc
      obtain ⟨e, he, rfl⟩ := List.mem_map.mp hc
      exact (h3 e he).2.1
    have hpos := pointsSum_pos islands (t.islands.map Prod.snd) (by simpa using h1) hkept
    refine ⟨by simpa [TribeBuild.finish] using h1, ?_, hkept⟩
    intro hlt
    have hlt1 : pointsSum (t.islands.map Prod.snd) < 2 ^ 63 := hlt
    show 0 < t.count
    rw [h2, wrapInt64_of_range _ (by omega) hlt1]
    exact hpos

set_option maxRecDepth 100000 in
/-- C13, instance: the claims of owner `5` on the island `1` of `exampleGrid`, of
30 points, and on its island `3`, which has `-1` points: the second claim is
dropped, and the count of the owner is 30. -/
theorem fetchIslandClaims_drops_witness :
    (fetchIslandClaims (exampleLibrary claimTable []) exampleGrid.Islands
        (some [claimDoc1, claimDoc3]) (some [])).countOf = some [(5, 30)] ∧
    survivingClaim (exampleLibrary claimTable []) exampleGrid.Islands claimDoc3 = none ∧
    ∃ counts crc,
      fetchIslandClaims (exampleLibrary claimTable []) exampleGrid.Islands
        (some [claimDoc1, claimDoc3]) (some []) = FetchResult.ok counts crc ∧
      ∀ e ∈ counts, e.2.islands ≠ [] ∧
        (pointsSum e.2.islands < 2 ^ 63 → 0 < e.2.count) ∧
        ∀ c ∈ e.2.islands, c.OwnerTribeID ≠ 0 ∧ 0 < c.IslandPoints ∧
          ∃ island, exampleGrid.Islands.lookup c.IslandID = some island ∧
            island.IslandPoints = c.IslandPoints :=
  ⟨by decide,
    ((fetchIslandClaims_drops (exampleLibrary claimTable []) exampleGrid.Islands
      (some [claimDoc1, claimDoc3]) (some []) _ _ (by decide) rfl).1
      { hash := 0, created := 0, islands := [], countPerTribe := [] } claimDoc3
      { newIslandClaim with IslandID := 3, OwnerTribeID := 5 } rfl
      (Or.inr (Or.inr ⟨_, rfl, by decide⟩))).1,
    _, _, rfl,
    (fetchIslandClaims_drops (exampleLibrary claimTable []) exampleGrid.Islands
      (some [claimDoc1, claimDoc3]) (some []) _ _ (by decide) rfl).2⟩

/-! ### The repair of the two names -/

theorem stringsIndex_found (sub : Bytes) : ∀ (s : Bytes), sub.isPrefixOf s = true →
    stringsIndex s sub = some 0 := by
  intro s h
  cases s with
  | nil =>
    cases sub with
    | nil => rfl
    | cons a t => simp [List.isPrefixOf] at h
  | cons c s => simp [stringsIndex, h]

theorem stringsIndex_skip_byte (sub : Bytes) (c : Nat) (s : Bytes)
    (h : sub.isPrefixOf (c :: s) = false) :
    stringsIndex (c :: s) sub = (stringsIndex s sub).map (· + 1) := by
  simp [stringsIndex, h]

theorem stringsIndex_skip_commaFree (t : Bytes) : ∀ (p s : Bytes), (∀ b ∈ p, b ≠ 44) →
    stringsIndex (p ++ s) (44 :: t) = (stringsIndex s (44 :: t)).map (· + p.length) := by
  intro p
  induction p with
  | nil => intro s _; simp
  | cons b p ih =>
    intro s hp
    have hb : b ≠ 44 := hp b (List.mem_cons_self _ _)
    have hne : (44 :: t).isPrefixOf (b :: (p ++ s)) = false := by
      simp [List.isPrefixOf, Ne.symm hb]
    rw [List.cons_append, stringsIndex_skip_byte _ _ _ hne,
      ih s (fun b hb => hp b (List.mem_cons_of_mem _ hb))]
    cases stringsIndex s (44 :: t) with
    | none => rfl
    | some i => simp [Nat.add_assoc]

theorem stringsIndex_skip_name (x : Nat) (t : Bytes) (hx : x ≠ 44) :
    ∀ (name s : Bytes), hasCommaQuote name = false →
    stringsIndex (name ++ 34 :: 44 :: s) (44 :: 34 :: x :: t) =
      (stringsIndex (34 :: 44 :: s) (44 :: 34 :: x :: t)).map (· + name.length) := by
  intro name
  induction name with
  | nil => intro s _; simp
  | cons b name ih =>
    intro s hname
    have hrest : hasCommaQuote name = false := by
      cases name with
      | nil => rfl
      | cons b1 name1 =>
        simp only [hasCommaQuote, Bool.or_eq_false_iff] at hname
        exact hname.2
    have hne : (44 :: 34 :: x :: t).isPrefixOf (b :: (name ++ 34 :: 44 :: s)) = false := by
      cases name with
      | nil => simp [List.isPrefixOf, hx]
      | cons b1 name1 =>
        simp only [hasCommaQuote, Bool.or_eq_false_iff, Bool.and_eq_false_imp, beq_iff_eq] at hname
        by_cases hb : b = 44
        · have := hname.1 hb
          simp [List.isPrefixOf, hb]
          intro h1
          exact absurd h1.symm (by simpa using this)
        · simp [List.isPrefixOf, Ne.symm hb]
    rw [List.cons_append, stringsIndex_skip_byte _ _ _ hne, ih s hrest]
    cases stringsIndex (34 :: 44 :: s) (44 :: 34 :: x :: t) with
    | none => rfl
    | some i => simp [Nat.add_assoc]

theorem settlementMarker_bytes : settlementMarker =
    44 :: [34, 115, 101, 116, 116, 108, 101, 109, 101, 110, 116, 70, 108, 97, 103, 78, 97, 109,
      101, 34] := by
  decide

theorem ownerTribeMarker_bytes : ownerTribeMarker =
    44 :: [34, 111, 119, 110, 101, 114, 84, 114, 105, 98, 101, 73, 100, 34] := by
  decide

theorem ownerNameMarker_bytes : ownerNameMarker =
    44 :: [34, 111, 119, 110, 101, 114, 78, 97, 109, 101, 34] := by
  decide

theorem combatPhaseMarker_bytes : combatPhaseMarker =
    44 :: [34, 99, 111, 109, 98, 97, 116, 80, 104, 97, 115, 101, 83, 116, 97, 114, 116, 84, 105,
      109, 101, 34] := by
  decide

theorem stringsIndex_skip_marker (t m s : Bytes) (hm : ∀ b ∈ m, b ≠ 44)
    (hne : (44 :: t).isPrefixOf (44 :: (m ++ s)) = false) :
    stringsIndex (44 :: (m ++ s)) (44 :: t) =
      (stringsIndex s (44 :: t)).map (· + (m.length + 1)) := by
  rw [stringsIndex_skip_byte _ _ _ hne, stringsIndex_skip_commaFree t m s hm]
  cases stringsIndex s (44 :: t) with
  | none => rfl
  | some i => simp [Nat.add_assoc]

theorem stringsIndex_found_append (sub s : Bytes) : stringsIndex (sub ++ s) sub = some 0 := by
  apply stringsIndex_found
  rw [List.isPrefixOf_iff_prefix]
  exact List.prefix_append _ _

theorem index_settlementMarker (pre name mid owner rest : Bytes) (hpre : ∀ b ∈ pre, b ≠ 44) :
    stringsIndex (claimPayload pre name mid owner rest) settlementMarker = some pre.length := by
  unfold claimPayload
  generalize 58 :: 34 :: (name ++ (34 :: (ownerTribeMarker ++ (mid ++ (ownerNameMarker ++
    (58 :: 34 :: (owner ++ (34 :: (combatPhaseMarker ++ rest))))))))) = s
  have h := stringsIndex_found_append settlementMarker s
  rw [settlementMarker_bytes] at h ⊢
  rw [stringsIndex_skip_commaFree _ pre _ hpre, h]
  simp

theorem index_ownerTribeMarker (pre name mid owner rest : Bytes) (hpre : ∀ b ∈ pre, b ≠ 44)
    (hname : hasCommaQuote name = false) :
    stringsIndex (claimPayload pre name mid owner rest) ownerTribeMarker =
      some (pre.length + 23 + name.length + 1) := by
  unfold claimPayload
  generalize mid ++ (ownerNameMarker ++
    (58 :: 34 :: (owner ++ (34 :: (combatPhaseMarker ++ rest))))) = s
  have h := stringsIndex_found_append ownerTribeMarker s
  rw [settlementMarker_bytes, ownerTribeMarker_bytes] at *
  rw [stringsIndex_skip_commaFree _ pre _ hpre]
  have e1 : (44 :: [34, 115, 101, 116, 116, 108, 101, 109, 101, 110, 116, 70, 108, 97, 103, 78,
      97, 109, 101, 34]) ++ (58 :: 34 :: (name ++ (34 :: ((44 :: [34, 111, 119, 110, 101, 114,
      84, 114, 105, 98, 101, 73, 100, 34]) ++ s)))) =
      44 :: ([34, 115, 101, 116, 116, 108, 101, 109, 101, 110, 116, 70, 108, 97, 103, 78,
      97, 109, 101, 34, 58, 34] ++ (name ++ (34 :: 44 :: ([34, 111, 119, 110, 101, 114,
      84, 114, 105, 98, 101, 73, 100, 34] ++ s)))) := by
    simp
  rw [e1, stringsIndex_skip_marker _ _ _ (by decide) (by simp [List.isPrefixOf]),
    stringsIndex_skip_name 111 _ (by decide) name _ hname,
    stringsIndex_skip_byte _ 34 _ (by simp [List.isPrefixOf])]
  have e2 : 44 :: ([34, 111, 119, 110, 101, 114, 84, 114, 105, 98, 101, 73, 100, 34] ++ s) =
      (44 :: [34, 111, 119, 110, 101, 114, 84, 114, 105, 98, 101, 73, 100, 34]) ++ s := rfl
  rw [e2, h]
  simp
  omega

theorem index_ownerNameMarker (pre mid owner rest : Bytes) (hpre : ∀ b ∈ pre, b ≠ 44)
    (hmid : ∀ b ∈ mid, b ≠ 44) :
    stringsIndex (ownerPayload pre mid owner rest) ownerNameMarker =
      some (pre.length + 15 + mid.length) := by
  unfold ownerPayload
  generalize 58 :: 34 :: (owner ++ (34 :: (combatPhaseMarker ++ rest))) = s
  have h := stringsIndex_found_append ownerNameMarker s
  rw [ownerTribeMarker_bytes, ownerNameMarker_bytes] at *
  rw [stringsIndex_skip_commaFree _ pre _ hpre]
  have e1 : (44 :: [34, 111, 119, 110, 101, 114, 84, 114, 105, 98, 101, 73, 100, 34]) ++
      (mid ++ ((44 :: [34, 111, 119, 110, 101, 114, 78, 97, 109, 101, 34]) ++ s)) =
      44 :: ([34, 111, 119, 110, 101, 114, 84, 114, 105, 98, 101, 73, 100, 34] ++
      (mid ++ ((44 :: [34, 111, 119, 110, 101, 114, 78, 97, 109, 101, 34]) ++ s))) := rfl
  rw [e1, stringsIndex_skip_marker _ _ _ (by decide) (by simp [List.isPrefixOf]),
    stringsIndex_skip_commaFree _ mid _ hmid, h]
  simp
  omega

theorem index_combatPhaseMarker (pre mid owner rest : Bytes) (hpre : ∀ b ∈ pre, b ≠ 44)
    (hmid : ∀ b ∈ mid, b ≠ 44) (howner : hasCommaQuote owner = false) :
    stringsIndex (ownerPayload pre mid owner rest) combatPhaseMarker =
      some (pre.length + 15 + mid.length + 14 + owner.length + 1) := by
  unfold ownerPayload
  have h := stringsIndex_found_append combatPhaseMarker rest
  rw [ownerTribeMarker_bytes, ownerNameMarker_bytes, combatPhaseMarker_bytes] at *
  rw [stringsIndex_skip_commaFree _ pre _ hpre]
  have e1 : (44 :: [34, 111, 119, 110, 101, 114, 84, 114, 105, 98, 101, 73, 100, 34]) ++
      (mid ++ ((44 :: [34, 111, 119, 110, 101, 114, 78, 97, 109, 101, 34]) ++
        (58 :: 34 :: (owner ++ (34 :: ((44 :: [34, 99, 111, 109, 98, 97, 116, 80, 104, 97, 115,
          101, 83, 116, 97, 114, 116, 84, 105, 109, 101, 34]) ++ rest)))))) =
      44 :: ([34, 111, 119, 110, 101, 114, 84, 114, 105, 98, 101, 73, 100, 34] ++
      (mid ++ (44 :: ([34, 111, 119, 110, 101, 114, 78, 97, 109, 101, 34, 58, 34] ++
        (owner ++ (34 :: 44 :: ([34, 99, 111, 109, 98, 97, 116, 80, 104, 97, 115,
          101, 83, 116, 97, 114, 116, 84, 105, 109, 101, 34] ++ rest))))))) := by
    simp
  rw [e1, stringsIndex_skip_marker _ _ _ (by decide) (by simp [List.isPrefixOf]),
    stringsIndex_skip_commaFree _ mid _ hmid,
    stringsIndex_skip_marker _ _ _ (by decide) (by simp [List.isPrefixOf]),
    stringsIndex_skip_name 99 _ (by decide) owner _ howner,
    stringsIndex_skip_byte _ 34 _ (by simp [List.isPrefixOf])]
  have e2 : 44 :: ([34, 99, 111, 109, 98, 97, 116, 80, 104, 97, 115,
      101, 83, 116, 97, 114, 116, 84, 105, 109, 101, 34] ++ rest) =
      (44 :: [34, 99, 111, 109, 98, 97, 116, 80, 104, 97, 115,
      101, 83, 116, 97, 114, 116, 84, 105, 109, 101, 34]) ++ rest := rfl
  rw [e2, h]
  simp
  omega

theorem sliceBytes_middle (a name b : Bytes) (lo hi : Int) (hlo : lo = a.length)
    (hhi : hi = a.length + name.length) :
    sliceBytes (a ++ (name ++ b)) lo hi = some name := by
  subst hlo
  subst hhi
  unfold sliceBytes
  rw [if_pos (by simp)]
  congr 1
  have h1 : ((a.length : Int) + (name.length : Int)).toNat = a.length + name.length := by omega
  have h2 : ((a.length : Int)).toNat = a.length := by omega
  rw [h1, h2, ← List.append_assoc, List.take_left' (by simp), List.drop_left]

theorem removeAndFixSettlementName_payload (pre name mid owner rest : Bytes)
    (hpre : ∀ b ∈ pre, b ≠ 44) (hname : hasCommaQuote name = false) :
    removeAndFixSettlementName (claimPayload pre name mid owner rest) =
      some (ownerPayload pre mid owner rest, some (fixBadString name)) := by
  unfold removeAndFixSettlementName
  rw [index_settlementMarker pre name mid owner rest hpre,
    index_ownerTribeMarker pre name mid owner rest hpre hname]
  simp only
  have hslice : sliceBytes (claimPayload pre name mid owner rest) ((pre.length : Int) + 23)
      (((pre.length + 23 + name.length + 1 : Nat) : Int) - 1) = some name := by
    have e : claimPayload pre name mid owner rest =
        (pre ++ settlementMarker ++ [58, 34]) ++ (name ++ (34 :: (ownerTribeMarker ++ (mid ++
          (ownerNameMarker ++ (58 :: 34 :: (owner ++ (34 :: (combatPhaseMarker ++ rest))))))))) := by
      simp [claimPayload]
    rw [e]
    apply sliceBytes_middle
    · rw [settlementMarker_bytes]; simp
    · rw [settlementMarker_bytes]; simp
  rw [hslice]
  simp only [Option.some.injEq, Prod.mk.injEq, and_true]
  have e1 : claimPayload pre name mid owner rest =
      pre ++ ((settlementMarker ++ (58 :: 34 :: (name ++ [34]))) ++
        (ownerTribeMarker ++ (mid ++ (ownerNameMarker ++
          (58 :: 34 :: (owner ++ (34 :: (combatPhaseMarker ++ rest)))))))) := by
    simp [claimPayload]
  have hlen : (settlementMarker ++ (58 :: 34 :: (name ++ [34]))).length = 23 + name.length + 1 := by
    rw [settlementMarker_bytes]; simp; omega
  rw [e1, List.take_left' rfl]
  congr 1
  rw [show pre.length + 23 + name.length + 1 = pre.length + (23 + name.length + 1) by omega,
    List.drop_append, List.drop_left' hlen]

theorem removeAndFixOwnerName_payload (pre mid owner rest : Bytes)
    (hpre : ∀ b ∈ pre, b ≠ 44) (hmid : ∀ b ∈ mid, b ≠ 44)
    (howner : hasCommaQuote owner = false) :
    removeAndFixOwnerName (ownerPayload pre mid owner rest) =
      some (excisedPayload pre mid rest, some (fixBadString owner)) := by
  unfold removeAndFixOwnerName
  rw [index_ownerNameMarker pre mid owner rest hpre hmid,
    index_combatPhaseMarker pre mid owner rest hpre hmid howner]
  simp only
  have hslice : sliceBytes (ownerPayload pre mid owner rest)
      (((pre.length + 15 + mid.length : Nat) : Int) + 14)
      (((pre.length + 15 + mid.length + 14 + owner.length + 1 : Nat) : Int) - 1) = some owner := by
    have e : ownerPayload pre mid owner rest =
        (pre ++ ownerTribeMarker ++ mid ++ ownerNameMarker ++ [58, 34]) ++
          (owner ++ (34 :: (combatPhaseMarker ++ rest))) := by
      simp [ownerPayload]
    rw [e]
    apply sliceBytes_middle
    · rw [ownerTribeMarker_bytes, ownerNameMarker_bytes]; simp; omega
    · rw [ownerTribeMarker_bytes, ownerNameMarker_bytes]; simp; omega
  rw [hslice]
  simp only [Option.some.injEq, Prod.mk.injEq, and_true]
  have e1 : ownerPayload pre mid owner rest =
      (pre ++ (ownerTribeMarker ++ mid)) ++ ((ownerNameMarker ++ (58 :: 34 :: (owner ++ [34]))) ++
        (combatPhaseMarker ++ rest)) := by
    simp [ownerPayload]
  have hlen0 : (pre ++ (ownerTribeMarker ++ mid)).length = pre.length + 15 + mid.length := by
    rw [ownerTribeMarker_bytes]; simp; omega
  have hlen : (ownerNameMarker ++ (58 :: 34 :: (owner ++ [34]))).length = 14 + owner.length + 1 := by
    rw [ownerNameMarker_bytes]; simp; omega
  rw [e1, List.take_left' hlen0]
  unfold excisedPayload
  rw [show pre.length + 15 + mid.length + 14 + owner.length + 1 =
      (pre ++ (ownerTribeMarker ++ mid)).length + (14 + owner.length + 1) by rw [hlen0]; omega,
    List.drop_append, List.drop_left' hlen]
  simp

theorem fixBadString_loop_ascii : ∀ (fuel : Nat) (s : Bytes) (out : String),
    s.length ≤ fuel → (∀ b ∈ s, b < 128) →
    fixBadString.loop fuel s out =
      s.foldl (fun out b => if 32 ≤ b ∧ b ≤ 126 then out.push (Char.ofNat b) else out ++ "[]")
        out := by
  intro fuel
  induction fuel with
  | zero =>
    intro s out hlen _
    have : s = [] := List.length_eq_zero.mp (by omega)
    subst this
    rfl
  | succ fuel ih =>
    intro s out hlen hs
    cases s with
    | nil => rfl
    | cons b rest =>
      have hb : b < 128 := hs b (List.mem_cons_self _ _)
      have hdec : decodeRune (b :: rest) = (b, 1) := by
        simp [decodeRune, hb]
      simp only [fixBadString.loop, hdec, List.drop_succ_cons, List.drop_zero, List.foldl_cons]
      exact ih rest _ (by simpa using hlen) (fun b hb => hs b (List.mem_cons_of_mem _ hb))

theorem fixBadString_ascii (s : Bytes) (hs : ∀ b ∈ s, b < 128) :
    fixBadString s = replaceUnprintable s :=
  fixBadString_loop_ascii s.length s "" (le_refl _) hs

theorem replaceUnprintable_printable_aux : ∀ (s : Bytes) (out : String),
    (∀ b ∈ s, 32 ≤ b ∧ b ≤ 126) →
    s.foldl (fun out b => if 32 ≤ b ∧ b ≤ 126 then out.push (Char.ofNat b) else out ++ "[]") out =
      String.mk (out.data ++ s.map Char.ofNat) := by
  intro s
  induction s with
  | nil => intro out _; simp
  | cons b rest ih =>
    intro out hs
    rw [List.foldl_cons, if_pos (hs b (List.mem_cons_self _ _)),
      ih _ (fun b hb => hs b (List.mem_cons_of_mem _ hb))]
    simp [String.push]

theorem fixBadString_printable (s : Bytes) (hs : ∀ b ∈ s, 32 ≤ b ∧ b ≤ 126) :
    fixBadString s = String.mk (s.map Char.ofNat) := by
  rw [fixBadString_ascii s (fun b hb => by have := hs b hb; omega)]
  unfold replaceUnprintable
  rw [replaceUnprintable_printable_aux s "" hs]
  simp

set_option maxRecDepth 100000 in
/-- C19, counterexample: the document `repairDoc` has the documented fields in
the documented order, without white space, and is well formed but for the raw
line feed in its settlement name `Port Royal`; its owner name is `Zoë`. The
first parse fails, and the repair path yields the claim of island `1` and owner
`5` with the settlement name `Port[]Royal` and with the owner name `Zo[]`,
which is not the owner name `Zoë` that the document encodes. -/
theorem parseClaim_changes_ownerName :
    repairDoc = utf8 ("\x7b\"islandId\":1,\"settlementFlagName\":\"Port\nRoyal\"," ++
      "\"ownerTribeId\":5,\"ownerName\":\"Zoë\",\"combatPhaseStartTime\":0," ++
      "\"lastUTCTimeAdjustedCombatPhase\":0,\"taxRate\":10,\"bIsContested\":false," ++
      "\"numSettlers\":3\x7d") ∧
    ((exampleLibrary repairTable []).unmarshalClaim repairDoc newIslandClaim).2 = true ∧
    parsedNames (parseClaim (exampleLibrary repairTable []) repairDoc) =
      some ("Port[]Royal", "Zo[]", 1, 5) ∧
    "Zo[]" ≠ "Zoë" := by
  decide

/-- C19, amended: let a claim document have the documented fields in the
documented order, without white space: `pre` before the field
`settlementFlagName` and `mid` between `"ownerTribeId"` and the field
`ownerName` hold no comma, and the texts `name` and `owner` between the quotes
of the two names hold no comma directly followed by a double quote. When the
first parse of the document fails and the parse of the document without the
two name fields succeeds, the repair path of `fetchIslandClaims` yields the
claim that the second parse decodes, with `SettlementFlagName` set to
`fixBadString name` and `OwnerName` set to `fixBadString owner`. For a name of
ASCII characters, `fixBadString` replaces every character outside the range 32
to 126 by `[]` and keeps the others; for a name of printable ASCII characters
it returns the name. -/
theorem parseClaim_repairs_names (lib : Library) (pre name mid owner rest : Bytes)
    (hpre : ∀ b ∈ pre, b ≠ 44) (hmid : ∀ b ∈ mid, b ≠ 44)
    (hname : hasCommaQuote name = false) (howner : hasCommaQuote owner = false)
    (hfirst : (lib.unmarshalClaim (claimPayload pre name mid owner rest) newIslandClaim).2 = true)
    (hsecond : (lib.unmarshalClaim (excisedPayload pre mid rest)
      (lib.unmarshalClaim (claimPayload pre name mid owner rest) newIslandClaim).1).2 = false) :
    parseClaim lib (claimPayload pre name mid owner rest) =
      some (some { (lib.unmarshalClaim (excisedPayload pre mid rest)
        (lib.unmarshalClaim (claimPayload pre name mid owner rest) newIslandClaim).1).1 with
        SettlementFlagName := fixBadString name
        OwnerName := fixBadString owner }) ∧
    ((∀ b ∈ name, b < 128) → fixBadString name = replaceUnprintable name) ∧
    ((∀ b ∈ owner, b < 128) → fixBadString owner = replaceUnprintable owner) ∧
    ((∀ b ∈ owner, 32 ≤ b ∧ b ≤ 126) → fixBadString owner = String.mk (owner.map Char.ofNat)) := by
  refine ⟨?_, fixBadString_ascii name, fixBadString_ascii owner, fixBadString_printable owner⟩
  unfold parseClaim
  simp only
  rw [if_pos hfirst, removeAndFixSettlementName_payload pre name mid owner rest hpre hname]
  simp only
  rw [removeAndFixOwnerName_payload pre mid owner rest hpre hmid howner]
  simp only
  rw [if_neg (by rw [hsecond]; simp)]
  rfl

set_option maxRecDepth 100000 in
/-- C19, instance: the document `repairDoc`, with the settlement name
`Port Royal` with a raw line feed and the owner name `Zoë`. -/
theorem parseClaim_repairs_names_witness :
    parsedNames (parseClaim (exampleLibrary repairTable []) repairDoc) =
      some (fixBadString (utf8 "Port\nRoyal"), fixBadString (utf8 "Zoë"), 1, 5) ∧
    fixBadString (utf8 "Port\nRoyal") = replaceUnprintable (utf8 "Port\nRoyal") ∧
    replaceUnprintable (utf8 "Port\nRoyal") = "Port[]Royal" :=
  ⟨by
    rw [show repairDoc = claimPayload examplePre (utf8 "Port\nRoyal") exampleMid (utf8 "Zoë")
      exampleRest from rfl,
      (parseClaim_repairs_names (exampleLibrary repairTable []) examplePre (utf8 "Port\nRoyal")
        exampleMid (utf8 "Zoë") exampleRest (by decide) (by decide) (by decide) (by decide)
        (by decide) (by decide)).1]
    rfl,
   (parseClaim_repairs_names (exampleLibrary repairTable []) examplePre (utf8 "Port\nRoyal")
      exampleMid (utf8 "Zoë") exampleRest (by decide) (by decide) (by decide) (by decide)
      (by decide) (by decide)).2.1 (by decide),
   by decide⟩

/-! ### A name field that is not found -/

theorem scan_queue_inv (s : PipelineState) (key : String) (done : List String)
    (h1 : s.executed.flatten ++ s.pipe = done) (h2 : s.batch = s.pipe.length)
    (h3 : s.batch ≤ 2000) (h4 : ∀ b ∈ s.executed, b.length = 2001) :
    (scan.queue s key).executed.flatten ++ (scan.queue s key).pipe = done ++ [key] ∧
    (scan.queue s key).batch = (scan.queue s key).pipe.length ∧
    (scan.queue s key).batch ≤ 2000 ∧
    ∀ b ∈ (scan.queue s key).executed, b.length = 2001 := by
  unfold scan.queue
  simp only
  split
  · next hgt =>
    refine ⟨?_, rfl, by simp, ?_⟩
    · simp [← h1]
    · intro b hb
      rcases List.mem_append.mp hb with h | h
      · exact h4 b h
      · rw [List.mem_singleton] at h
        subst h
        simp
        omega
  · next hle =>
    refine ⟨?_, ?_, ?_, h4⟩
    · simp [← h1]
    · simp [h2]
    · show s.batch + 1 ≤ 2000
      omega

theorem scan_foldl_inv : ∀ (keys : List String) (s : PipelineState) (done : List String),
    s.executed.flatten ++ s.pipe = done → s.batch = s.pipe.length → s.batch ≤ 2000 →
    (∀ b ∈ s.executed, b.length = 2001) →
    (keys.foldl scan.queue s).executed.flatten ++ (keys.foldl scan.queue s).pipe = done ++ keys ∧
    (keys.foldl scan.queue s).batch = (keys.foldl scan.queue s).pipe.length ∧
    (keys.foldl scan.queue s).batch ≤ 2000 ∧
    ∀ b ∈ (keys.foldl scan.queue s).executed, b.length = 2001 := by
  intro keys
  induction keys with
  | nil => intro s done h1 h2 h3 h4; exact ⟨by simpa using h1, h2, h3, h4⟩
  | cons key rest ih =>
    intro s done h1 h2 h3 h4
    obtain ⟨g1, g2, g3, g4⟩ := scan_queue_inv s key done h1 h2 h3 h4
    have := ih (scan.queue s key) (done ++ [key]) g1 g2 g3 g4
    simpa using this

/-- C26. For every list of keys, the pipeline executions of `scan` carry, one
after the other, exactly the requests for the keys in key order, each request
in one execution; no execution is empty, none carries more than 2001 requests,
and every execution but the last carries exactly 2001. -/
theorem scan_executions_spec (keys : List String) :
    (scan.executions keys).flatten = keys ∧
    (∀ b ∈ scan.executions keys, b ≠ [] ∧ b.length ≤ 2001) ∧
    (∀ b ∈ (scan.executions keys).dropLast, b.length = 2001) := by
  obtain ⟨g1, g2, g3, g4⟩ := scan_foldl_inv keys { executed := [], pipe := [], batch := 0 } []
    rfl rfl (by simp) (by simp)
  unfold scan.executions
  simp only
  split
  · next hpos =>
    refine ⟨by simpa using g1, ?_, ?_⟩
    · intro b hb
      rcases List.mem_append.mp hb with h | h
      · have := g4 b h
        exact ⟨by intro hn; rw [hn] at this; simp at this, by omega⟩
      · rw [List.mem_singleton] at h
        subst h
        exact ⟨by intro hn; rw [hn] at g2; simp at g2; omega, by omega⟩
    · intro b hb
      rw [List.dropLast_concat] at hb
      exact g4 b hb
  · next hzero =>
    have hpipe : (keys.foldl scan.queue { executed := [], pipe := [], batch := 0 }).pipe = [] := by
      apply List.length_eq_zero.mp
      omega
    refine ⟨by simpa [hpipe] using g1, ?_, ?_⟩
    · intro b hb
      have := g4 b hb
      exact ⟨by intro hn; rw [hn] at this; simp at this, by omega⟩
    · intro b hb
      exact g4 b (List.mem_of_mem_dropLast hb)

/-- C26, instance: three keys are fetched in one execution. -/
theorem scan_executions_spec_witness :
    scan.executions ["entityinfo:1", "entityinfo:2", "entityinfo:3"] =
      [["entityinfo:1", "entityinfo:2", "entityinfo:3"]] ∧
    (["entityinfo:1", "entityinfo:2", "entityinfo:3"] ≠ [] ∧
      ["entityinfo:1", "entityinfo:2", "entityinfo:3"].length ≤ 2001) :=
  ⟨by decide,
    (scan_executions_spec ["entityinfo:1", "entityinfo:2", "entityinfo:3"]).2.1
      ["entityinfo:1", "entityinfo:2", "entityinfo:3"] (by decide)⟩

/-! ### The names of the companies in `generateIslandData` -/

theorem backfillName_of_nonempty (name : String) (islands : List IslandClaim)
    (h : name.length ≠ 0) : backfillName name islands = name := by
  unfold backfillName
  induction islands with
  | nil => rfl
  | cons c rest ih =>
    rw [List.foldl_cons, if_neg h]
    exact ih

theorem backfillName_of_empty (name : String) (hname : name.length = 0) :
    ∀ (islands : List IslandClaim), backfillName name islands = firstOwnerName islands := by
  intro islands
  induction islands with
  | nil =>
    simp only [backfillName, firstOwnerName, List.foldl_nil, List.find?_nil]
    exact String.ext (List.length_eq_zero.mp hname)
  | cons c rest ih =>
    by_cases hc : c.OwnerName.length = 0
    · have h1 : backfillName name (c :: rest) = backfillName c.OwnerName rest := by
        simp only [backfillName, List.foldl_cons, if_pos hname]
      have h2 : firstOwnerName (c :: rest) = firstOwnerName rest := by
        simp only [firstOwnerName, List.find?_cons, hc, ne_eq, not_true_eq_false, decide_False]
      have h3 : backfillName c.OwnerName rest = backfillName name rest := by
        have e : c.OwnerName = name :=
          String.ext ((List.length_eq_zero.mp hc).trans (List.length_eq_zero.mp hname).symm)
        rw [e]
      rw [h1, h2, h3, ih]
    · have h1 : backfillName name (c :: rest) = backfillName c.OwnerName rest := by
        simp only [backfillName, List.foldl_cons, if_pos hname]
      rw [h1, backfillName_of_nonempty _ _ hc]
      simp [firstOwnerName, List.find?_cons, hc]

theorem generateIslandData_companies_aux (virtualPixels : Int) :
    ∀ (tribes : List TribeCount) (output : IslandOutput),
    (tribes.foldl (generateIslandData.step virtualPixels) output).Companies =
      output.Companies ++ tribes.map (fun tribe =>
        { TribeID := tribe.tribeID
          TribeName := backfillName tribe.name tribe.islands
          FlagURL := tribe.flagURL }) := by
  intro tribes
  induction tribes with
  | nil => intro output; simp
  | cons t rest ih =>
    intro output
    rw [List.foldl_cons, ih]
    simp [generateIslandData.step]

/-- C25, counterexample: the aggregate of owner `5` has no name, its first claim
has the empty owner name and its second claim the owner name `Bob`. The
company summary that `generateIslandData` writes for the owner has the
`TribeName` `Bob`, which is not the `OwnerName` of the first claim. -/
theorem generateIslandData_name_of_second_claim :
    ((generateIslandData 0 [unnamedFirst] 1).Companies.map (fun c => (c.TribeID, c.TribeName))) =
      [(5, "Bob")] ∧
    unnamedFirst.name = "" ∧
    unnamedFirst.islands.map (fun island => island.OwnerName) = ["", "Bob"] := by
  decide

/-- C25, amended: `generateIslandData` writes one company summary for each owner
aggregate, in the order in which it visits them, and for every aggregate whose
name is not already set the `TribeName` of its summary is the `OwnerName` of
the first claim of its list whose `OwnerName` is not empty, and the empty text
when there is none; so it is the `OwnerName` of the first claim of the list
whenever that one is not empty. -/
theorem generateIslandData_company_names (now : Int) (tribes : List TribeCount)
    (virtualPixels : Int) :
    (generateIslandData now tribes virtualPixels).Companies =
      tribes.map (fun tribe =>
        { TribeID := tribe.tribeID
          TribeName := backfillName tribe.name tribe.islands
          FlagURL := tribe.flagURL }) ∧
    (∀ tribe ∈ tribes, tribe.name.length = 0 →
      backfillName tribe.name tribe.islands = firstOwnerName tribe.islands) ∧
    (∀ tribe ∈ tribes, tribe.name.length = 0 →
      ∀ (first : IslandClaim) (rest : List IslandClaim), tribe.islands = first :: rest →
        first.OwnerName.length ≠ 0 →
        backfillName tribe.name tribe.islands = first.OwnerName) := by
  refine ⟨?_, ?_, ?_⟩
  · unfold generateIslandData
    rw [generateIslandData_companies_aux]
    simp
  · intro tribe _ hname
    exact backfillName_of_empty _ hname _
  · intro tribe _ hname first rest hlist hfirst
    rw [backfillName_of_empty _ hname, hlist]
    simp [firstOwnerName, List.find?_cons, hfirst]

/-- C25, instance: the aggregate of owner `6`, without name, whose first claim
has the owner name `Ann`. -/
theorem generateIslandData_company_names_witness :
    ((generateIslandData 0 [namedFirst] 1).Companies.map (fun c => (c.TribeID, c.TribeName))) =
      [(6, "Ann")] ∧
    backfillName namedFirst.name namedFirst.islands = "Ann" :=
  ⟨by decide,
    (generateIslandData_company_names 0 [namedFirst] 1).2.2 namedFirst (List.mem_singleton.mpr rfl)
      rfl _ _ rfl (by decide)⟩

/-! ### `fixBadString` -/

theorem utf8Char_ne_nil (c : Char) : ∃ b t, utf8Char c = b :: t := by
  unfold utf8Char
  simp only
  split
  · exact ⟨_, _, rfl⟩
  · split
    · exact ⟨_, _, rfl⟩
    · split
      · exact ⟨_, _, rfl⟩
      · exact ⟨_, _, rfl⟩

theorem char_valid_nat (c : Char) : c.toNat < 55296 ∨ (57343 < c.toNat ∧ c.toNat < 1114112) :=
  c.valid

theorem decodeRune_utf8Char (c : Char) (rest : Bytes) :
    decodeRune (utf8Char c ++ rest) = (c.toNat, (utf8Char c).length) := by
  have hv := char_valid_nat c
  unfold utf8Char
  simp only
  generalize c.toNat = n at hv
  by_cases h1 : n < 128
  · rw [if_pos h1]
    simp only [List.singleton_append, decodeRune, if_pos h1, List.length_singleton]
  · rw [if_neg h1]
    by_cases h2 : n < 2048
    · rw [if_pos h2]
      simp only [List.cons_append, List.nil_append, decodeRune, List.length_cons,
        List.length_nil]
      rw [if_neg (by omega), if_pos (by omega), if_pos (by omega)]
      congr 1
      omega
    · rw [if_neg h2]
      by_cases h3 : n < 65536
      · rw [if_pos h3]
        simp only [List.cons_append, List.nil_append, decodeRune, List.length_cons,
          List.length_nil]
        rw [if_neg (by omega), if_neg (by omega), if_pos (by omega)]
        rw [if_pos (by split_ifs <;> omega), if_pos (by omega)]
        congr 1
        omega
      · rw [if_neg h3]
        simp only [List.cons_append, List.nil_append, decodeRune, List.length_cons,
          List.length_nil]
        rw [if_neg (by omega), if_neg (by omega), if_neg (by omega), if_pos (by omega)]
        rw [if_pos (by split_ifs <;> omega), if_pos (by omega), if_pos (by omega)]
        congr 1
        omega

theorem fixBadString_loop_utf8 : ∀ (cs : List Char) (fuel : Nat) (out : String),
    (cs.flatMap utf8Char).length ≤ fuel →
    (fixBadString.loop fuel (cs.flatMap utf8Char) out).data =
      out.data ++ cs.flatMap (fun c => if isPrintable c then [c] else ['[', ']']) := by
  intro cs
  induction cs with
  | nil =>
    intro fuel out _
    cases fuel <;> simp [fixBadString.loop]
  | cons c cs ih =>
    intro fuel out hlen
    obtain ⟨b, t, hbt⟩ := utf8Char_ne_nil c
    have hdec := decodeRune_utf8Char c (cs.flatMap utf8Char)
    rw [List.flatMap_cons] at hlen ⊢
    cases fuel with
    | zero => rw [hbt] at hlen; simp at hlen
    | succ fuel =>
      have hstep : fixBadString.loop (fuel + 1) (utf8Char c ++ cs.flatMap utf8Char) out =
          fixBadString.loop fuel (cs.flatMap utf8Char)
            (if 32 ≤ c.toNat ∧ c.toNat ≤ 126 then out.push (Char.ofNat c.toNat)
             else out ++ "[]") := by
        have hcons : utf8Char c ++ cs.flatMap utf8Char = b :: (t ++ cs.flatMap utf8Char) := by
          rw [hbt]; rfl
        rw [hcons] at hdec ⊢
        simp only [fixBadString.loop, hdec]
        rw [← hcons, List.drop_left]
      rw [hstep, ih fuel _ (by
        rw [List.length_append, hbt, List.length_cons] at hlen; omega)]
      rw [List.flatMap_cons, Char.ofNat_toNat]
      by_cases hp : 32 ≤ c.toNat ∧ c.toNat ≤ 126
      · rw [if_pos hp, if_pos (show isPrintable c from hp), String.data_push]
        simp
      · rw [if_neg hp, if_neg (show ¬ isPrintable c from hp), String.data_append]
        simp

theorem ofNat_printable (n : Nat) (h : 32 ≤ n ∧ n ≤ 126) : isPrintable (Char.ofNat n) := by
  obtain ⟨h1, h2⟩ := h
  interval_cases n <;> decide

theorem fixBadString_loop_printable : ∀ (fuel : Nat) (s : Bytes) (out : String),
    (∀ c ∈ out.data, isPrintable c) →
    ∀ c ∈ (fixBadString.loop fuel s out).data, isPrintable c := by
  intro fuel
  induction fuel with
  | zero => intro s out hout; simpa [fixBadString.loop] using hout
  | succ fuel ih =>
    intro s out hout
    cases s with
    | nil => simpa [fixBadString.loop] using hout
    | cons b rest =>
      simp only [fixBadString.loop]
      apply ih
      split
      · next hp =>
        intro c hc
        rw [String.data_push] at hc
        rcases List.mem_append.mp hc with h | h
        · exact hout c h
        · rw [List.mem_singleton] at h
          rw [h]
          exact ofNat_printable _ hp
      · intro c hc
        rw [String.data_append] at hc
        rcases List.mem_append.mp hc with h | h
        · exact hout c h
        · have h' : c = '[' ∨ c = ']' := by simpa using h
          rcases h' with rfl | rfl <;> decide

theorem toNat_ofNat_valid (n : Nat) (h : n.isValidChar) : (Char.ofNat n).toNat = n := by
  unfold Char.ofNat
  rw [dif_pos h]
  rfl

/-- A rune that `decodeRune` reads as other than the error of width 1 is a
character whose encoding starts the string. -/
theorem exists_char_of_decodeRune (b0 : Nat) (rest : Bytes)
    (h : decodeRune (b0 :: rest) ≠ (65533, 1)) :
    ∃ c : Char, ∃ tail : Bytes, b0 :: rest = utf8Char c ++ tail := by
  by_cases h1 : b0 < 128
  · refine ⟨Char.ofNat b0, rest, ?_⟩
    have hn : (Char.ofNat b0).toNat = b0 := toNat_ofNat_valid b0 (Or.inl (by omega))
    simp only [utf8Char, hn, if_pos h1, List.singleton_append]
  · by_cases h2 : 194 ≤ b0 ∧ b0 ≤ 223
    · cases rest with
      | nil => exact absurd (by simp [decodeRune, h1, h2]) h
      | cons b1 rest1 =>
        by_cases hb1 : 128 ≤ b1 ∧ b1 ≤ 191
        · refine ⟨Char.ofNat (b0 % 32 * 64 + b1 % 64), rest1, ?_⟩
          have hn : (Char.ofNat (b0 % 32 * 64 + b1 % 64)).toNat = b0 % 32 * 64 + b1 % 64 :=
            toNat_ofNat_valid _ (Or.inl (by omega))
          simp only [utf8Char, hn]
          rw [if_neg (by omega), if_pos (by omega)]
          simp only [List.cons_append, List.nil_append]
          rw [show 192 + (b0 % 32 * 64 + b1 % 64) / 64 = b0 by omega,
            show 128 + (b0 % 32 * 64 + b1 % 64) % 64 = b1 by omega]
        · exact absurd (by simp [decodeRune, h1, h2, hb1]) h
    · by_cases h3 : 224 ≤ b0 ∧ b0 ≤ 239
      · cases rest with
        | nil => exact absurd (by simp [decodeRune, h1, h2, h3]) h
        | cons b1 rest1 =>
          cases rest1 with
          | nil => exact absurd (by simp [decodeRune, h1, h2, h3]) h
          | cons b2 rest2 =>
            by_cases hb1 : (if b0 = 224 then 160 else 128) ≤ b1 ∧
                b1 ≤ (if b0 = 237 then 159 else 191)
            · by_cases hb2 : 128 ≤ b2 ∧ b2 ≤ 191
              · have hb1a : (if b0 = 224 then 160 else 128) ≤ b1 := hb1.1
                have hb1b : b1 ≤ (if b0 = 237 then 159 else 191) := hb1.2
                have hlo : b0 = 224 → 160 ≤ b1 := by intro e; rw [if_pos e] at hb1a; exact hb1a
                have hlo2 : 128 ≤ b1 := by split at hb1a <;> omega
                have hhi : b0 = 237 → b1 ≤ 159 := by intro e; rw [if_pos e] at hb1b; exact hb1b
                have hhi2 : b1 ≤ 191 := by split at hb1b <;> omega
                refine ⟨Char.ofNat (b0 % 16 * 4096 + b1 % 64 * 64 + b2 % 64), rest2, ?_⟩
                have hvalid : (b0 % 16 * 4096 + b1 % 64 * 64 + b2 % 64).isValidChar := by
                  by_cases e : b0 ≤ 236
                  · exact Or.inl (by omega)
                  · by_cases e2 : b0 = 237
                    · have := hhi e2
                      exact Or.inl (by omega)
                    · exact Or.inr ⟨by omega, by omega⟩
                have hn := toNat_ofNat_valid _ hvalid
                simp only [utf8Char, hn]
                have hge : 2048 ≤ b0 % 16 * 4096 + b1 % 64 * 64 + b2 % 64 := by
                  by_cases e : b0 = 224
                  · have := hlo e
                    omega
                  · omega
                rw [if_neg (by omega), if_neg (by omega), if_pos (by omega)]
                simp only [List.cons_append, List.nil_append]
                rw [show 224 + (b0 % 16 * 4096 + b1 % 64 * 64 + b2 % 64) / 4096 = b0 by omega,
                  show 128 + (b0 % 16 * 4096 + b1 % 64 * 64 + b2 % 64) / 64 % 64 = b1 by omega,
                  show 128 + (b0 % 16 * 4096 + b1 % 64 * 64 + b2 % 64) % 64 = b2 by omega]
              · exact absurd (by simp [decodeRune, h1, h2, h3, hb1, hb2]) h
            · exact absurd (by simp [decodeRune, h1, h2, h3, hb1]) h
      · by_cases h4 : 240 ≤ b0 ∧ b0 ≤ 244
        · cases rest with
          | nil => exact absurd (by simp [decodeRune, h1, h2, h3, h4]) h
          | cons b1 rest1 =>
            cases rest1 with
            | nil => exact absurd (by simp [decodeRune, h1, h2, h3, h4]) h
            | cons b2 rest2 =>
              cases rest2 with
              | nil => exact absurd (by simp [decodeRune, h1, h2, h3, h4]) h
              | cons b3 rest3 =>
                by_cases hb1 : (if b0 = 240 then 144 else 128) ≤ b1 ∧
                    b1 ≤ (if b0 = 244 then 143 else 191)
                · by_cases hb2 : 128 ≤ b2 ∧ b2 ≤ 191
                  · by_cases hb3 : 128 ≤ b3 ∧ b3 ≤ 191
                    · have hb1a : (if b0 = 240 then 144 else 128) ≤ b1 := hb1.1
                      have hb1b : b1 ≤ (if b0 = 244 then 143 else 191) := hb1.2
                      have hlo : b0 = 240 → 144 ≤ b1 := by
                        intro e; rw [if_pos e] at hb1a; exact hb1a
                      have hlo2 : 128 ≤ b1 := by split at hb1a <;> omega
                      have hhi : b0 = 244 → b1 ≤ 143 := by
                        intro e; rw [if_pos e] at hb1b; exact hb1b
                      have hhi2 : b1 ≤ 191 := by split at hb1b <;> omega
                      refine ⟨Char.ofNat
                        (b0 % 8 * 262144 + b1 % 64 * 4096 + b2 % 64 * 64 + b3 % 64), rest3, ?_⟩
                      have hge : 65536 ≤
                          b0 % 8 * 262144 + b1 % 64 * 4096 + b2 % 64 * 64 + b3 % 64 := by
                        by_cases e : b0 = 240
                        · have := hlo e
                          omega
                        · omega
                      have hlt : b0 % 8 * 262144 + b1 % 64 * 4096 + b2 % 64 * 64 + b3 % 64 <
                          1114112 := by
                        by_cases e : b0 = 244
                        · have := hhi e
                          omega
                        · omega
                      have hn := toNat_ofNat_valid _ (Or.inr ⟨by omega, hlt⟩)
                      simp only [utf8Char, hn]
                      rw [if_neg (by omega), if_neg (by omega), if_neg (by omega)]
                      simp only [List.cons_append, List.nil_append]
                      rw [show 240 + (b0 % 8 * 262144 + b1 % 64 * 4096 + b2 % 64 * 64 + b3 % 64)
                            / 262144 = b0 by omega,
                        show 128 + (b0 % 8 * 262144 + b1 % 64 * 4096 + b2 % 64 * 64 + b3 % 64)
                            / 4096 % 64 = b1 by omega,
                        show 128 + (b0 % 8 * 262144 + b1 % 64 * 4096 + b2 % 64 * 64 + b3 % 64)
                            / 64 % 64 = b2 by omega,
                        show 128 + (b0 % 8 * 262144 + b1 % 64 * 4096 + b2 % 64 * 64 + b3 % 64)
                            % 64 = b3 by omega]
                    · exact absurd (by simp [decodeRune, h1, h2, h3, h4, hb1, hb2, hb3]) h
                  · exact absurd (by simp [decodeRune, h1, h2, h3, h4, hb1, hb2]) h
                · exact absurd (by simp [decodeRune, h1, h2, h3, h4, hb1]) h
        · exact absurd (by simp [decodeRune, h1, h2, h3, h4]) h

theorem decodeRune_size_pos (b0 : Nat) (rest : Bytes) : 1 ≤ (decodeRune (b0 :: rest)).2 := by
  by_cases h : decodeRune (b0 :: rest) = (65533, 1)
  · rw [h]
  · obtain ⟨c, tail, hc⟩ := exists_char_of_decodeRune b0 rest h
    obtain ⟨b, t, hbt⟩ := utf8Char_ne_nil c
    rw [hc, decodeRune_utf8Char, hbt]
    simp

theorem fixBadString_loop_acc : ∀ (n : Nat) (s : Bytes), s.length ≤ n →
    ∀ (fuel : Nat) (out : String), s.length ≤ fuel →
    (fixBadString.loop fuel s out).data = out.data ++ (fixBadString s).data := by
  intro n
  induction n with
  | zero =>
    intro s hs fuel out _
    have : s = [] := List.length_eq_zero.mp (by omega)
    subst this
    cases fuel <;> simp [fixBadString, fixBadString.loop]
  | succ n ih =>
    intro s hs fuel out hfuel
    cases s with
    | nil => cases fuel <;> simp [fixBadString, fixBadString.loop]
    | cons b0 rest =>
      have hpos := decodeRune_size_pos b0 rest
      have hdrop : ((b0 :: rest).drop (decodeRune (b0 :: rest)).2).length ≤ n := by
        rw [List.length_drop]
        simp only [List.length_cons] at hs ⊢
        omega
      cases fuel with
      | zero => simp at hfuel
      | succ fuel =>
        have hfuel1 : ((b0 :: rest).drop (decodeRune (b0 :: rest)).2).length ≤ fuel := by
          rw [List.length_drop]
          simp only [List.length_cons] at hfuel ⊢
          omega
        have hself : ((b0 :: rest).drop (decodeRune (b0 :: rest)).2).length ≤ rest.length := by
          rw [List.length_drop]
          simp only [List.length_cons]
          omega
        have e1 : fixBadString (b0 :: rest) =
            fixBadString.loop rest.length ((b0 :: rest).drop (decodeRune (b0 :: rest)).2)
              (if 32 ≤ (decodeRune (b0 :: rest)).1 ∧ (decodeRune (b0 :: rest)).1 ≤ 126 then
                ("" : String).push (Char.ofNat (decodeRune (b0 :: rest)).1)
               else "" ++ "[]") := rfl
        rw [e1]
        simp only [fixBadString.loop]
        rw [ih _ hdrop fuel _ hfuel1, ih _ hdrop rest.length _ hself]
        split <;> simp [String.data_push, String.data_append]

/-- One iteration of the loop of `fixBadString`: the text of the first rune,
followed by the text of the rest. -/
theorem fixBadString_cons (b0 : Nat) (rest : Bytes) :
    fixBadString (b0 :: rest) =
      (if 32 ≤ (decodeRune (b0 :: rest)).1 ∧ (decodeRune (b0 :: rest)).1 ≤ 126 then
        String.singleton (Char.ofNat (decodeRune (b0 :: rest)).1)
       else "[]") ++
      fixBadString ((b0 :: rest).drop (decodeRune (b0 :: rest)).2) := by
  apply String.ext
  have hpos := decodeRune_size_pos b0 rest
  have hself : ((b0 :: rest).drop (decodeRune (b0 :: rest)).2).length ≤ rest.length := by
    rw [List.length_drop]
    simp only [List.length_cons]
    omega
  have e1 : fixBadString (b0 :: rest) =
      fixBadString.loop rest.length ((b0 :: rest).drop (decodeRune (b0 :: rest)).2)
        (if 32 ≤ (decodeRune (b0 :: rest)).1 ∧ (decodeRune (b0 :: rest)).1 ≤ 126 then
          ("" : String).push (Char.ofNat (decodeRune (b0 :: rest)).1)
         else "" ++ "[]") := rfl
  rw [e1, fixBadString_loop_acc _ _ (le_refl _) rest.length _ hself, String.data_append]
  split <;> simp [String.data_push, String.data_append, String.singleton]

theorem fixBadString_utf8Char (c : Char) (rest : Bytes) :
    fixBadString (utf8Char c ++ rest) =
      (if isPrintable c then String.singleton c else "[]") ++ fixBadString rest := by
  obtain ⟨b, t, hbt⟩ := utf8Char_ne_nil c
  have hdec := decodeRune_utf8Char c rest
  have hcons : utf8Char c ++ rest = b :: (t ++ rest) := by rw [hbt]; rfl
  rw [hcons] at hdec ⊢
  rw [fixBadString_cons, hdec]
  simp only
  rw [← hcons, List.drop_left, Char.ofNat_toNat]
  rfl

theorem fixBadString_stray (b0 : Nat) (rest : Bytes)
    (h : ∀ (c : Char) (tail : Bytes), b0 :: rest ≠ utf8Char c ++ tail) :
    fixBadString (b0 :: rest) = "[]" ++ fixBadString rest := by
  have hdec : decodeRune (b0 :: rest) = (65533, 1) := by
    by_contra hne
    obtain ⟨c, tail, hc⟩ := exists_char_of_decodeRune b0 rest hne
    exact h c tail hc
  rw [fixBadString_cons, hdec]
  simp

/-- C22. For every Go string `s`, `fixBadString(s)` is `s` with every character
outside the printable ASCII range 32 to 126 replaced by the two characters `[]`
and every character inside that range kept in place. The characters of a Go
string are those that `for range` yields: at each place the character whose
UTF-8 encoding starts there, and where no encoding starts, in a string that is
not well formed, the one byte there, which counts as a character outside the
range. So the result is the empty text for the empty string; for a string that
starts with the encoding of a character it is this character, or `[]` in its
place, followed by the result for the rest; for a string that starts with a
byte where no encoding starts it is `[]` followed by the result for the rest.
For the encoding of a text the result is the text with the characters outside
the range replaced; the result holds only printable ASCII characters; and
`fixBadString` returns a text of printable ASCII characters as it is. -/
theorem fixBadString_spec (s : String) :
    fixBadString (utf8 s) = sanitized s ∧
    (∀ bytes : Bytes, ∀ c ∈ (fixBadString bytes).toList, isPrintable c) ∧
    ((∀ c ∈ s.toList, isPrintable c) → fixBadString (utf8 s) = s) ∧
    fixBadString [] = "" ∧
    (∀ (c : Char) (rest : Bytes), fixBadString (utf8Char c ++ rest) =
      (if isPrintable c then String.singleton c else "[]") ++ fixBadString rest) ∧
    (∀ (b0 : Nat) (rest : Bytes),
      (∀ (c : Char) (tail : Bytes), b0 :: rest ≠ utf8Char c ++ tail) →
      fixBadString (b0 :: rest) = "[]" ++ fixBadString rest) ∧
    (∀ (b0 : Nat) (rest : Bytes), b0 < 128 →
      fixBadString (b0 :: rest) =
        (if 32 ≤ b0 ∧ b0 ≤ 126 then String.singleton (Char.ofNat b0) else "[]") ++
          fixBadString rest) := by
  have hmain : fixBadString (utf8 s) = sanitized s := by
    apply String.ext
    unfold fixBadString utf8 sanitized
    rw [fixBadString_loop_utf8 s.toList _ "" (le_refl _)]
    simp
  refine ⟨hmain, ?_, ?_, rfl, fixBadString_utf8Char, fixBadString_stray, ?_⟩
  · intro bytes c hc
    exact fixBadString_loop_printable bytes.length bytes "" (by simp) c hc
  · intro hs
    rw [hmain]
    apply String.ext
    unfold sanitized
    show s.toList.flatMap _ = s.toList
    generalize s.toList = l at hs
    induction l with
    | nil => rfl
    | cons c l ih =>
      rw [List.flatMap_cons, if_pos (hs c (List.mem_cons_self _ _)),
        ih (fun c hc => hs c (List.mem_cons_of_mem _ hc))]
      rfl
  · intro b0 rest hb
    rw [fixBadString_cons]
    have hdec : decodeRune (b0 :: rest) = (b0, 1) := by simp [decodeRune, hb]
    rw [hdec]
    rfl

set_option maxRecDepth 100000 in
/-- C22, instance: a text with a line feed and a letter outside ASCII; a text of
printable ASCII characters; and the Go string of the bytes `P`, `0xC3`, `o`,
`r`, `t`, in which no encoding starts at the second byte. -/
theorem fixBadString_spec_witness :
    fixBadString (utf8 "Zoë\n") = "Zo[][]" ∧ fixBadString (utf8 "Port Royal") = "Port Royal" ∧
    fixBadString [80, 195, 111, 114, 116] = "P[]ort" ∧
    fixBadString (195 :: utf8 "ort") = "[]" ++ fixBadString (utf8 "ort") :=
  ⟨(fixBadString_spec "Zoë\n").1.trans (by decide),
    (fixBadString_spec "Port Royal").2.2.1 (by decide),
    by decide,
    (fixBadString_spec "").2.2.2.2.2.1 195 (utf8 "ort") (by
      intro c tail h
      have hv := char_valid_nat c
      unfold utf8Char at h
      simp only at h
      split at h
      · simp only [List.singleton_append, List.cons.injEq] at h
        omega
      · split at h
        · simp only [List.cons_append, List.nil_append, List.cons.injEq] at h
          have h2 : utf8 "ort" = [111, 114, 116] := by decide
          rw [h2] at h
          simp only [List.cons.injEq] at h
          omega
        · split at h
          · simp only [List.cons_append, List.cons.injEq] at h
            omega
          · simp only [List.cons_append, List.cons.injEq] at h
            omega)⟩

/-! ### The slice expressions of the repair -/

theorem stringsIndex_le_length (sub : Bytes) : ∀ (s : Bytes) (i : Nat),
    stringsIndex s sub = some i → i ≤ s.length := by
  intro s
  induction s with
  | nil =>
    intro i h
    simp only [stringsIndex] at h
    split at h
    · simp only [Option.some.injEq] at h
      omega
    · cases h
  | cons c s ih =>
    intro i h
    simp only [stringsIndex] at h
    split at h
    · simp only [Option.some.injEq] at h
      omega
    · cases hs : stringsIndex s sub with
      | none => rw [hs] at h; cases h
      | some j =>
        rw [hs] at h
        simp only [Option.map_some', Option.some.injEq] at h
        have := ih j hs
        simp only [List.length_cons]
        omega

/-- The slice expression of `removeAndFixSettlementName` panics exactly when
both markers are found and the second is found less than 24 bytes after the
first, or before it. -/
theorem removeAndFixSettlementName_eq_none_iff (input : Bytes) :
    removeAndFixSettlementName input = none ↔
      ∃ idxStart idxEnd, stringsIndex input settlementMarker = some idxStart ∧
        stringsIndex input ownerTribeMarker = some idxEnd ∧ idxEnd < idxStart + 24 := by
  unfold removeAndFixSettlementName
  cases h1 : stringsIndex input settlementMarker with
  | none => simp
  | some idxStart =>
    cases h2 : stringsIndex input ownerTribeMarker with
    | none => simp
    | some idxEnd =>
      have hle := stringsIndex_le_length _ _ _ h2
      simp only [sliceBytes]
      by_cases hb : idxEnd < idxStart + 24
      · rw [if_neg (by omega)]
        simp [hb]
      · rw [if_pos (by omega)]
        simp [hb]

/-- The slice expression of `removeAndFixOwnerName` panics exactly when both
markers are found and the second is found less than 15 bytes after the first,
or before it. -/
theorem removeAndFixOwnerName_eq_none_iff (input : Bytes) :
    removeAndFixOwnerName input = none ↔
      ∃ idxStart idxEnd, stringsIndex input ownerNameMarker = some idxStart ∧
        stringsIndex input combatPhaseMarker = some idxEnd ∧ idxEnd < idxStart + 15 := by
  unfold removeAndFixOwnerName
  cases h1 : stringsIndex input ownerNameMarker with
  | none => simp
  | some idxStart =>
    cases h2 : stringsIndex input combatPhaseMarker with
    | none => simp
    | some idxEnd =>
      have hle := stringsIndex_le_length _ _ _ h2
      simp only [sliceBytes]
      by_cases hb : idxEnd < idxStart + 15
      · rw [if_neg (by omega)]
        simp [hb]
      · rw [if_pos (by omega)]
        simp [hb]

set_option maxRecDepth 100000 in
/-- C21, the failing inputs: in the document `reorderedDoc` the marker
`,"settlementFlagName"` is found at byte 30 and the marker `,"ownerTribeId"` at
byte 13, so that the slice expression `in[53:12]` of
`removeAndFixSettlementName` is out of range; in the document
`reorderedOwnerDoc` the marker `,"ownerName"` is found at byte 38 and the
marker `,"combatPhaseStartTime"` at byte 13, so that the slice expression
`in[52:12]` of `removeAndFixOwnerName` is out of range. Both functions panic,
and so does `fetchIslandClaims` on a store that holds either document, whose
first parse fails for the raw line feed. -/
theorem removeAndFix_panics :
    stringsIndex reorderedDoc settlementMarker = some 30 ∧
    stringsIndex reorderedDoc ownerTribeMarker = some 13 ∧
    removeAndFixSettlementName reorderedDoc = none ∧
    stringsIndex reorderedOwnerDoc ownerNameMarker = some 38 ∧
    stringsIndex reorderedOwnerDoc combatPhaseMarker = some 13 ∧
    removeAndFixOwnerName reorderedOwnerDoc = none ∧
    (fetchIslandClaims (exampleLibrary repairTable []) exampleGrid.Islands
      (some [reorderedDoc]) (some [])).isPanic = true ∧
    (fetchIslandClaims (exampleLibrary repairTable []) exampleGrid.Islands
      (some [reorderedOwnerDoc]) (some [])).isPanic = true := by
  decide

/-! ### The war declarations of `fetchIslandClaims` -/

theorem lookup_cons_eq (k k' : Int) (v : Nat) (m : List (Int × Nat)) :
    ((k, v) :: m).lookup k' = if k' = k then some v else m.lookup k' := by
  rw [List.lookup_cons]
  by_cases h : k' = k
  · simp [h]
  · have : (k' == k) = false := by simpa using h
    rw [this, if_neg h]

theorem lookup_append_singleton (k k' : Int) (v : Nat) : ∀ (m : List (Int × Nat)),
    (m ++ [(k, v)]).lookup k' =
      match m.lookup k' with
      | some x => some x
      | none => if k' = k then some v else none := by
  intro m
  induction m with
  | nil => simp [lookup_cons_eq]
  | cons e rest ih =>
    obtain ⟨a, b⟩ := e
    rw [List.cons_append, lookup_cons_eq, lookup_cons_eq]
    by_cases h : k' = a
    · simp [h]
    · rw [if_neg h, if_neg h, ih]

theorem lookup_eq_none_of_not_mem (k : Int) : ∀ (m : List (Int × Nat)),
    k ∉ m.map Prod.fst → m.lookup k = none := by
  intro m
  induction m with
  | nil => intro _; rfl
  | cons e rest ih =>
    intro h
    obtain ⟨a, b⟩ := e
    simp only [List.map_cons, List.mem_cons, not_or] at h
    rw [lookup_cons_eq, if_neg h.1]
    exact ih h.2

theorem lookup_map_set_ne (k k' : Int) (v : Nat) (hne : k' ≠ k) : ∀ (m : List (Int × Nat)),
    (m.map (fun e => if e.1 = k then (k, v) else e)).lookup k' = m.lookup k' := by
  intro m
  induction m with
  | nil => rfl
  | cons e rest ih =>
    obtain ⟨a, b⟩ := e
    rw [List.map_cons]
    by_cases ha : a = k
    · simp only [ha, if_true]
      rw [lookup_cons_eq, lookup_cons_eq, if_neg hne, if_neg hne]
      exact ih
    · simp only [ha, if_false]
      rw [lookup_cons_eq, lookup_cons_eq, ih]

theorem lookup_map_set_eq (k : Int) (v : Nat) : ∀ (m : List (Int × Nat)),
    k ∈ m.map Prod.fst →
    (m.map (fun e => if e.1 = k then (k, v) else e)).lookup k = some v := by
  intro m
  induction m with
  | nil => intro h; simp at h
  | cons e rest ih =>
    intro h
    obtain ⟨a, b⟩ := e
    rw [List.map_cons]
    by_cases ha : a = k
    · simp only [ha, if_true]
      rw [lookup_cons_eq, if_pos rfl]
    · simp only [ha, if_false]
      rw [lookup_cons_eq, if_neg (Ne.symm ha)]
      apply ih
      simp only [List.map_cons, List.mem_cons] at h
      rcases h with h | h
      · exact absurd h.symm ha
      · exact h

theorem lookup_mapSet (m : List (Int × Nat)) (k k' : Int) (v : Nat) :
    (mapSet m k v).lookup k' = if k' = k then some v else m.lookup k' := by
  unfold mapSet
  split
  · next hmem =>
    by_cases h : k' = k
    · rw [if_pos h, h]
      exact lookup_map_set_eq k v m hmem
    · rw [if_neg h]
      exact lookup_map_set_ne k k' v h m
  · next hmem =>
    rw [lookup_append_singleton]
    by_cases h : k' = k
    · rw [if_pos h, h, lookup_eq_none_of_not_mem k m hmem]
      simp
    · rw [if_neg h]
      cases m.lookup k' <;> simp [h]

theorem isLastClaimOf_append (survivors : List IslandClaim) (c : IslandClaim) (id : Int)
    (i : Nat) :
    IsLastClaimOf (survivors ++ [c]) id i ↔
      if id = c.IslandID then i = survivors.length else IsLastClaimOf survivors id i := by
  unfold IsLastClaimOf
  by_cases hid : id = c.IslandID
  · rw [if_pos hid]
    constructor
    · rintro ⟨⟨c1, hc1, _⟩, hlast⟩
      by_contra hne
      have hlt : i < survivors.length := by
        have : i < (survivors ++ [c]).length := by
          by_contra hge
          rw [List.getElem?_eq_none (by omega)] at hc1
          cases hc1
        simp at this
        omega
      exact hlast survivors.length c hlt (by simp) hid.symm
    · intro hi
      subst hi
      refine ⟨⟨c, by simp, hid.symm⟩, ?_⟩
      intro j c1 hj hc1
      rw [List.getElem?_eq_none (by simp; omega)] at hc1
      cases hc1
  · rw [if_neg hid]
    constructor
    · rintro ⟨⟨c1, hc1, hc1id⟩, hlast⟩
      have hlt : i < survivors.length := by
        by_contra hge
        have hi : i = survivors.length := by
          have : i < (survivors ++ [c]).length := by
            by_contra hge2
            rw [List.getElem?_eq_none (by omega)] at hc1
            cases hc1
          simp at this
          omega
        subst hi
        simp at hc1
        subst hc1
        exact hid hc1id.symm
      refine ⟨⟨c1, by rwa [List.getElem?_append_left hlt] at hc1, hc1id⟩, ?_⟩
      intro j c2 hj hc2
      have hjlt : j < survivors.length := by
        by_contra hge
        rw [List.getElem?_eq_none (by omega)] at hc2
        cases hc2
      exact hlast j c2 hj (by rwa [List.getElem?_append_left hjlt])
    · rintro ⟨⟨c1, hc1, hc1id⟩, hlast⟩
      have hlt : i < survivors.length := by
        by_contra hge
        rw [List.getElem?_eq_none (by omega)] at hc1
        cases hc1
      refine ⟨⟨c1, by rwa [List.getElem?_append_left hlt], hc1id⟩, ?_⟩
      intro j c2 hj hc2
      by_cases hjlt : j < survivors.length
      · rw [List.getElem?_append_left hjlt] at hc2
        exact hlast j c2 hj hc2
      · have hjeq : j = survivors.length := by
          have : j < (survivors ++ [c]).length := by
            by_contra hge2
            rw [List.getElem?_eq_none (by omega)] at hc2
            cases hc2
          simp at this
          omega
        subst hjeq
        simp at hc2
        subst hc2
        exact fun h => hid h.symm

theorem getElem?_append_of_some (survivors : List IslandClaim) (c c1 : IslandClaim) (i : Nat)
    (h : survivors[i]? = some c1) : (survivors ++ [c])[i]? = some c1 := by
  have hlt : i < survivors.length := by
    by_contra hge
    rw [List.getElem?_eq_none (by omega)] at h
    cases h
  rw [List.getElem?_append_left hlt]
  exact h

theorem addClaim_exact (survivors : List IslandClaim) (tribes : List TribeBuild)
    (c : IslandClaim)
    (hall : ∀ t ∈ tribes, ∀ e ∈ t.islands, survivors[e.1]? = some e.2) :
    ∀ t ∈ addClaim tribes survivors.length c, ∀ e ∈ t.islands,
      (survivors ++ [c])[e.1]? = some e.2 := by
  intro t ht e he
  unfold addClaim at ht
  split at ht
  · obtain ⟨t0, ht0, rfl⟩ := List.mem_map.mp ht
    split at he
    · rcases List.mem_append.mp he with h | h
      · exact getElem?_append_of_some _ _ _ _ (hall t0 ht0 e h)
      · rw [List.mem_singleton] at h
        subst h
        simp
    · exact getElem?_append_of_some _ _ _ _ (hall t0 ht0 e he)
  · rcases List.mem_append.mp ht with h | h
    · exact getElem?_append_of_some _ _ _ _ (hall t h e he)
    · rw [List.mem_singleton] at h
      subst h
      rw [List.mem_singleton] at he
      subst he
      simp

theorem claimStep_exact (lib : Library) (islands : List (Int × IslandInstance))
    (done : List Bytes) (v : Bytes) (s s1 : FetchState)
    (hs : s.exact (survivingClaims lib islands done))
    (hstep : fetchIslandClaims.claimStep lib islands s v = some s1) :
    s1.exact (survivingClaims lib islands (done ++ [v])) := by
  rw [survivingClaims_append]
  unfold fetchIslandClaims.claimStep at hstep
  unfold survivingClaim
  obtain ⟨hcreated, hall, hmap⟩ := hs
  split at hstep
  · cases hstep
  · next hp =>
    simp only [Option.some.injEq] at hstep
    subst hstep
    rw [hp]
    simpa using ⟨hcreated, hall, hmap⟩
  · next parsed hp =>
    rw [hp]
    simp only
    split at hstep
    · next hc =>
      simp only [Option.some.injEq] at hstep
      subst hstep
      rw [hc]
      simpa using ⟨hcreated, hall, hmap⟩
    · next c hc =>
      simp only [Option.some.injEq] at hstep
      subst hstep
      rw [hc]
      simp only [Option.toList]
      refine ⟨?_, ?_, ?_⟩
      · simp [hcreated]
      · show ∀ t ∈ addClaim s.countPerTribe s.created c, _
        rw [hcreated]
        exact addClaim_exact _ s.countPerTribe c hall
      · intro id i
        show (mapSet s.islands c.IslandID s.created).lookup id = some i ↔ _
        rw [lookup_mapSet, isLastClaimOf_append, hcreated]
        by_cases hid : id = c.IslandID
        · rw [if_pos hid, if_pos hid]
          constructor
          · intro h
            simp only [Option.some.injEq] at h
            exact h.symm
          · intro h
            rw [h]
        · rw [if_neg hid, if_neg hid]
          exact hmap id i

theorem claimLoop_exact (lib : Library) (islands : List (Int × IslandInstance)) :
    ∀ (rest done : List Bytes) (s s1 : FetchState),
      s.exact (survivingClaims lib islands done) →
      fetchIslandClaims.claimLoop lib islands s rest = some s1 →
      s1.exact (survivingClaims lib islands (done ++ rest)) := by
  intro rest
  induction rest with
  | nil =>
    intro done s s1 hs h
    simp only [fetchIslandClaims.claimLoop, Option.some.injEq] at h
    subst h
    simpa using hs
  | cons v rest ih =>
    intro done s s1 hs h
    simp only [fetchIslandClaims.claimLoop] at h
    split at h
    · cases h
    · next s2 hstep =>
      have h2 := claimStep_exact lib islands done v s s2 hs hstep
      have := ih (done ++ [v]) s2 s1 h2 h
      simpa using this

theorem claimLoop_exact_start (lib : Library) (islands : List (Int × IslandInstance))
    (raw : List Bytes) (s : FetchState)
    (h : fetchIslandClaims.claimLoop lib islands
      { hash := 0, created := 0, islands := [], countPerTribe := [] } raw = some s) :
    s.exact (survivingClaims lib islands raw) := by
  have h0 : FetchState.exact (survivingClaims lib islands [])
      { hash := 0, created := 0, islands := [], countPerTribe := [] } := by
    refine ⟨rfl, by simp, ?_⟩
    intro id i
    constructor
    · intro h; simp at h
    · rintro ⟨⟨c, hc, _⟩, _⟩
      simp [survivingClaims] at hc
  have := claimLoop_exact lib islands raw [] _ s h0 h
  simpa using this

/-! The second loop. -/

theorem warStep_islands (lib : Library) (s : FetchState) (v : Bytes) :
    (fetchIslandClaims.warStep lib s v).islands = s.islands := by
  unfold fetchIslandClaims.warStep
  simp only
  split
  · rfl
  · split
    · rfl
    · split <;> rfl

theorem warStep_skipped (lib : Library) (s : FetchState) (v : Bytes)
    (h : validWar lib v = none) :
    (fetchIslandClaims.warStep lib s v).countPerTribe = s.countPerTribe := by
  unfold validWar at h
  unfold fetchIslandClaims.warStep
  simp only
  split
  · rfl
  · next w hw =>
    rw [hw] at h
    simp only at h
    split
    · rfl
    · next hvalid =>
      rw [if_neg hvalid] at h
      cases h

theorem warStep_valid (lib : Library) (s : FetchState) (v : Bytes) (w : WarDeclaration)
    (h : validWar lib v = some w) :
    (fetchIslandClaims.warStep lib s v).countPerTribe =
      s.countPerTribe.map (fun t =>
        { t with islands := t.islands.map (fun e => applyWar s.islands e w) }) := by
  unfold validWar at h
  unfold fetchIslandClaims.warStep
  simp only
  split
  · next hw => rw [hw] at h; cases h
  · next w1 hw =>
    rw [hw] at h
    simp only at h
    split
    · next hinvalid => rw [if_pos hinvalid] at h; cases h
    · next hvalid =>
      rw [if_neg hvalid] at h
      simp only [Option.some.injEq] at h
      subst h
      split
      · next id hid =>
        show setWar s.countPerTribe id w1 = _
        unfold setWar applyWar withWar
        apply List.map_congr_left
        intro t _
        congr 1
        apply List.map_congr_left
        intro e _
        show (if e.1 = id then _ else e) = if s.islands.lookup w1.IslandID = some e.1 then _ else e
        rw [hid]
        by_cases he : e.1 = id
        · rw [if_pos he, if_pos (by rw [he])]
        · rw [if_neg he, if_neg (by intro h2; exact he (Option.some.inj h2).symm)]
      · next hnone =>
        show s.countPerTribe = _
        conv => lhs; rw [← List.map_id s.countPerTribe]
        apply List.map_congr_left
        intro t _
        show t = { t with islands := _ }
        have : t.islands.map (fun e => applyWar s.islands e w1) = t.islands := by
          conv => rhs; rw [← List.map_id t.islands]
          apply List.map_congr_left
          intro e _
          unfold applyWar
          rw [hnone]
          simp
        rw [this]

theorem warLoop_countPerTribe (lib : Library) : ∀ (wars : List Bytes) (s : FetchState),
    (wars.foldl (fetchIslandClaims.warStep lib) s).countPerTribe =
      s.countPerTribe.map (fun t =>
        { t with islands :=
            t.islands.map (fun e => (validWars lib wars).foldl (applyWar s.islands) e) }) := by
  intro wars
  induction wars with
  | nil =>
    intro s
    simp only [List.foldl_nil, validWars, List.filterMap_nil]
    conv => lhs; rw [← List.map_id s.countPerTribe]
    apply List.map_congr_left
    intro t _
    simp
  | cons v rest ih =>
    intro s
    rw [List.foldl_cons, ih, warStep_islands]
    cases hv : validWar lib v with
    | none =>
      rw [warStep_skipped lib s v hv]
      simp only [validWars, List.filterMap_cons, hv]
    | some w =>
      rw [warStep_valid lib s v w hv, List.map_map]
      apply List.map_congr_left
      intro t _
      simp only [Function.comp, validWars, List.filterMap_cons, hv, List.foldl_cons,
        List.map_map]
      rfl

theorem applyWar_fst (m : List (Int × Nat)) (e : Nat × IslandClaim) (w : WarDeclaration) :
    (applyWar m e w).1 = e.1 := by
  unfold applyWar
  split <;> rfl

theorem applyWar_withoutWar (m : List (Int × Nat)) (e : Nat × IslandClaim)
    (w : WarDeclaration) : withoutWar (applyWar m e w).2 = withoutWar e.2 := by
  unfold applyWar
  split <;> rfl

theorem foldl_applyWar_fst (m : List (Int × Nat)) : ∀ (l : List WarDeclaration)
    (e : Nat × IslandClaim), (l.foldl (applyWar m) e).1 = e.1 := by
  intro l
  induction l with
  | nil => intro e; rfl
  | cons w rest ih => intro e; rw [List.foldl_cons, ih, applyWar_fst]

theorem foldl_applyWar_withoutWar (m : List (Int × Nat)) : ∀ (l : List WarDeclaration)
    (e : Nat × IslandClaim), withoutWar (l.foldl (applyWar m) e).2 = withoutWar e.2 := by
  intro l
  induction l with
  | nil => intro e; rfl
  | cons w rest ih => intro e; rw [List.foldl_cons, ih, applyWar_withoutWar]

theorem foldl_applyWar_untargeted (m : List (Int × Nat)) : ∀ (l : List WarDeclaration)
    (e : Nat × IslandClaim), (∀ w ∈ l, m.lookup w.IslandID ≠ some e.1) →
    l.foldl (applyWar m) e = e := by
  intro l
  induction l with
  | nil => intro e _; rfl
  | cons w rest ih =>
    intro e h
    have hw : applyWar m e w = e := by
      unfold applyWar
      rw [if_neg (h w (List.mem_cons_self _ _))]
    rw [List.foldl_cons, hw]
    exact ih e (fun w hw => h w (List.mem_cons_of_mem _ hw))

theorem applyWar_targeted (m : List (Int × Nat)) (e : Nat × IslandClaim) (w : WarDeclaration)
    (h : m.lookup w.IslandID = some e.1) : applyWar m e w = (e.1, withWar e.2 w) := by
  unfold applyWar
  rw [if_pos h]

theorem foldl_applyWar_last (m : List (Int × Nat)) (l1 l2 : List WarDeclaration)
    (w : WarDeclaration) (e : Nat × IslandClaim)
    (hw : m.lookup w.IslandID = some e.1)
    (hl2 : ∀ w1 ∈ l2, m.lookup w1.IslandID ≠ some e.1) :
    warFields ((l1 ++ w :: l2).foldl (applyWar m) e).2 =
      (w.WarringTribeID, w.WarStartUTC, w.WarEndUTC) := by
  rw [List.foldl_append, List.foldl_cons]
  have h1 : (l1.foldl (applyWar m) e).1 = e.1 := foldl_applyWar_fst m l1 e
  rw [foldl_applyWar_untargeted m l2 _ (by
    intro w1 hw1
    rw [applyWar_fst, h1]
    exact hl2 w1 hw1)]
  rw [applyWar_targeted m _ w (by rw [h1]; exact hw)]
  rfl

theorem parseClaim_warFields (lib : Library) (hkeeps : lib.keepsWarFields) (v : Bytes)
    (c : IslandClaim) (h : parseClaim lib v = some (some c)) : warFields c = (0, 0, 0) := by
  have hfirst : warFields (lib.unmarshalClaim v newIslandClaim).1 = (0, 0, 0) := by
    rw [hkeeps]
    rfl
  unfold parseClaim at h
  simp only at h
  split at h
  · split at h
    · cases h
    · split at h
      · cases h
      · split at h
        · cases h
        · simp only [Option.some.injEq] at h
          subst h
          rw [← hfirst, ← hkeeps _ (lib.unmarshalClaim v newIslandClaim).1]
          rfl
  · simp only [Option.some.injEq] at h
    subst h
    exact hfirst

theorem completeClaim_warFields (islands : List (Int × IslandInstance)) (parsed c : IslandClaim)
    (h : completeClaim islands parsed = some c) : warFields c = warFields parsed := by
  unfold completeClaim at h
  split at h
  · cases h
  · split at h
    · cases h
    · split at h
      · cases h
      · simp only [Option.some.injEq] at h
        subst h
        rfl

theorem survivingClaims_warFields (lib : Library) (hkeeps : lib.keepsWarFields)
    (islands : List (Int × IslandInstance)) (raw : List Bytes) :
    ∀ c ∈ survivingClaims lib islands raw, warFields c = (0, 0, 0) := by
  intro c hc
  unfold survivingClaims at hc
  obtain ⟨v, _, hv⟩ := List.mem_filterMap.mp hc
  unfold survivingClaim at hv
  split at hv
  · next parsed hp =>
    rw [completeClaim_warFields islands parsed c hv]
    exact parseClaim_warFields lib hkeeps v parsed hp
  · cases hv

theorem isLastClaimOf_of_nodup (survivors : List IslandClaim)
    (hnodup : (survivors.map (fun c => c.IslandID)).Nodup) (id : Int) (i : Nat)
    (c : IslandClaim) (hc : survivors[i]? = some c) (hid : c.IslandID = id) :
    IsLastClaimOf survivors id i := by
  refine ⟨⟨c, hc, hid⟩, ?_⟩
  intro j c2 hj hc2 hid2
  obtain ⟨hi, hci⟩ := List.getElem?_eq_some.mp hc
  obtain ⟨hj2, hcj⟩ := List.getElem?_eq_some.mp hc2
  have hi' : i < (survivors.map (fun c => c.IslandID)).length := by simpa using hi
  have hj' : j < (survivors.map (fun c => c.IslandID)).length := by simpa using hj2
  have heq : (survivors.map (fun c => c.IslandID))[i] = (survivors.map (fun c => c.IslandID))[j] := by
    rw [List.getElem_map, List.getElem_map, hci, hcj, hid, hid2]
  have := (hnodup.getElem_inj_iff).mp heq
  omega

/-- What the two loops of `fetchIslandClaims` leave of a claim object: it is the
surviving claim whose number it carries, with the war fields of the last war
declaration, among those that are not skipped, whose island has this claim as
its last surviving claim. -/
theorem build_wars (lib : Library) (islands : List (Int × IslandInstance))
    (raw wars : List Bytes) (s : FetchState)
    (h : fetchIslandClaims.build lib islands (some raw) (some wars) = some (some s)) :
    ∀ t ∈ s.countPerTribe, ∀ e ∈ t.islands,
      ∃ c0, (survivingClaims lib islands raw)[e.1]? = some c0 ∧
        withoutWar e.2 = withoutWar c0 ∧
        ((∀ w ∈ validWars lib wars,
            ¬ IsLastClaimOf (survivingClaims lib islands raw) w.IslandID e.1) → e.2 = c0) ∧
        (∀ (l1 : List WarDeclaration) (w : WarDeclaration) (l2 : List WarDeclaration),
          validWars lib wars = l1 ++ w :: l2 →
          IsLastClaimOf (survivingClaims lib islands raw) w.IslandID e.1 →
          (∀ w1 ∈ l2, ¬ IsLastClaimOf (survivingClaims lib islands raw) w1.IslandID e.1) →
          warFields e.2 = (w.WarringTribeID, w.WarStartUTC, w.WarEndUTC)) := by
  unfold fetchIslandClaims.build at h
  simp only at h
  split at h
  · cases h
  · next s0 hloop =>
    simp only [Option.some.injEq] at h
    subst h
    obtain ⟨_, hall, hmap⟩ := claimLoop_exact_start lib islands raw s0 hloop
    intro t ht e he
    rw [warLoop_countPerTribe] at ht
    obtain ⟨t0, ht0, rfl⟩ := List.mem_map.mp ht
    obtain ⟨e0, he0, rfl⟩ := List.mem_map.mp he
    have hsurv := hall t0 ht0 e0 he0
    have hfst := foldl_applyWar_fst s0.islands (validWars lib wars) e0
    refine ⟨e0.2, by rw [hfst]; exact hsurv, foldl_applyWar_withoutWar _ _ _, ?_, ?_⟩
    · intro hno
      rw [foldl_applyWar_untargeted s0.islands _ e0 (by
        intro w hw hl
        exact hno w hw (by rw [hfst]; exact (hmap _ _).mp hl))]
    · intro l1 w l2 hsplit hw hl2
      rw [hsplit]
      rw [hfst] at hw hl2
      exact foldl_applyWar_last s0.islands l1 l2 w e0 ((hmap _ _).mpr hw)
        (fun w1 hw1 hl => hl2 w1 hw1 ((hmap _ _).mp hl))

theorem tableDecoder_keepsWarFields (table : List (Bytes × (IslandClaim → IslandClaim)))
    (h : ∀ e ∈ table, ∀ c, warFields (e.2 c) = warFields c) (v : Bytes) (c : IslandClaim) :
    warFields (tableDecoder table v c).1 = warFields c := by
  unfold tableDecoder
  split
  · next set hset => exact h (v, set) (lookup_mem _ _ _ hset) c
  · rfl

theorem rivalTable_keepsWarFields (wars : List (Bytes × WarDeclaration)) :
    (exampleLibrary rivalTable wars).keepsWarFields := by
  intro v c
  apply tableDecoder_keepsWarFields
  intro e he c
  simp only [rivalTable, claimTable, List.cons_append, List.nil_append, List.mem_cons,
    List.mem_singleton, List.not_mem_nil, or_false] at he
  rcases he with rfl | rfl | rfl | rfl | rfl <;> rfl

theorem finish_islands_mem (s : FetchState) (entry : Nat × TribeCount) (c : IslandClaim)
    (he : entry ∈ s.countPerTribe.map TribeBuild.finish) (hc : c ∈ entry.2.islands) :
    ∃ t ∈ s.countPerTribe, ∃ e ∈ t.islands, c = e.2 := by
  obtain ⟨t, ht, rfl⟩ := List.mem_map.mp he
  obtain ⟨e, he, rfl⟩ := List.mem_map.mp hc
  exact ⟨t, ht, e, he, rfl⟩

theorem islandID_of_withoutWar (c c0 : IslandClaim) (h : withoutWar c = withoutWar c0) :
    c.IslandID = c0.IslandID :=
  congrArg (fun x => x.IslandID) h

theorem mem_validWars (lib : Library) (wars : List Bytes) (w : WarDeclaration) :
    w ∈ validWars lib wars ↔
      ∃ v ∈ wars, lib.unmarshalWar v = some w ∧
        w.WarringTribeID ≠ 0 ∧ w.WarStartUTC ≠ 0 ∧ w.WarEndUTC ≠ 0 := by
  unfold validWars
  rw [List.mem_filterMap]
  constructor
  · rintro ⟨v, hv, hw⟩
    refine ⟨v, hv, ?_⟩
    unfold validWar at hw
    split at hw
    · cases hw
    · next w1 hw1 =>
      split at hw
      · cases hw
      · next hvalid =>
        simp only [Option.some.injEq] at hw
        subst hw
        simp only [not_or] at hvalid
        exact ⟨hw1, hvalid.1, hvalid.2.1, hvalid.2.2⟩
  · rintro ⟨v, hv, hw, h1, h2, h3⟩
    refine ⟨v, hv, ?_⟩
    unfold validWar
    rw [hw]
    simp only
    rw [if_neg (by simp [h1, h2, h3])]

theorem addClaim_covers (tribes : List TribeBuild) (n : Nat) (c : IslandClaim)
    (h : ∀ i, i < n → ∃ t ∈ tribes, ∃ e ∈ t.islands, e.1 = i) :
    ∀ i, i < n + 1 → ∃ t ∈ addClaim tribes n c, ∃ e ∈ t.islands, e.1 = i := by
  intro i hi
  unfold addClaim
  split
  · next hmem =>
    by_cases hin : i = n
    · obtain ⟨t, ht, hid⟩ := List.mem_map.mp hmem
      refine ⟨_, List.mem_map_of_mem _ ht, (n, c), ?_, hin.symm⟩
      simp only [hid, if_true]
      simp
    · obtain ⟨t, ht, e, he, hei⟩ := h i (by omega)
      refine ⟨_, List.mem_map_of_mem _ ht, e, ?_, hei⟩
      split
      · simp [he]
      · exact he
  · by_cases hin : i = n
    · refine ⟨_, List.mem_append_right _ (List.mem_singleton.mpr rfl), (n, c), ?_, hin.symm⟩
      simp
    · obtain ⟨t, ht, e, he, hei⟩ := h i (by omega)
      exact ⟨t, List.mem_append_left _ ht, e, he, hei⟩

theorem claimStep_covers (lib : Library) (islands : List (Int × IslandInstance))
    (s s1 : FetchState) (v : Bytes)
    (h : ∀ i, i < s.created → ∃ t ∈ s.countPerTribe, ∃ e ∈ t.islands, e.1 = i)
    (hstep : fetchIslandClaims.claimStep lib islands s v = some s1) :
    ∀ i, i < s1.created → ∃ t ∈ s1.countPerTribe, ∃ e ∈ t.islands, e.1 = i := by
  unfold fetchIslandClaims.claimStep at hstep
  split at hstep
  · cases hstep
  · simp only [Option.some.injEq] at hstep
    subst hstep
    exact h
  · split at hstep
    · simp only [Option.some.injEq] at hstep
      subst hstep
      exact h
    · next c _ =>
      simp only [Option.some.injEq] at hstep
      subst hstep
      exact addClaim_covers s.countPerTribe s.created c h

theorem claimLoop_covers (lib : Library) (islands : List (Int × IslandInstance)) :
    ∀ (raw : List Bytes) (s s1 : FetchState),
      (∀ i, i < s.created → ∃ t ∈ s.countPerTribe, ∃ e ∈ t.islands, e.1 = i) →
      fetchIslandClaims.claimLoop lib islands s raw = some s1 →
      ∀ i, i < s1.created → ∃ t ∈ s1.countPerTribe, ∃ e ∈ t.islands, e.1 = i := by
  intro raw
  induction raw with
  | nil =>
    intro s s1 hs h
    simp only [fetchIslandClaims.claimLoop, Option.some.injEq] at h
    subst h
    exact hs
  | cons v rest ih =>
    intro s s1 hs h
    simp only [fetchIslandClaims.claimLoop] at h
    split at h
    · cases h
    · next s2 hstep =>
      exact ih s2 s1 (claimStep_covers lib islands s s2 v hs hstep) h

/-- Every surviving claim is, but for its war fields, a claim object of a list
of what `fetchIslandClaims` builds. -/
theorem build_covers (lib : Library) (islands : List (Int × IslandInstance))
    (raw wars : List Bytes) (s : FetchState)
    (h : fetchIslandClaims.build lib islands (some raw) (some wars) = some (some s)) :
    ∀ c0 ∈ survivingClaims lib islands raw,
      ∃ t ∈ s.countPerTribe, ∃ e ∈ t.islands, withoutWar e.2 = withoutWar c0 := by
  intro c0 hc0
  obtain ⟨i, hi⟩ := List.getElem?_of_mem hc0
  have hwars := build_wars lib islands raw wars s h
  unfold fetchIslandClaims.build at h
  simp only at h
  split at h
  · cases h
  · next s0 hloop =>
    simp only [Option.some.injEq] at h
    obtain ⟨hcreated, _, _⟩ := claimLoop_exact_start lib islands raw s0 hloop
    have hcov := claimLoop_covers lib islands raw _ s0 (by intro i hi; simp at hi) hloop i
      (by rw [hcreated]; exact (List.getElem?_eq_some.mp hi).1)
    obtain ⟨t0, ht0, e0, he0, hei⟩ := hcov
    have hmem : ∃ t ∈ s.countPerTribe, ∃ e ∈ t.islands, e.1 = i := by
      rw [← h, warLoop_countPerTribe]
      refine ⟨_, List.mem_map_of_mem _ ht0, _, List.mem_map_of_mem _ he0, ?_⟩
      rw [foldl_applyWar_fst]
      exact hei
    obtain ⟨t, ht, e, he, hei2⟩ := hmem
    obtain ⟨c1, hc1, hw1, _, _⟩ := hwars t ht e he
    rw [hei2, hi] at hc1
    simp only [Option.some.injEq] at hc1
    subst hc1
    exact ⟨t, ht, e, he, hw1⟩

/-- C23. In `fetchIslandClaims`, for record sets keyed by island id, in which
the surviving claims have pairwise distinct island ids and so have the war
declarations with all three values non-zero, and for a decoder that leaves the
war fields alone as their tag `json:"-"` says: a war declaration in which
`WarringTribeID`, `WarStartUTC` or `WarEndUTC` is 0 changes no claim; a
declaration with all three non-zero whose island id is that of a claim of the
result sets the three war fields of that claim to its values; and a claim of
the result with no such declaration for its island id has all three war fields
equal to 0. The claims of the result are the surviving claims, but for their
war fields. -/
theorem fetchIslandClaims_war_fields (lib : Library) (islands : List (Int × IslandInstance))
    (raw wars : List Bytes) (counts : List (Nat × TribeCount)) (crc : Nat)
    (hkeeps : lib.keepsWarFields)
    (hclaims : ((survivingClaims lib islands raw).map (fun c => c.IslandID)).Nodup)
    (hwars : ((validWars lib wars).map (fun w => w.IslandID)).Nodup)
    (h : fetchIslandClaims lib islands (some raw) (some wars) = FetchResult.ok counts crc) :
    (∀ (s : FetchState) (v : Bytes) (w : WarDeclaration), lib.unmarshalWar v = some w →
      (w.WarringTribeID = 0 ∨ w.WarStartUTC = 0 ∨ w.WarEndUTC = 0) →
      validWar lib v = none ∧
      (fetchIslandClaims.warStep lib s v).countPerTribe = s.countPerTribe) ∧
    (∀ v ∈ wars, ∀ (w : WarDeclaration), lib.unmarshalWar v = some w →
      w.WarringTribeID ≠ 0 → w.WarStartUTC ≠ 0 → w.WarEndUTC ≠ 0 →
      ∀ entry ∈ counts, ∀ c ∈ entry.2.islands, c.IslandID = w.IslandID →
        c.WarringTribeID = w.WarringTribeID ∧ c.WarStartUTC = w.WarStartUTC ∧
          c.WarEndUTC = w.WarEndUTC) ∧
    (∀ entry ∈ counts, ∀ c ∈ entry.2.islands,
      (∀ v ∈ wars, ∀ (w : WarDeclaration), lib.unmarshalWar v = some w →
        w.WarringTribeID ≠ 0 → w.WarStartUTC ≠ 0 → w.WarEndUTC ≠ 0 →
        w.IslandID ≠ c.IslandID) →
      c.WarringTribeID = 0 ∧ c.WarStartUTC = 0 ∧ c.WarEndUTC = 0) ∧
    (∀ c0 ∈ survivingClaims lib islands raw,
      ∃ entry ∈ counts, ∃ c ∈ entry.2.islands, withoutWar c = withoutWar c0) ∧
    (∀ entry ∈ counts, ∀ c ∈ entry.2.islands,
      ∃ c0 ∈ survivingClaims lib islands raw, withoutWar c = withoutWar c0) := by
  obtain ⟨raw1, s, hraw, hbuild, hcounts, _⟩ :=
    fetchIslandClaims_ok lib islands (some raw) (some wars) counts crc h
  simp only [Option.some.injEq] at hraw
  subst hraw
  have hbw := build_wars lib islands raw wars s hbuild
  have hzero := survivingClaims_warFields lib hkeeps islands raw
  subst hcounts
  refine ⟨?_, ?_, ?_, ?_, ?_⟩
  · intro s0 v w hw hz
    have hv : validWar lib v = none := by
      unfold validWar
      rw [hw]
      simp only
      rw [if_pos hz]
    exact ⟨hv, warStep_skipped lib s0 v hv⟩
  · intro v hv w hw h1 h2 h3 entry he c hc hid
    obtain ⟨t, ht, e, he2, rfl⟩ := finish_islands_mem s entry c he hc
    obtain ⟨c0, hc0, hw0, _, hlast⟩ := hbw t ht e he2
    have hcid := islandID_of_withoutWar _ _ hw0
    have hmem : w ∈ validWars lib wars := (mem_validWars lib wars w).mpr ⟨v, hv, hw, h1, h2, h3⟩
    obtain ⟨l1, l2, hsplit⟩ := List.append_of_mem hmem
    have hfields : warFields e.2 = (w.WarringTribeID, w.WarStartUTC, w.WarEndUTC) := by
      apply hlast l1 w l2 hsplit
      · exact isLastClaimOf_of_nodup _ hclaims _ _ c0 hc0 (by rw [← hcid, hid])
      · intro w1 hw1 hl
        obtain ⟨⟨c1, hc1, hid1⟩, _⟩ := hl
        have hc01 : c0 = c1 := Option.some.inj (hc0.symm.trans hc1)
        rw [hsplit, List.map_append, List.map_cons, List.nodup_append] at hwars
        have hnd := hwars.2.1
        rw [List.nodup_cons] at hnd
        apply hnd.1
        rw [List.mem_map]
        refine ⟨w1, hw1, ?_⟩
        show w1.IslandID = w.IslandID
        rw [← hid1, ← hc01, ← hcid, hid]
    simp only [warFields, Prod.mk.injEq] at hfields
    exact hfields
  · intro entry he c hc hno
    obtain ⟨t, ht, e, he2, rfl⟩ := finish_islands_mem s entry c he hc
    obtain ⟨c0, hc0, hw0, hnone, _⟩ := hbw t ht e he2
    have heq : e.2 = c0 := by
      apply hnone
      intro w hw hlast
      obtain ⟨⟨c1, hc1, hid⟩, _⟩ := hlast
      rw [hc0] at hc1
      simp only [Option.some.injEq] at hc1
      subst hc1
      obtain ⟨v, hv, hwv, h1, h2, h3⟩ := (mem_validWars lib wars w).mp hw
      exact hno v hv w hwv h1 h2 h3 (by rw [islandID_of_withoutWar _ _ hw0, hid])
    rw [heq]
    have := hzero c0 (List.getElem?_mem hc0)
    simp only [warFields, Prod.mk.injEq] at this
    exact this
  · intro c0 hc0
    obtain ⟨t, ht, e, he, hw⟩ := build_covers lib islands raw wars s hbuild c0 hc0
    exact ⟨t.finish, List.mem_map_of_mem _ ht, e.2, List.mem_map_of_mem _ he, hw⟩
  · intro entry he c hc
    obtain ⟨t, ht, e, he2, rfl⟩ := finish_islands_mem s entry c he hc
    obtain ⟨c0, hc0, hw0, _, _⟩ := hbw t ht e he2
    exact ⟨c0, List.getElem?_mem hc0, hw0⟩

set_option maxRecDepth 100000 in
/-- C23, instance: the claims of owner `5` on the islands `1` and `2`, the
declaration of war on island `1` by tribe `9` from 100 to 200, and the
declaration on island `2` whose `warEndUTC` is 0: the claim of island `1` gets
the values of the first, the claim of island `2` keeps the war fields 0. -/
theorem fetchIslandClaims_war_fields_witness :
    (fetchIslandClaims (exampleLibrary rivalTable warTable) exampleGrid.Islands
        (some [claimDoc1, claimDoc2]) (some [warDoc1, warDoc2])).warsOf =
      some [[5, 1, 9, 100, 200], [5, 2, 0, 0, 0]] ∧
    ∃ counts crc,
      fetchIslandClaims (exampleLibrary rivalTable warTable) exampleGrid.Islands
        (some [claimDoc1, claimDoc2]) (some [warDoc1, warDoc2]) = FetchResult.ok counts crc ∧
      ∀ entry ∈ counts, ∀ c ∈ entry.2.islands, c.IslandID = 1 →
        c.WarringTribeID = 9 ∧ c.WarStartUTC = 100 ∧ c.WarEndUTC = 200 :=
  ⟨by decide, _, _, rfl,
    (fetchIslandClaims_war_fields (exampleLibrary rivalTable warTable) exampleGrid.Islands
      [claimDoc1, claimDoc2] [warDoc1, warDoc2] _ _ (rivalTable_keepsWarFields warTable)
      (by decide) (by decide) rfl).2.1 warDoc1 (by decide)
      { IslandID := 1, WarringTribeID := 9, WarStartUTC := 100, WarEndUTC := 200 }
      rfl (by decide) (by decide) (by decide)⟩

/-! ### A failing read of the war declarations -/

theorem claimLoop_isSome (lib : Library) (islands : List (Int × IslandInstance)) :
    ∀ (raw : List Bytes) (s : FetchState), (∀ v ∈ raw, parseClaim lib v ≠ none) →
    ∃ s1, fetchIslandClaims.claimLoop lib islands s raw = some s1 := by
  intro raw
  induction raw with
  | nil => intro s _; exact ⟨s, rfl⟩
  | cons v rest ih =>
    intro s h
    have hv := h v (List.mem_cons_self _ _)
    have hstep : ∃ s2, fetchIslandClaims.claimStep lib islands s v = some s2 := by
      unfold fetchIslandClaims.claimStep
      simp only
      split
      · next hp => exact absurd hp hv
      · exact ⟨_, rfl⟩
      · split
        · exact ⟨_, rfl⟩
        · exact ⟨_, rfl⟩
    obtain ⟨s2, hs2⟩ := hstep
    simp only [fetchIslandClaims.claimLoop, hs2]
    exact ih s2 (fun v hv => h v (List.mem_cons_of_mem _ hv))

/-- C24. When the read of the claims succeeds and the read of the war
declarations fails, `fetchIslandClaims` ends as it ends for the same claims
and an empty set of war declarations, with the same map of owners and the same
checksum. It does not return an error; it returns a map of owners whenever no
claim value makes the repair panic; and, for a decoder that leaves the war
fields alone as their tag `json:"-"` says, all three war fields of every claim
of the map are 0. -/
theorem fetchIslandClaims_wars_unavailable (lib : Library)
    (islands : List (Int × IslandInstance)) (raw : List Bytes) :
    fetchIslandClaims lib islands (some raw) none =
      fetchIslandClaims lib islands (some raw) (some []) ∧
    fetchIslandClaims lib islands (some raw) none ≠ FetchResult.error ∧
    ((∀ v ∈ raw, parseClaim lib v ≠ none) →
      ∃ counts crc, fetchIslandClaims lib islands (some raw) none = FetchResult.ok counts crc) ∧
    (lib.keepsWarFields → ∀ (counts : List (Nat × TribeCount)) (crc : Nat),
      fetchIslandClaims lib islands (some raw) none = FetchResult.ok counts crc →
      ∀ entry ∈ counts, ∀ c ∈ entry.2.islands, warFields c = (0, 0, 0)) := by
  have heq : fetchIslandClaims lib islands (some raw) none =
      fetchIslandClaims lib islands (some raw) (some []) := by
    unfold fetchIslandClaims fetchIslandClaims.build
    simp only
    cases fetchIslandClaims.claimLoop lib islands
      { hash := 0, created := 0, islands := [], countPerTribe := [] } raw <;> rfl
  refine ⟨heq, ?_, ?_, ?_⟩
  · unfold fetchIslandClaims fetchIslandClaims.build
    simp only
    cases fetchIslandClaims.claimLoop lib islands
      { hash := 0, created := 0, islands := [], countPerTribe := [] } raw <;> simp
  · intro hraw
    obtain ⟨s1, hs1⟩ := claimLoop_isSome lib islands raw
      { hash := 0, created := 0, islands := [], countPerTribe := [] } hraw
    refine ⟨s1.countPerTribe.map TribeBuild.finish, s1.hash, ?_⟩
    unfold fetchIslandClaims fetchIslandClaims.build
    simp only [hs1]
  · intro hkeeps counts crc h entry he c hc
    rw [heq] at h
    obtain ⟨raw1, s, hraw, hbuild, hcounts, _⟩ :=
      fetchIslandClaims_ok lib islands (some raw) (some []) counts crc h
    simp only [Option.some.injEq] at hraw
    subst hraw
    subst hcounts
    obtain ⟨t, ht, e, he2, rfl⟩ := finish_islands_mem s entry c he hc
    obtain ⟨c0, hc0, _, hnone, _⟩ := build_wars lib islands raw [] s hbuild t ht e he2
    rw [hnone (by intro w hw; simp [validWars] at hw)]
    exact survivingClaims_warFields lib hkeeps islands raw c0 (List.getElem?_mem hc0)

set_option maxRecDepth 100000 in
/-- C24, instance: the claims of owner `5` on the islands `1` and `2`, the read of
the war declarations failing. -/
theorem fetchIslandClaims_wars_unavailable_witness :
    (fetchIslandClaims (exampleLibrary rivalTable warTable) exampleGrid.Islands
        (some [claimDoc1, claimDoc2]) none).warsOf =
      some [[5, 1, 0, 0, 0], [5, 2, 0, 0, 0]] ∧
    (fetchIslandClaims (exampleLibrary rivalTable warTable) exampleGrid.Islands
        (some [claimDoc1, claimDoc2]) none).countOf = some [(5, 42)] ∧
    ∃ counts crc,
      fetchIslandClaims (exampleLibrary rivalTable warTable) exampleGrid.Islands
        (some [claimDoc1, claimDoc2]) none = FetchResult.ok counts crc ∧
      ∀ entry ∈ counts, ∀ c ∈ entry.2.islands, warFields c = (0, 0, 0) :=
  ⟨by decide, by decide,
    _, _, rfl,
    (fetchIslandClaims_wars_unavailable (exampleLibrary rivalTable warTable)
      exampleGrid.Islands [claimDoc1, claimDoc2]).2.2.2 (rivalTable_keepsWarFields warTable)
      _ _ rfl⟩

/-! ### The readers of the published text -/

theorem writer_next_inv (marshal : IslandOutput → String) (now : Int) (tribes : List TribeCount)
    (virtualPixels : Int) (old : String) (s s1 : PublishState)
    (hs : s.inv marshal now tribes virtualPixels old)
    (h : generateIslandData.next marshal tribes virtualPixels s = some s1) :
    s1.inv marshal now tribes virtualPixels old := by
  obtain ⟨hpc, hlock, hseen⟩ := hs
  unfold generateIslandData.next at h
  split at h
  · next k hk =>
    rw [hk] at hpc
    obtain ⟨hle, hout, hcell⟩ := hpc
    split at h
    · next tribe ht =>
      simp only [Option.some.injEq] at h
      subst h
      obtain ⟨hlt, hget⟩ := List.getElem?_eq_some.mp ht
      refine ⟨⟨hlt, ?_, hcell⟩, by intro hh; simp [WriterPc.holdsLock] at hh, hseen⟩
      show generateIslandData.step virtualPixels s.output tribe = _
      rw [List.take_succ, ht, List.foldl_append, ← hout]
      rfl
    · next hnone =>
      simp only [Option.some.injEq] at h
      subst h
      have hge : tribes.length ≤ k := by
        by_contra hlt
        rw [List.getElem?_eq_getElem (by omega)] at hnone
        cases hnone
      refine ⟨⟨?_, hcell⟩, by intro hh; simp [WriterPc.holdsLock] at hh, hseen⟩
      show marshal s.output = _
      rw [hout, List.take_of_length_le hge]
      rfl
  · next hk =>
    rw [hk] at hpc
    split at h
    · cases h
    · next hany =>
      simp only [Option.some.injEq] at h
      subst h
      refine ⟨hpc, ?_, hseen⟩
      intro _ r hr
      by_contra hh
      apply hany
      rw [List.any_eq_true]
      exact ⟨r, hr, by simpa using hh⟩
  · next hk =>
    rw [hk] at hpc
    simp only [Option.some.injEq] at h
    subst h
    refine ⟨⟨hpc.1, ?_⟩, ?_, hseen⟩
    · show Cell.torn s.cell.text s.js = _
      rw [hpc.2, hpc.1]
      rfl
    · intro _
      exact hlock (by rw [hk]; rfl)
  · next hk =>
    rw [hk] at hpc
    simp only [Option.some.injEq] at h
    subst h
    refine ⟨⟨hpc.1, ?_⟩, ?_, hseen⟩
    · show Cell.stable s.js = _
      rw [hpc.1]
    · intro _
      exact hlock (by rw [hk]; rfl)
  · next hk =>
    rw [hk] at hpc
    simp only [Option.some.injEq] at h
    subst h
    exact ⟨hpc.2, by intro hh; simp [WriterPc.holdsLock] at hh, hseen⟩
  · cases h

theorem reader_next_inv (marshal : IslandOutput → String) (now : Int) (tribes : List TribeCount)
    (virtualPixels : Int) (old : String) (s : PublishState) (i : Nat) (pc pc1 : ReaderPc)
    (hs : s.inv marshal now tribes virtualPixels old)
    (hi : s.readers[i]? = some pc)
    (h : getIslands.next s.cell s.pc pc = some pc1) :
    PublishState.inv marshal now tribes virtualPixels old
      { s with readers := s.readers.set i pc1 } := by
  obtain ⟨hpc, hlock, hseen⟩ := hs
  have hmem : pc ∈ s.readers := List.getElem?_mem hi
  have hfree : pc.holdsLock = true → s.pc.holdsLock = false := by
    intro hp
    by_contra hw
    have := hlock (by simpa using hw) pc hmem
    rw [hp] at this
    cases this
  refine ⟨hpc, ?_, ?_⟩
  · intro hw r hr
    show r.holdsLock = false
    rcases List.mem_or_eq_of_mem_set hr with hr1 | hr1
    · exact hlock hw r hr1
    · subst hr1
      unfold getIslands.next at h
      split at h
      · split at h
        · cases h
        · next hnot =>
          exfalso
          have hw1 : s.pc.holdsLock = true := hw
          exact hnot hw1
      · have hw1 : s.pc.holdsLock = true := hw
        rw [hfree rfl] at hw1
        cases hw1
      · have hw1 : s.pc.holdsLock = true := hw
        rw [hfree rfl] at hw1
        cases hw1
      · cases h
  · intro r hr c hc
    rcases List.mem_or_eq_of_mem_set hr with hr1 | hr1
    · exact hseen r hr1 c hc
    · subst hr1
      unfold getIslands.next at h
      split at h
      · split at h
        · cases h
        · simp only [Option.some.injEq] at h
          subst h
          cases hc
      · simp only [Option.some.injEq] at h
        subst h
        simp only [ReaderPc.seen?, Option.some.injEq] at hc
        subst hc
        have hw := hfree rfl
        revert hpc hw
        cases s.pc with
        | building k => intro hpc _; exact Or.inl hpc.2.2
        | marshalled => intro hpc _; exact Or.inl hpc.2
        | locked => intro _ hw; cases hw
        | assigning => intro _ hw; cases hw
        | assigned => intro _ hw; cases hw
        | unlocked => intro hpc _; exact Or.inr hpc
      · next seen =>
        simp only [Option.some.injEq] at h
        subst h
        exact hseen (ReaderPc.read seen) hmem c hc
      · cases h

theorem publishStep_inv (marshal : IslandOutput → String) (now : Int) (tribes : List TribeCount)
    (virtualPixels : Int) (old : String) (s s1 : PublishState) (a : PublishAction)
    (hs : s.inv marshal now tribes virtualPixels old)
    (h : publishStep marshal tribes virtualPixels s a = some s1) :
    s1.inv marshal now tribes virtualPixels old := by
  unfold publishStep at h
  split at h
  · exact writer_next_inv marshal now tribes virtualPixels old s s1 hs h
  · next i =>
    split at h
    · cases h
    · next pc hi =>
      split at h
      · cases h
      · next pc1 hnext =>
        simp only [Option.some.injEq] at h
        subst h
        exact reader_next_inv marshal now tribes virtualPixels old s i pc pc1 hs hi hnext

theorem publishRun_inv (marshal : IslandOutput → String) (now : Int) (tribes : List TribeCount)
    (virtualPixels : Int) (old : String) :
    ∀ (schedule : List PublishAction) (s s1 : PublishState),
      s.inv marshal now tribes virtualPixels old →
      publishRun marshal tribes virtualPixels s schedule = some s1 →
      s1.inv marshal now tribes virtualPixels old := by
  intro schedule
  induction schedule with
  | nil =>
    intro s s1 hs h
    simp only [publishRun, Option.some.injEq] at h
    subst h
    exact hs
  | cons a rest ih =>
    intro s s1 hs h
    simp only [publishRun] at h
    split at h
    · cases h
    · next s2 hstep =>
      exact ih s2 s1 (publishStep_inv marshal now tribes virtualPixels old s s2 a hs hstep) h

theorem publishStart_inv (marshal : IslandOutput → String) (now : Int)
    (tribes : List TribeCount) (virtualPixels : Int) (old : String) (n : Nat) :
    (publishStart now old n).inv marshal now tribes virtualPixels old := by
  refine ⟨⟨Nat.zero_le _, rfl, rfl⟩, ?_, ?_⟩
  · intro h
    cases h
  · intro r hr c hc
    have : r = ReaderPc.idle := List.eq_of_mem_replicate hr
    subst this
    cases hc

/-- C27. In every interleaving of the steps of `generateIslandData` and of any
number of calls of `getIslands`, what a reader reads from `islandData` is the
whole text published before or the whole text of the finished document, never
a half written variable; the writer holds the lock only with the finished text
in hand, from `Lock()` to `Unlock()` around the assignment, and while it holds
the lock no reader does; while it builds and encodes the document it does not
hold the lock, and a reader that calls `RLock()` then is not blocked. -/
theorem getIslands_reads_whole_text (marshal : IslandOutput → String) (now : Int)
    (tribes : List TribeCount) (virtualPixels : Int) (old : String) (n : Nat)
    (schedule : List PublishAction) (s : PublishState)
    (h : publishRun marshal tribes virtualPixels (publishStart now old n) schedule = some s) :
    (∀ r ∈ s.readers, ∀ c, r.seen? = some c →
      c = Cell.stable old ∨
      c = Cell.stable (marshal (generateIslandData now tribes virtualPixels))) ∧
    (s.pc.holdsLock = true →
      s.js = marshal (generateIslandData now tribes virtualPixels) ∧
      ∀ r ∈ s.readers, r.holdsLock = false) ∧
    (s.pc.holdsLock = false → ∀ (i : Nat), s.readers[i]? = some ReaderPc.idle →
      ∃ s1, publishStep marshal tribes virtualPixels s (PublishAction.reader i) = some s1 ∧
        s1.readers[i]? = some ReaderPc.holding) ∧
    (∀ k, s.pc = WriterPc.building k → s.pc.holdsLock = false ∧ s.cell = Cell.stable old) := by
  obtain ⟨hpc, hlock, hseen⟩ := publishRun_inv marshal now tribes virtualPixels old schedule _ s
    (publishStart_inv marshal now tribes virtualPixels old n) h
  refine ⟨hseen, ?_, ?_, ?_⟩
  · intro hw
    refine ⟨?_, hlock hw⟩
    revert hpc hw
    cases s.pc with
    | building k => intro _ hw; cases hw
    | marshalled => intro _ hw; cases hw
    | locked => intro hpc _; exact hpc.1
    | assigning => intro hpc _; exact hpc.1
    | assigned => intro hpc _; exact hpc.1
    | unlocked => intro _ hw; cases hw
  · intro hw i hi
    have hlt : i < s.readers.length := (List.getElem?_eq_some.mp hi).1
    refine ⟨{ s with readers := s.readers.set i ReaderPc.holding }, ?_, ?_⟩
    · simp only [publishStep, hi, getIslands.next, hw]
      rfl
    · simp [hlt]
  · intro k hk
    rw [hk] at hpc
    exact ⟨by rw [hk]; rfl, hpc.2.2⟩

/-- C27, instance: `generateIslandData` runs at the clock reading 7 on the
aggregate `namedFirst`, with the text `{}` published before, and two readers.
In the schedule `exampleSchedule` the reader 0 reads the old text and the
reader 1 the new one; in the schedule `blockedSchedule` the reader 1 is
blocked in `RLock()`. -/
theorem getIslands_reads_whole_text_witness :
    ((publishRun (exampleLibrary [] []).marshalOutput [namedFirst] 1
        (publishStart 7 "\x7b\x7d" 2) exampleSchedule).map (fun s => s.readers)) =
      some [ReaderPc.done (Cell.stable "\x7b\x7d"), ReaderPc.done (Cell.stable "7")] ∧
    ((publishRun (exampleLibrary [] []).marshalOutput [namedFirst] 1
        (publishStart 7 "\x7b\x7d" 2) blockedSchedule).map (fun s => s.readers)) = none ∧
    ∃ s, publishRun (exampleLibrary [] []).marshalOutput [namedFirst] 1
        (publishStart 7 "\x7b\x7d" 2) exampleSchedule = some s ∧
      ∀ r ∈ s.readers, ∀ c, r.seen? = some c →
        c = Cell.stable "\x7b\x7d" ∨
        c = Cell.stable ((exampleLibrary [] []).marshalOutput
          (generateIslandData 7 [namedFirst] 1)) :=
  ⟨by decide, by decide, _, rfl,
    (getIslands_reads_whole_text (exampleLibrary [] []).marshalOutput 7 [namedFirst] 1
      "\x7b\x7d" 2 exampleSchedule _ rfl).1⟩

end AtlasMapViewer
